import Mathlib

/-!
# ReceiptService: validation and scoring of receipts

A shallow embedding of `receiptServer.go`.

* A Go string is a byte sequence.  Every string of a `Receipt` decoded by
  `encoding/json` is valid UTF-8 (the decoder replaces anything else by U+FFFD),
  so a receipt field is modelled by a Lean `String` (a sequence of Unicode scalar
  values) and `utf8` gives its bytes: `len`, indexing, `strings.Index`, slicing,
  `strconv.Atoi`, `strconv.ParseFloat` and `time.Parse` work on the bytes,
  `regexp` and `strings.TrimSpace` on the decoded characters.
* Go's `int` is the 64-bit two's complement integer of the 64-bit platforms:
  `wrapInt` reduces a mathematical integer into that range.
* The `float64` values the program computes are never negative; `GoFloat` holds
  the finite ones exactly, as `m * 2 ^ q`, next to `+Inf` and `NaN`, and every
  operation rounds as IEEE 754 does (to nearest, ties to even).
-/

namespace ReceiptService

set_option maxRecDepth 100000

/-! ## Strings and bytes -/

abbrev Bytes := List Nat

/-- The UTF-8 encoding of one Unicode scalar value. -/
def utf8EncodeChar (c : Char) : Bytes :=
  let v := c.toNat
  if v < 0x80 then [v]
  else if v < 0x800 then [0xC0 + v / 64, 0x80 + v % 64]
  else if v < 0x10000 then [0xE0 + v / 4096, 0x80 + v / 64 % 64, 0x80 + v % 64]
  else [0xF0 + v / 262144, 0x80 + v / 4096 % 64, 0x80 + v / 64 % 64, 0x80 + v % 64]

def utf8Chars : List Char → Bytes
  | [] => []
  | c :: cs => utf8EncodeChar c ++ utf8Chars cs

/-- The bytes of a Go string. -/
def utf8 (s : String) : Bytes := utf8Chars s.data

/-- Go `strings.Index(s, sep)` for a one-byte `sep`: the first position of the
byte, or `-1`. -/
def indexFrom (b : Nat) : Bytes → Nat → Int
  | [], _ => -1
  | x :: xs, i => if x = b then (i : Int) else indexFrom b xs (i + 1)

def Index (s : Bytes) (sep : Nat) : Int := indexFrom sep s 0

/-- Go `strings.LastIndex(s, sep)` for a one-byte `sep`: the last position of the
byte, or `-1`. -/
def lastIndexFrom (b : Nat) : Bytes → Nat → Int → Int
  | [], _, found => found
  | x :: xs, i, found => lastIndexFrom b xs (i + 1) (if x = b then (i : Int) else found)

def LastIndex (s : Bytes) (sep : Nat) : Int := lastIndexFrom sep s 0 (-1)

/-- Go `s[lo:]`; `none` is the run-time panic "slice bounds out of range". -/
def sliceFrom (s : Bytes) (lo : Int) : Option Bytes :=
  if 0 ≤ lo ∧ lo ≤ (s.length : Int) then some (s.drop lo.toNat) else none

/-- Go `s[:hi]`; `none` is the run-time panic "slice bounds out of range". -/
def sliceTo (s : Bytes) (hi : Int) : Option Bytes :=
  if 0 ≤ hi ∧ hi ≤ (s.length : Int) then some (s.take hi.toNat) else none

/-! ## package unicode -/

/-- Go `unicode.IsNumber` on the code points up to U+00FF (category N of the
Latin-1 table); `calcPoints` only calls it on `rune(b)` for a byte `b`. -/
def IsNumber (r : Nat) : Bool :=
  (0x30 ≤ r && r ≤ 0x39) || r = 0xB2 || r = 0xB3 || r = 0xB9 || (0xBC ≤ r && r ≤ 0xBE)

/-- Go `unicode.IsLetter` on the code points up to U+00FF (category L of the
Latin-1 table); `calcPoints` only calls it on `rune(b)` for a byte `b`. -/
def IsLetter (r : Nat) : Bool :=
  (0x41 ≤ r && r ≤ 0x5A) || (0x61 ≤ r && r ≤ 0x7A) || r = 0xAA || r = 0xB5 || r = 0xBA
    || (0xC0 ≤ r && r ≤ 0xD6) || (0xD8 ≤ r && r ≤ 0xF6) || (0xF8 ≤ r && r ≤ 0xFF)

/-- Go `unicode.IsSpace`: the Unicode White_Space property. -/
def IsSpace (c : Char) : Bool :=
  let v := c.toNat
  (0x09 ≤ v && v ≤ 0x0D) || v = 0x20 || v = 0x85 || v = 0xA0 || v = 0x1680
    || (0x2000 ≤ v && v ≤ 0x200A) || v = 0x2028 || v = 0x2029 || v = 0x202F
    || v = 0x205F || v = 0x3000

/-- Go `strings.TrimSpace`, on the decoded characters. -/
def TrimSpace (cs : List Char) : List Char :=
  ((cs.dropWhile IsSpace).reverse.dropWhile IsSpace).reverse

/-! ## The 64-bit `int` -/

/-- Reduction of an integer into the range of Go's 64-bit `int`. -/
def wrapInt (x : Int) : Int := (x + 2 ^ 63) % 2 ^ 64 - 2 ^ 63

/-- Go `a + b` on `int`. -/
def addInt (a b : Int) : Int := wrapInt (a + b)

/-- Go `a * b` on `int`. -/
def mulInt (a b : Int) : Int := wrapInt (a * b)

/-! ## package strconv: Atoi -/

/-- The errors of package strconv. -/
inductive NumError
  | errSyn
  | errRange
  deriving DecidableEq, Repr

def isDigitByte (b : Nat) : Bool := 0x30 ≤ b && b ≤ 0x39

/-- The value of a run of decimal digits, `none` when a byte is not a digit. -/
def digitsValue : Bytes → Nat → Option Nat
  | [], acc => some acc
  | b :: bs, acc => if isDigitByte b then digitsValue bs (acc * 10 + (b - 0x30)) else none

/-- The digits of `strconv.Atoi` after the sign: a text that is empty or has a
byte that is no digit gives `0` and a syntax error, a value out of the range of
`int` the nearest bound and a range error. -/
def atoiDigits (neg : Bool) (ds : Bytes) : Int × Option NumError :=
  if ds.isEmpty then (0, some NumError.errSyn)
  else
    match digitsValue ds 0 with
    | none => (0, some NumError.errSyn)
    | some n =>
      if neg then
        if n ≤ 2 ^ 63 then (-(n : Int), none) else (-(2 ^ 63 : Int), some NumError.errRange)
      else
        if n < 2 ^ 63 then ((n : Int), none) else ((2 ^ 63 - 1 : Int), some NumError.errRange)

/-- Go `strconv.Atoi`: an optional sign and one or more decimal digits. -/
def Atoi (s : Bytes) : Int × Option NumError :=
  match s with
  | [] => (0, some NumError.errSyn)
  | b :: ds =>
    if b = 0x2D then atoiDigits true ds
    else if b = 0x2B then atoiDigits false ds
    else atoiDigits false (b :: ds)

/-! ## float64 values and IEEE 754 rounding -/

/-- A `float64` that is not negative: the finite value `m * 2 ^ q`, `+Inf` or
`NaN`.  (No operation of the program yields a negative value or `-0`.) -/
inductive GoFloat
  | fin (m : Nat) (q : Int)
  | inf
  | nan
  deriving Repr

/-- The parameters of a binary floating-point format: the number of significand
bits, the exponent of the smallest quantum, and the exponent `maxE` with
`2 ^ maxE` the first value that rounds to infinity. -/
structure FloatFormat where
  prec : Nat
  minQ : Int
  maxE : Nat

def float32 : FloatFormat := { prec := 24, minQ := -149, maxE := 128 }

def float64 : FloatFormat := { prec := 53, minQ := -1074, maxE := 1024 }

def bitLenAux : Nat → Nat → Nat
  | 0, _ => 0
  | fuel + 1, n => if n = 0 then 0 else bitLenAux fuel (n / 2) + 1

/-- The number of binary digits of `n`. -/
def bitLen (n : Nat) : Nat := bitLenAux n n

/-- Whether `num / den < 2 ^ e`. -/
def ratioLtPow2 (num den : Nat) (e : Int) : Bool :=
  if 0 ≤ e then decide (num < den * 2 ^ e.toNat) else decide (num * 2 ^ (-e).toNat < den)

/-- The binary exponent of `num / den`: the `e` with `2 ^ e ≤ num / den < 2 ^ (e + 1)`,
for `num` and `den` positive. -/
def floorLog2 (num den : Nat) : Int :=
  let e0 : Int := (bitLen num : Int) - (bitLen den : Int)
  if ratioLtPow2 num den e0 then e0 - 1 else e0

/-- The integer nearest to `sn / sd`, a tie going to the even one. -/
def roundHalfEven (sn sd : Nat) : Nat :=
  let m := sn / sd
  let r := sn % sd
  if 2 * r < sd then m
  else if sd < 2 * r then m + 1
  else if m % 2 = 0 then m else m + 1

/-- The significand of `num / den` at quantum `2 ^ q`, rounded. -/
def roundAtQuantum (num den : Nat) (q : Int) : Nat :=
  if 0 ≤ q then roundHalfEven num (den * 2 ^ q.toNat)
  else roundHalfEven (num * 2 ^ (-q).toNat) den

/-- The value of format `f` nearest to `num / den` (ties to even, gradual
underflow), `+Inf` when that value is out of the format's range. -/
def roundTo (f : FloatFormat) (num den : Nat) : GoFloat :=
  if num = 0 then GoFloat.fin 0 0
  else
    let e := floorLog2 num den
    let q := max (e - ((f.prec : Int) - 1)) f.minQ
    let m := roundAtQuantum num den q
    if 0 ≤ q ∧ 2 ^ f.maxE ≤ m * 2 ^ q.toNat then GoFloat.inf else GoFloat.fin m q

/-- Go `x == 0` on `float64`. -/
def GoFloat.isZero : GoFloat → Bool
  | GoFloat.fin m _ => m == 0
  | _ => false

/-- Go `math.Mod(x, y)` for `x` not negative: exact; `NaN` when `x` is infinite or
`NaN` or `y` is zero or `NaN`, and `x` when `y` is infinite. -/
def Mod (x y : GoFloat) : GoFloat :=
  match x, y with
  | GoFloat.fin mx qx, GoFloat.fin my qy =>
    if my = 0 then GoFloat.nan
    else
      let q := min qx qy
      GoFloat.fin ((mx * 2 ^ (qx - q).toNat) % (my * 2 ^ (qy - q).toNat)) q
  | GoFloat.fin mx qx, GoFloat.inf => GoFloat.fin mx qx
  | _, _ => GoFloat.nan

/-- Go `x * y` on `float64`: the exact product, rounded. -/
def mulFloat64 (x y : GoFloat) : GoFloat :=
  match x, y with
  | GoFloat.fin mx qx, GoFloat.fin my qy =>
    let q := qx + qy
    if 0 ≤ q then roundTo float64 (mx * my * 2 ^ q.toNat) 1
    else roundTo float64 (mx * my) (2 ^ (-q).toNat)
  | GoFloat.fin m _, GoFloat.inf => if m = 0 then GoFloat.nan else GoFloat.inf
  | GoFloat.inf, GoFloat.fin m _ => if m = 0 then GoFloat.nan else GoFloat.inf
  | GoFloat.inf, GoFloat.inf => GoFloat.inf
  | _, _ => GoFloat.nan

/-- Go `math.Ceil`. -/
def Ceil : GoFloat → GoFloat
  | GoFloat.fin m q =>
    if 0 ≤ q then GoFloat.fin m q
    else GoFloat.fin ((m + 2 ^ (-q).toNat - 1) / 2 ^ (-q).toNat) 0
  | x => x

/-- The result of a float64 to int conversion whose operand is infinite, `NaN`
or out of the range of `int`.  Go leaves it implementation-dependent; this is the
value the amd64 conversion instruction gives. -/
def intIndefinite : Int := -(2 ^ 63)

/-- Go `int(x)` for a `float64`: the fraction is discarded. -/
def floatToInt : GoFloat → Int
  | GoFloat.fin m q =>
    let n : Nat := if 0 ≤ q then m * 2 ^ q.toNat else m / 2 ^ (-q).toNat
    if n < 2 ^ 63 then (n : Int) else intIndefinite
  | _ => intIndefinite

/-- The untyped constant `1.0` as a `float64`. -/
def float_1 : GoFloat := GoFloat.fin 1 0

/-- The untyped constant `0.25` as a `float64`. -/
def float_0_25 : GoFloat := GoFloat.fin 1 (-2)

/-- The untyped constant `0.2` as a `float64`: the double nearest to one fifth,
`3602879701896397 / 2 ^ 54`. -/
def float_0_2 : GoFloat := GoFloat.fin 3602879701896397 (-54)

/-! ## package strconv: ParseFloat -/

/-- Reads a run of decimal digits: the value accumulated, the number of digits
read and the rest of the text. -/
def readDigits : Bytes → Nat → Nat → Nat × Nat × Bytes
  | [], acc, n => (acc, n, [])
  | b :: bs, acc, n =>
    if isDigitByte b then readDigits bs (acc * 10 + (b - 0x30)) (n + 1) else (acc, n, b :: bs)

/-- The decimal `digits [ "." digits ]` (one digit at least) that a text spells:
`(N, k)` for the value `N / 10 ^ k`. -/
def readDecimal (s : Bytes) : Option (Nat × Nat) :=
  match readDigits s 0 0 with
  | (ip, ni, []) => if ni = 0 then none else some (ip, 0)
  | (ip, ni, b :: rest) =>
    if b = 0x2E then
      match readDigits rest ip 0 with
      | (N, nf, []) => if ni + nf = 0 then none else some (N, nf)
      | _ => none
    else none

/-- Go `strconv.ParseFloat(s, bitSize)` on unsigned decimal texts without
exponent: the value of the format (float32 for `bitSize` 32, float64 otherwise)
nearest to the decimal, as a `float64`; `+Inf` and a range error when that is out
of the format's range.  Every other text is answered as a syntax error, with
value `0`: the signed, exponent, hexadecimal, `inf` and `nan` forms that Go also
reads are not modelled (no text that the money patterns accept has them). -/
def ParseFloat (s : Bytes) (bitSize : Nat) : GoFloat × Option NumError :=
  match readDecimal s with
  | none => (GoFloat.fin 0 0, some NumError.errSyn)
  | some (N, k) =>
    match roundTo (if bitSize = 32 then float32 else float64) N (10 ^ k) with
    | GoFloat.inf => (GoFloat.inf, some NumError.errRange)
    | x => (x, none)

/-! ## package strconv: Itoa -/

def decimalDigits : Nat → Nat → List Char → List Char
  | 0, _, acc => acc
  | fuel + 1, n, acc =>
    if n < 10 then Char.ofNat (0x30 + n) :: acc
    else decimalDigits fuel (n / 10) (Char.ofNat (0x30 + n % 10) :: acc)

/-- Go `strconv.Itoa`. -/
def Itoa (i : Int) : String :=
  if i < 0 then String.mk ('-' :: decimalDigits (i.natAbs + 1) i.natAbs [])
  else String.mk (decimalDigits (i.natAbs + 1) i.natAbs [])

/-! ## package regexp: the five patterns -/

/-- The class `\d` of Go's regexp syntax: the ASCII digits. -/
def perlDigit (c : Char) : Bool := 0x30 ≤ c.toNat && c.toNat ≤ 0x39

/-- The class `\w` of Go's regexp syntax: `[0-9A-Za-z_]`. -/
def perlWord (c : Char) : Bool :=
  perlDigit c || (0x41 ≤ c.toNat && c.toNat ≤ 0x5A) || (0x61 ≤ c.toNat && c.toNat ≤ 0x7A)
    || c.toNat = 0x5F

/-- The class `\s` of Go's regexp syntax: tab, newline, form feed, carriage return
and space. -/
def perlSpace (c : Char) : Bool :=
  c.toNat = 0x09 || c.toNat = 0x0A || c.toNat = 0x0C || c.toNat = 0x0D || c.toNat = 0x20

/-- The two shapes of regular expression the program uses, as Go's regexp package
reads them (`^` and `$` are the two ends of the text). -/
inductive Regexp
  /-- The pattern `^[...]+$`, for the class given by its membership test. -/
  | classPlus (cls : Char → Bool)
  /-- The pattern `^\d+\.\d{2}$`. -/
  | digitsDotTwoDigits

def retailerPattern : Regexp :=
  Regexp.classPlus (fun c => perlWord c || perlSpace c || c.toNat = 0x2D || c.toNat = 0x26)

def totalPattern : Regexp := Regexp.digitsDotTwoDigits

def shortDescPattern : Regexp :=
  Regexp.classPlus (fun c => perlWord c || perlSpace c || c.toNat = 0x2D)

def pricePattern : Regexp := Regexp.digitsDotTwoDigits

def idPattern : Regexp := Regexp.classPlus (fun c => !perlSpace c)

/-- Matches `\d*\.\d{2}` to the end of the text. -/
def matchDigitsDotTwo : List Char → Bool
  | [] => false
  | c :: cs =>
    if perlDigit c then matchDigitsDotTwo cs
    else c.toNat = 0x2E &&
      (match cs with
       | [a, b] => perlDigit a && perlDigit b
       | _ => false)

/-- Go `Regexp.MatchString`, on the decoded characters of the text. -/
def MatchString : Regexp → List Char → Bool
  | Regexp.classPlus cls, cs => !cs.isEmpty && cs.all cls
  | Regexp.digitsDotTwoDigits, cs =>
    match cs with
    | [] => false
    | c :: rest => perlDigit c && matchDigitsDotTwo rest

def validateString (parameter : String) (pattern : Regexp) : Bool :=
  MatchString pattern parameter.data

/-! ## package time: Parse for the layouts "15:04" and "2006-01-02" -/

/-- Go `time.getnum`: one or two decimal digits, two when `fixed`. -/
def getnum (s : Bytes) (fixed : Bool) : Option (Nat × Bytes) :=
  match s with
  | [] => none
  | a :: rest =>
    if !isDigitByte a then none
    else
      match rest with
      | [] => if fixed then none else some (a - 0x30, rest)
      | b :: rest2 =>
        if isDigitByte b then some ((a - 0x30) * 10 + (b - 0x30), rest2)
        else if fixed then none else some (a - 0x30, rest)

/-- Go `time.Parse("15:04", value)`: the hour and the minute, `none` for an
error.  The hour (`15`) is one or two digits below 24, the minute (`04`) two
digits below 60, and nothing may follow. -/
def parseHourMinute (value : Bytes) : Option (Nat × Nat) :=
  match getnum value false with
  | none => none
  | some (hour, value) =>
    if 24 ≤ hour then none
    else
      match value with
      | [] => none
      | c :: value =>
        if c ≠ 0x3A then none
        else
          match getnum value true with
          | none => none
          | some (min, value) =>
            if 60 ≤ min then none
            else if value.isEmpty then some (hour, min) else none

def isLeap (year : Nat) : Bool := year % 4 = 0 && (year % 100 ≠ 0 || year % 400 = 0)

/-- Go `time.daysIn`. -/
def daysIn (month year : Nat) : Nat :=
  if month = 2 then (if isLeap year then 29 else 28)
  else if month = 4 ∨ month = 6 ∨ month = 9 ∨ month = 11 then 30
  else 31

/-- Go `time.Parse("2006-01-02", value)`: year, month and day, `none` for an
error.  The year is four digits, month and day two digits each, the month in
1..12 and the day in 1..daysIn, and nothing may follow. -/
def parseDateOnly (value : Bytes) : Option (Nat × Nat × Nat) :=
  match value with
  | y1 :: y2 :: y3 :: y4 :: c1 :: value =>
    (match digitsValue [y1, y2, y3, y4] 0 with
     | none => none
     | some year =>
       if c1 ≠ 0x2D then none
       else
         match getnum value true with
         | none => none
         | some (month, value) =>
           if month = 0 ∨ 12 < month then none
           else
             match value with
             | [] => none
             | c2 :: value =>
               if c2 ≠ 0x2D then none
               else
                 match getnum value true with
                 | none => none
                 | some (day, value) =>
                   if !value.isEmpty then none
                   else if day < 1 ∨ daysIn month year < day then none
                   else some (year, month, day))
  | _ => none

/-- A Go `error` of package time; its text is not modelled. -/
inductive ParseError
  | parseError
  deriving DecidableEq, Repr

/-- The `error` result: `none` is `nil`. -/
def validateTime (timeStr : String) : Option ParseError :=
  match parseHourMinute (utf8 timeStr) with
  | some _ => none
  | none => some ParseError.parseError

/-- The `error` result: `none` is `nil`. -/
def validateDate (dateStr : String) : Option ParseError :=
  match parseDateOnly (utf8 dateStr) with
  | some _ => none
  | none => some ParseError.parseError

/-! ## The program: data model -/

structure Item where
  ShortDescription : String
  Price : String
  deriving Repr

structure Receipt where
  Retailer : String
  PurchaseDate : String
  PurchaseTime : String
  Items : List Item
  Total : String
  deriving Repr

/-! ## calcPoints

The body of `calcPoints` is cut at its comments into six blocks, each a function
of the points counted so far, in the order of the source. -/

/-- The loop of lines 36-43 over the bytes of the retailer: `points++` when the
byte, read as a rune, is a number, else when it is a letter. -/
def retailerLoop : Bytes → Int → Int
  | [], points => points
  | b :: bs, points =>
    retailerLoop bs
      (if IsNumber b then addInt points 1
       else if IsLetter b then addInt points 1
       else points)

/-- Lines 48-54: the total is parsed with bit size 32 (the error is dropped);
50 points when `math.Mod(total, 1.0) == 0`, 25 when `math.Mod(total, 0.25) == 0`. -/
def totalBlock (points : Int) (Total : String) : Int :=
  let total := (ParseFloat (utf8 Total) 32).1
  let points := if (Mod total float_1).isZero then addInt points 50 else points
  let points := if (Mod total float_0_25).isZero then addInt points 25 else points
  points

/-- Lines 57-58: `twoItems := int(len(receipt.Items) / 2)` and
`points += (twoItems * 5)`. -/
def pairsBlock (points : Int) (Items : List Item) : Int :=
  let twoItems : Int := ((Items.length / 2 : Nat) : Int)
  addInt points (mulInt twoItems 5)

/-- The body of the loop of lines 63-70 for one item. -/
def itemStep (points : Int) (item : Item) : Int :=
  let trimmedLength := (utf8Chars (TrimSpace item.ShortDescription.data)).length
  if trimmedLength % 3 = 0 then
    let price := (ParseFloat (utf8 item.Price) 32).1
    let nearestInt := floatToInt (Ceil (mulFloat64 float_0_2 price))
    addInt points nearestInt
  else points

/-- Lines 63-70. -/
def itemsBlock (points : Int) (Items : List Item) : Int :=
  Items.foldl itemStep points

/-- Lines 73-78; `none` is a panic of the slice expression.  Go's `%` truncates
toward zero. -/
def dateBlock (points : Int) (PurchaseDate : String) : Option Int :=
  let dashIndexLast := LastIndex (utf8 PurchaseDate) 0x2D
  match sliceFrom (utf8 PurchaseDate) (dashIndexLast + 1) with
  | none => none
  | some dayStr =>
    let day := (Atoi dayStr).1
    some (if Int.tmod day 2 = 1 then addInt points 6 else points)

/-- Lines 81-90; `none` is a panic of a slice expression. -/
def timeBlock (points : Int) (PurchaseTime : String) : Option Int :=
  let colonIndex := Index (utf8 PurchaseTime) 0x3A
  match sliceTo (utf8 PurchaseTime) colonIndex with
  | none => none
  | some hourStr =>
    match sliceFrom (utf8 PurchaseTime) (colonIndex + 1) with
    | none => none
    | some minuteStr =>
      let hour := (Atoi hourStr).1
      let minute := (Atoi minuteStr).1
      some (if (hour > 14 ∧ hour < 16) ∨ (hour = 14 ∧ minute > 0) then addInt points 10
            else points)

/-- The points of a receipt; `none` when the function panics. -/
def calcPoints (receipt : Receipt) : Option Int :=
  let points : Int := 0
  let points := retailerLoop (utf8 receipt.Retailer) points
  let points := totalBlock points receipt.Total
  let points := pairsBlock points receipt.Items
  let points := itemsBlock points receipt.Items
  match dateBlock points receipt.PurchaseDate with
  | none => none
  | some points => timeBlock points receipt.PurchaseTime

/-! ## postReceipt -/

/-- What a handler writes: `http.Error(w, message, code)`, the JSON object
`{"id": id}` or `{"points": n}` with status 200, or nothing because it panicked. -/
inductive Response
  | error (message : String) (code : Nat)
  | id (id : String)
  | points (n : Int)
  | panicked
  deriving Repr, DecidableEq

/-- The three package-level variables. -/
structure Store where
  receipts : String → Option Receipt
  pointsAwarded : String → Option Int
  curID : Int

/-- Go `m[key] = value`. -/
def mapSet {α : Type} (m : String → Option α) (key : String) (value : α) : String → Option α :=
  fun k => if k = key then some value else m k

/-- The loop of lines 145-154: the first rejection among the items, if any. -/
def checkItems : List Item → Option Response
  | [] => none
  | item :: rest =>
    if !validateString item.ShortDescription shortDescPattern then
      some (Response.error "The short description for an item is invalid" 400)
    else if !validateString item.Price pricePattern then
      some (Response.error "The price for an item is invalid" 400)
    else checkItems rest

/-- Lines 125-168 of `postReceipt`: the rejection the decoded receipt meets, or
`none` when it passes every check. -/
def postReceiptChecks (receipt : Receipt) : Option Response :=
  if receipt.Retailer = "" ∨ receipt.PurchaseDate = "" ∨ receipt.PurchaseTime = ""
      ∨ receipt.Total = "" ∨ receipt.Items.length ≤ 0 then
    some (Response.error "The receipt is invalid." 400)
  else if !validateString receipt.Retailer retailerPattern then
    some (Response.error "The retailer name is invalid" 400)
  else if !validateString receipt.Total totalPattern then
    some (Response.error "The total is invalid" 400)
  else
    match checkItems receipt.Items with
    | some rejection => some rejection
    | none =>
      if validateTime receipt.PurchaseTime ≠ none then
        some (Response.error "The purchase time is invalid" 400)
      else if validateDate receipt.PurchaseDate ≠ none then
        some (Response.error "The purchase date is invalid" 400)
      else none

/-- The handler `postReceipt`.  The request body is given by what
`json.NewDecoder(r.Body).Decode(&receipt)` makes of it: `none` when it returns an
error, the decoded receipt otherwise. -/
def postReceipt (st : Store) (body : Option Receipt) : Store × Response :=
  match body with
  | none => (st, Response.error "The receipt is invalid." 400)
  | some receipt =>
    match postReceiptChecks receipt with
    | some rejection => (st, rejection)
    | none =>
      let id := Itoa st.curID
      let st := { st with receipts := mapSet st.receipts id receipt }
      match calcPoints receipt with
      | none => (st, Response.panicked)
      | some points =>
        let st := { st with pointsAwarded := mapSet st.pointsAwarded id points }
        let st := { st with curID := addInt st.curID 1 }
        if !validateString id idPattern then
          (st, Response.error "The short description for an item is invalid" 400)
        else (st, Response.id id)

/-! ## getReceiptPoints and handler

The path of a request, `r.URL.Path`, is a Go string that need not be valid UTF-8
(it is percent-decoded); it is given by its bytes. -/

/-- Go `utf8.DecodeRuneInString` where it succeeds: the character that the text
starts with and the rest of the text; `none` when the text is empty or does not
start with the UTF-8 encoding of a character (Go then yields U+FFFD, width 1). -/
def decodeRune : Bytes → Option (Char × Bytes)
  | [] => none
  | b0 :: rest =>
    if b0 < 0x80 then some (Char.ofNat b0, rest)
    else if 0xC2 ≤ b0 ∧ b0 ≤ 0xDF then
      match rest with
      | b1 :: rest =>
        if 0x80 ≤ b1 ∧ b1 ≤ 0xBF then
          some (Char.ofNat ((b0 - 0xC0) * 64 + (b1 - 0x80)), rest)
        else none
      | _ => none
    else if 0xE0 ≤ b0 ∧ b0 ≤ 0xEF then
      match rest with
      | b1 :: b2 :: rest =>
        if (if b0 = 0xE0 then 0xA0 else 0x80) ≤ b1 ∧ b1 ≤ (if b0 = 0xED then 0x9F else 0xBF)
            ∧ 0x80 ≤ b2 ∧ b2 ≤ 0xBF then
          some (Char.ofNat ((b0 - 0xE0) * 4096 + (b1 - 0x80) * 64 + (b2 - 0x80)), rest)
        else none
      | _ => none
    else if 0xF0 ≤ b0 ∧ b0 ≤ 0xF4 then
      match rest with
      | b1 :: b2 :: b3 :: rest =>
        if (if b0 = 0xF0 then 0x90 else 0x80) ≤ b1 ∧ b1 ≤ (if b0 = 0xF4 then 0x8F else 0xBF)
            ∧ 0x80 ≤ b2 ∧ b2 ≤ 0xBF ∧ 0x80 ≤ b3 ∧ b3 ≤ 0xBF then
          some (Char.ofNat ((b0 - 0xF0) * 262144 + (b1 - 0x80) * 4096 + (b2 - 0x80) * 64
            + (b3 - 0x80)), rest)
        else none
      | _ => none
    else none

def decodeRunes : Nat → Bytes → List Char
  | 0, _ => []
  | fuel + 1, s =>
    match s with
    | [] => []
    | _ :: rest =>
      match decodeRune s with
      | some (c, rest2) => c :: decodeRunes fuel rest2
      | none => Char.ofNat 0xFFFD :: decodeRunes fuel rest

/-- The runes of a Go string as `range` and package regexp read them: a byte that
starts no valid encoding is read as U+FFFD. -/
def runesOf (s : Bytes) : List Char := decodeRunes s.length s

/-- The function `validateString` on a text given by its bytes. -/
def validateBytes (parameter : Bytes) (pattern : Regexp) : Bool :=
  MatchString pattern (runesOf parameter)

/-- Go `m[key]` for a key given by its bytes: the entry of the key with these
bytes.  (The keys of the model are valid UTF-8, as `Itoa` makes them; a byte
string that is not valid UTF-8 differs from its runes encoded again and is no
key.) -/
def lookupBytes {α : Type} (m : String → Option α) (key : Bytes) : Option α :=
  if utf8Chars (runesOf key) = key then m (String.mk (runesOf key)) else none

/-- Go `strings.HasPrefix`. -/
def hasPrefix : Bytes → Bytes → Bool
  | _, [] => true
  | [], _ :: _ => false
  | x :: xs, y :: ys => x == y && hasPrefix xs ys

/-- The handler `getReceiptPoints`, for the request path `r.URL.Path`; the store
is only read.  `len("/receipts/")` is 10. -/
def getReceiptPoints (st : Store) (path : Bytes) : Response :=
  match sliceFrom path 10 with
  | none => Response.panicked
  | some id =>
    let slashIndex := Index id 0x2F
    match sliceTo id slashIndex with
    | none => Response.panicked
    | some id =>
      if !validateBytes id idPattern then Response.error "invalid ID" 404
      else
        match lookupBytes st.pointsAwarded id with
        | none => Response.error "Receipt not found for given ID " 404
        | some pointTotal => Response.points pointTotal

/-- The function `handler`, for the method and the path of the request and what
the decoder makes of its body. -/
def handler (st : Store) (method : String) (path : Bytes) (body : Option Receipt) :
    Store × Response :=
  if path = utf8 "/receipts/process" ∧ method = "POST" then postReceipt st body
  else if hasPrefix path (utf8 "/receipts/") = true ∧ method = "GET" then
    (st, getReceiptPoints st path)
  else (st, Response.error "Not Found" 404)

/-! ## The specification's readings, for comparison with the program -/

/-- The rational value of the finite float `m * 2 ^ q`. -/
def finVal (m : Nat) (q : Int) : ℚ := (m : ℚ) * (2 : ℚ) ^ q

/-- Follows the spec's words ("currency values are parsed as decimal numbers with
two fractional digits"): the exact amount of a money text in hundredths, that is
its digits read as one number, the point left out. -/
def centsOf (s : String) : Nat :=
  (s.data.filter Char.isDigit).foldl (fun acc c => acc * 10 + (c.toNat - 48)) 0

/-- Follows the spec's words (rule R5): for an item whose description, trimmed,
has a length divisible by 3, `ceil(0.2 * price)` on the exact price, that is the
number of hundredths divided by 500 and rounded up; nothing for another item. -/
def itemPoints (item : Item) : Nat :=
  if (TrimSpace item.ShortDescription.data).length % 3 = 0
  then (centsOf item.Price + 499) / 500 else 0

/-- Follows the spec's words (the rule table R1..R7 of section 4.2), amounts being
exact.  Day, hour and minute are the ones the validator reads. -/
def ruleTablePoints (r : Receipt) : Int :=
  let r1 : Nat := (r.Retailer.data.filter Char.isAlphanum).length
  let r2 : Nat := if centsOf r.Total % 100 = 0 then 50 else 0
  let r3 : Nat := if centsOf r.Total % 25 = 0 then 25 else 0
  let r4 : Nat := 5 * (r.Items.length / 2)
  let r5 : Nat := (r.Items.map itemPoints).sum
  let r6 : Nat := match parseDateOnly (utf8 r.PurchaseDate) with
    | some (_, _, day) => if day % 2 = 1 then 6 else 0
    | none => 0
  let r7 : Nat := match parseHourMinute (utf8 r.PurchaseTime) with
    | some (hour, minute) => if (hour = 14 ∧ 0 < minute) ∨ hour = 15 then 10 else 0
    | none => 0
  ((r1 + r2 + r3 + r4 + r5 + r6 + r7 : Nat) : Int)

/-- The two checks of each item, in sequence order: whether the check fails, and
the rejection it then reports. -/
def itemChecks : List Item → List (Bool × Response)
  | [] => []
  | item :: rest =>
    (!validateString item.ShortDescription shortDescPattern,
      Response.error "The short description for an item is invalid" 400)
    :: (!validateString item.Price pricePattern,
      Response.error "The price for an item is invalid" 400)
    :: itemChecks rest

/-- Follows the spec's words (section 4.1, checks 2 to 7 "in this fixed order"):
every check of a decoded receipt with whether it fails and the rejection it then
reports. -/
def orderedChecks (r : Receipt) : List (Bool × Response) :=
  [ (decide (r.Retailer = "" ∨ r.PurchaseDate = "" ∨ r.PurchaseTime = "" ∨ r.Total = ""
        ∨ r.Items.length ≤ 0), Response.error "The receipt is invalid." 400),
    (!validateString r.Retailer retailerPattern,
      Response.error "The retailer name is invalid" 400),
    (!validateString r.Total totalPattern, Response.error "The total is invalid" 400) ]
  ++ itemChecks r.Items
  ++ [ (decide (validateTime r.PurchaseTime ≠ none),
         Response.error "The purchase time is invalid" 400),
       (decide (validateDate r.PurchaseDate ≠ none),
         Response.error "The purchase date is invalid" 400) ]

/-- The rejection of the first check of `orderedChecks` that fails, `none` when
all pass. -/
def firstViolation (r : Receipt) : Option Response :=
  ((orderedChecks r).find? (fun check => check.1)).map (fun check => check.2)

/-! ## Receipts used as examples -/

/-- The first receipt of `TestCalcPoints` (scenario A of the spec). -/
def scenarioA : Receipt :=
  { Retailer := "M&M Corner Market", PurchaseDate := "2022-03-20", PurchaseTime := "14:33",
    Items := [⟨"Gatorade", "2.25"⟩, ⟨"Gatorade", "2.25"⟩, ⟨"Gatorade", "2.25"⟩,
      ⟨"Gatorade", "2.25"⟩],
    Total := "9.00" }

/-- The second receipt of `TestCalcPoints` (scenario B of the spec). -/
def scenarioB : Receipt :=
  { Retailer := "Target", PurchaseDate := "2022-01-01", PurchaseTime := "13:01",
    Items := [⟨"Mountain Dew 12PK", "6.49"⟩, ⟨"Emils Cheese Pizza", "12.25"⟩,
      ⟨"Knorr Creamy Chicken", "1.26"⟩, ⟨"Doritos Nacho Cheese", "3.35"⟩,
      ⟨"   Klarbrunn 12-PK 12 FL OZ  ", "12.00"⟩],
    Total := "35.35" }

/-- The receipt of `TestCalcPointsAllRules`. -/
def storeTwelve : Receipt :=
  { Retailer := "Store12", PurchaseDate := "2024-02-07", PurchaseTime := "14:15",
    Items := [⟨"ABC", "3.00"⟩, ⟨"ABC", "4.00"⟩], Total := "10.00" }

/-- The empty store the program starts with. -/
def emptyStore : Store :=
  { receipts := fun _ => none, pointsAwarded := fun _ => none, curID := 0 }

/-- The states of the store that the program goes through, from the empty store
and by calls of `postReceipt`.  A call is made with fewer than `2 ^ 63 - 1` receipts
stored: a Go map, whose `len` is an `int`, holds fewer than `2 ^ 63` entries. -/
inductive Reachable : Store → Prop
  | init : Reachable emptyStore
  | post (st : Store) (body : Option Receipt) :
      Reachable st → st.curID + 1 < 2 ^ 63 → Reachable (postReceipt st body).1

/-- The number that a text of decimal digits spells, read after `start`. -/
def digitsVal (cs : List Char) (start : Nat) : Nat :=
  cs.foldl (fun acc c => acc * 10 + (c.toNat - 48)) start

/-- An accepted receipt whose only item has a description of three spaces. -/
def blankDescription : Receipt :=
  { Retailer := "Target", PurchaseDate := "2022-01-02", PurchaseTime := "13:01",
    Items := [⟨"   ", "5.00"⟩], Total := "10.01" }

/-- An accepted receipt whose total, 262144.01, is not a round amount. -/
def largeTotal : Receipt :=
  { Retailer := "Target", PurchaseDate := "2022-01-02", PurchaseTime := "13:01",
    Items := [⟨"Gatorade", "2.25"⟩], Total := "262144.01" }

/-- An accepted receipt whose total is ten to the 39, above every float32. -/
def hugeTotal : Receipt :=
  { Retailer := "Target", PurchaseDate := "2022-01-02", PurchaseTime := "13:01",
    Items := [⟨"Gatorade", "2.25"⟩],
    Total := "1000000000000000000000000000000000000000.00" }

/-- An accepted receipt with two items of 40000000000000000000.00 each. -/
def overflowing : Receipt :=
  { Retailer := "Target", PurchaseDate := "2022-01-02", PurchaseTime := "13:01",
    Items := [⟨"ABC", "40000000000000000000.00"⟩, ⟨"ABC", "40000000000000000000.00"⟩],
    Total := "10.01" }

/-- An accepted receipt with one item, "ABC" at 262145.01. -/
def largePrice : Receipt :=
  { Retailer := "Target", PurchaseDate := "2022-01-02", PurchaseTime := "13:01",
    Items := [⟨"ABC", "262145.01"⟩], Total := "10.01" }

/-- The keys of the two maps are the decimal texts of the integers from 0 up to
`curID`, `curID` left out. -/
def KeysBelowCurID (st : Store) : Prop :=
  0 ≤ st.curID ∧
  (∀ k, (st.receipts k).isSome = true ↔ ∃ i : Int, 0 ≤ i ∧ i < st.curID ∧ k = Itoa i) ∧
  (∀ k, (st.pointsAwarded k).isSome = true ↔ ∃ i : Int, 0 ≤ i ∧ i < st.curID ∧ k = Itoa i)

/-- The store after the first receipt of `TestCalcPoints` is posted to the empty
store. -/
def oneReceiptStore : Store := (postReceipt emptyStore (some scenarioA)).1

/-- The receipt of `TestPostReceiptBlank`: every field empty. -/
def blankReceipt : Receipt :=
  { Retailer := "", PurchaseDate := "", PurchaseTime := "", Items := [], Total := "" }

/-- The receipt of `TestInvalidReceipts` with the purchase time "1400". -/
def timeWithoutColon : Receipt :=
  { Retailer := "Store", PurchaseDate := "2022-01-01", PurchaseTime := "1400",
    Items := [⟨"Mountain Dew 12PK", "6.49"⟩], Total := "10.00" }

/-- The same receipt with the purchase time "9:30". -/
def oneDigitHour : Receipt :=
  { Retailer := "Store", PurchaseDate := "2022-01-01", PurchaseTime := "9:30",
    Items := [⟨"Mountain Dew 12PK", "6.49"⟩], Total := "10.00" }

/-- The receipt of `TestInvalidReceipts` with the price "649". -/
def priceWithoutPoint : Receipt :=
  { Retailer := "Store", PurchaseDate := "2022-01-01", PurchaseTime := "14:00",
    Items := [⟨"Mountain Dew 12PK", "649"⟩], Total := "10.00" }

/-- The receipt of `TestInvalidReceipts` with the total "1000". -/
def totalWithoutPoint : Receipt :=
  { Retailer := "Store", PurchaseDate := "2022-01-01", PurchaseTime := "14:00",
    Items := [⟨"Mountain Dew 12PK", "6.49"⟩], Total := "1000" }

/-! # Theorems -/

/-! ## Lemmas on the library model -/

theorem isDigitByte_iff (b : Nat) : isDigitByte b = true ↔ 48 ≤ b ∧ b ≤ 57 := by
  simp [isDigitByte]

theorem getnum_fixed_some (s rest : Bytes) (n : Nat) (h : getnum s true = some (n, rest)) :
    ∃ a b, s = a :: b :: rest ∧ isDigitByte a = true ∧ isDigitByte b = true ∧
      n = (a - 48) * 10 + (b - 48) := by
  rcases s with _ | ⟨a, _ | ⟨b, r⟩⟩
  · simp [getnum] at h
  · cases ha : isDigitByte a <;> simp [getnum, ha] at h
  · cases ha : isDigitByte a <;> cases hb : isDigitByte b <;> simp [getnum, ha, hb] at h
    exact ⟨a, b, by rw [h.2], ha, hb, h.1.symm⟩

theorem getnum_free_some (s rest : Bytes) (n : Nat) (h : getnum s false = some (n, rest)) :
    (∃ a b, s = a :: b :: rest ∧ isDigitByte a = true ∧ isDigitByte b = true ∧
      n = (a - 48) * 10 + (b - 48)) ∨
    (∃ a, s = a :: rest ∧ isDigitByte a = true ∧ n = a - 48 ∧
      ∀ b r, rest = b :: r → isDigitByte b = false) := by
  rcases s with _ | ⟨a, _ | ⟨b, r⟩⟩
  · simp [getnum] at h
  · cases ha : isDigitByte a <;> simp [getnum, ha] at h
    exact Or.inr ⟨a, by rw [h.2], ha, h.1.symm, by intro b r hr; rw [h.2] at hr; cases hr⟩
  · cases ha : isDigitByte a <;> cases hb : isDigitByte b <;> simp [getnum, ha, hb] at h
    · refine Or.inr ⟨a, by rw [h.2], ha, h.1.symm, ?_⟩
      intro b2 r2 hr
      rw [← h.2] at hr
      cases hr
      exact hb
    · exact Or.inl ⟨a, b, by rw [h.2], ha, hb, h.1.symm⟩

/-- The two shapes of a text that `time.Parse("15:04", _)` reads. -/
theorem parseHourMinute_shape (b : Bytes) (h m : Nat) (hp : parseHourMinute b = some (h, m)) :
    h < 24 ∧ m < 60 ∧
    ((∃ a c d, b = [a, 0x3A, c, d] ∧ isDigitByte a = true ∧ isDigitByte c = true ∧
        isDigitByte d = true ∧ h = a - 48 ∧ m = (c - 48) * 10 + (d - 48)) ∨
     (∃ a a2 c d, b = [a, a2, 0x3A, c, d] ∧ isDigitByte a = true ∧ isDigitByte a2 = true ∧
        isDigitByte c = true ∧ isDigitByte d = true ∧
        h = (a - 48) * 10 + (a2 - 48) ∧ m = (c - 48) * 10 + (d - 48))) := by
  unfold parseHourMinute at hp
  split at hp
  · cases hp
  · rename_i hour value hg
    split at hp
    · cases hp
    · rename_i hlt
      split at hp
      · cases hp
      · rename_i c value2
        split at hp
        · cases hp
        · rename_i hc
          split at hp
          · cases hp
          · rename_i min value3 hg2
            split at hp
            · cases hp
            · rename_i hmin
              split at hp
              · rename_i hemp
                simp only [Option.some.injEq, Prod.mk.injEq] at hp
                obtain ⟨rfl, rfl⟩ := hp
                have hv3 : value3 = [] := by simpa using hemp
                subst hv3
                have hc2 : c = 58 := by simpa using hc
                subst hc2
                obtain ⟨x, y, hxy, hx, hy, hm⟩ := getnum_fixed_some _ _ _ hg2
                subst hxy
                refine ⟨by omega, by omega, ?_⟩
                rcases getnum_free_some _ _ _ hg with ⟨a, a2, hs, ha, ha2, hh⟩ | ⟨a, hs, ha, hh, _⟩
                · exact Or.inr ⟨a, a2, x, y, hs, ha, ha2, hx, hy, hh, hm⟩
                · exact Or.inl ⟨a, x, y, hs, ha, hx, hy, hh, hm⟩
              · cases hp

theorem Atoi_one_digit (a : Nat) (ha : isDigitByte a = true) :
    Atoi [a] = (((a - 48 : Nat) : Int), none) := by
  have h := (isDigitByte_iff a).1 ha
  have h1 : a ≠ 45 := by omega
  have h2 : a ≠ 43 := by omega
  simp [Atoi, atoiDigits, digitsValue, ha, h1, h2]
  omega

theorem Atoi_two_digits (a b : Nat) (ha : isDigitByte a = true) (hb : isDigitByte b = true) :
    Atoi [a, b] = ((((a - 48) * 10 + (b - 48) : Nat) : Int), none) := by
  have h := (isDigitByte_iff a).1 ha
  have h' := (isDigitByte_iff b).1 hb
  have h1 : a ≠ 45 := by omega
  have h2 : a ≠ 43 := by omega
  simp [Atoi, atoiDigits, digitsValue, ha, hb, h1, h2]
  omega

/-- On a text that `time.Parse("15:04", _)` reads, the colon is found, both slices
are in bounds and `Atoi` reads the hour and the minute that `time.Parse` reads. -/
theorem time_slices (b : Bytes) (h m : Nat) (hp : parseHourMinute b = some (h, m)) :
    ∃ hourStr minuteStr, 0 ≤ Index b 0x3A ∧
      sliceTo b (Index b 0x3A) = some hourStr ∧
      sliceFrom b (Index b 0x3A + 1) = some minuteStr ∧
      Atoi hourStr = ((h : Int), none) ∧ Atoi minuteStr = ((m : Int), none) := by
  obtain ⟨_, _, hs | hs⟩ := parseHourMinute_shape b h m hp
  · obtain ⟨a, c, d, rfl, ha, hc, hd, rfl, rfl⟩ := hs
    have h1 : a ≠ 58 := by have := (isDigitByte_iff a).1 ha; omega
    refine ⟨[a], [c, d], ?_, ?_, ?_, Atoi_one_digit a ha, Atoi_two_digits c d hc hd⟩
    · simp [Index, indexFrom, h1]
    · simp [Index, indexFrom, h1, sliceTo]
    · simp [Index, indexFrom, h1, sliceFrom]
  · obtain ⟨a, a2, c, d, rfl, ha, ha2, hc, hd, rfl, rfl⟩ := hs
    have h1 : a ≠ 58 := by have := (isDigitByte_iff a).1 ha; omega
    have h2 : a2 ≠ 58 := by have := (isDigitByte_iff a2).1 ha2; omega
    refine ⟨[a, a2], [c, d], ?_, ?_, ?_, Atoi_two_digits a a2 ha ha2, Atoi_two_digits c d hc hd⟩
    · simp [Index, indexFrom, h1, h2]
    · simp [Index, indexFrom, h1, h2, sliceTo]
    · simp [Index, indexFrom, h1, h2, sliceFrom]

theorem timeBlock_of_parse (points : Int) (t : String) (h m : Nat)
    (hp : parseHourMinute (utf8 t) = some (h, m)) :
    timeBlock points t =
      some (if (h = 14 ∧ 0 < m) ∨ h = 15 then addInt points 10 else points) := by
  obtain ⟨hourStr, minuteStr, _, h1, h2, h3, h4⟩ := time_slices _ h m hp
  simp only [timeBlock, h1, h2, h3, h4]
  congr 1
  by_cases hc : (h = 14 ∧ 0 < m) ∨ h = 15
  · rw [if_pos hc, if_pos]
    omega
  · rw [if_neg hc, if_neg]
    omega

theorem daysIn_le (month year : Nat) : daysIn month year ≤ 31 := by
  unfold daysIn
  split
  · split <;> omega
  · split <;> omega

/-- The shape of a text that `time.Parse("2006-01-02", _)` reads. -/
theorem parseDateOnly_shape (b : Bytes) (y mo d : Nat) (hp : parseDateOnly b = some (y, mo, d)) :
    ∃ y1 y2 y3 y4 m1 m2 d1 d2, b = [y1, y2, y3, y4, 0x2D, m1, m2, 0x2D, d1, d2] ∧
      isDigitByte d1 = true ∧ isDigitByte d2 = true ∧ isDigitByte m1 = true ∧
      isDigitByte m2 = true ∧ d = (d1 - 48) * 10 + (d2 - 48) ∧
      mo = (m1 - 48) * 10 + (m2 - 48) ∧ 1 ≤ mo ∧ mo ≤ 12 ∧ 1 ≤ d ∧ d ≤ daysIn mo y := by
  unfold parseDateOnly at hp
  split at hp
  · rename_i y1 y2 y3 y4 c1 value
    split at hp
    · cases hp
    · rename_i year hy
      split at hp
      · cases hp
      · rename_i hc1
        split at hp
        · cases hp
        · rename_i month value2 hg
          split at hp
          · cases hp
          · rename_i hmonth
            split at hp
            · cases hp
            · rename_i c2 value3
              split at hp
              · cases hp
              · rename_i hc2
                split at hp
                · cases hp
                · rename_i day value4 hg2
                  split at hp
                  · cases hp
                  · rename_i hemp
                    split at hp
                    · cases hp
                    · rename_i hday
                      simp only [Option.some.injEq, Prod.mk.injEq] at hp
                      obtain ⟨rfl, rfl, rfl⟩ := hp
                      have hv : value4 = [] := by simpa using hemp
                      subst hv
                      have e1 : c1 = 45 := by simpa using hc1
                      have e2 : c2 = 45 := by simpa using hc2
                      subst e1 e2
                      obtain ⟨m1, m2, hs, hm1, hm2, hm⟩ := getnum_fixed_some _ _ _ hg
                      obtain ⟨d1, d2, hs2, hd1, hd2, hd⟩ := getnum_fixed_some _ _ _ hg2
                      subst hs hs2
                      exact ⟨y1, y2, y3, y4, m1, m2, d1, d2, rfl, hd1, hd2, hm1, hm2, hd, hm,
                        by omega, by omega, by omega, by omega⟩
  · cases hp

/-- On a text that `time.Parse("2006-01-02", _)` reads, the last dash is found,
the slice after it is in bounds and `Atoi` reads the day that `time.Parse` reads. -/
theorem date_slices (b : Bytes) (y mo d : Nat) (hp : parseDateOnly b = some (y, mo, d)) :
    ∃ dayStr, 0 ≤ LastIndex b 0x2D ∧ sliceFrom b (LastIndex b 0x2D + 1) = some dayStr ∧
      Atoi dayStr = ((d : Int), none) := by
  obtain ⟨y1, y2, y3, y4, m1, m2, d1, d2, rfl, hd1, hd2, _, _, rfl, _⟩ :=
    parseDateOnly_shape b y mo d hp
  have h1 : d1 ≠ 45 := by have := (isDigitByte_iff d1).1 hd1; omega
  have h2 : d2 ≠ 45 := by have := (isDigitByte_iff d2).1 hd2; omega
  have hl : LastIndex [y1, y2, y3, y4, 0x2D, m1, m2, 0x2D, d1, d2] 0x2D = 7 := by
    simp [LastIndex, lastIndexFrom, h1, h2]
  refine ⟨[d1, d2], ?_, ?_, Atoi_two_digits d1 d2 hd1 hd2⟩
  · rw [hl]; decide
  · rw [hl]; simp [sliceFrom]

theorem dateBlock_of_parse (points : Int) (s : String) (y mo d : Nat)
    (hp : parseDateOnly (utf8 s) = some (y, mo, d)) :
    dateBlock points s = some (if d % 2 = 1 then addInt points 6 else points) := by
  obtain ⟨dayStr, _, h1, h2⟩ := date_slices _ y mo d hp
  have ht : Int.tmod (d : Int) 2 = ((d % 2 : Nat) : Int) := (Int.ofNat_tmod d 2).symm
  simp only [dateBlock, h1, h2, ht]
  congr 1
  by_cases hc : d % 2 = 1
  · rw [if_pos hc, if_pos]
    omega
  · rw [if_neg hc, if_neg]
    omega

/-! ### Rounding never more than doubles a value -/

theorem roundHalfEven_mul_le (sn sd : Nat) (hsd : 0 < sd) :
    roundHalfEven sn sd * sd ≤ 2 * sn := by
  have hdm := Nat.div_add_mod sn sd
  have hcomm : sn / sd * sd = sd * (sn / sd) := Nat.mul_comm _ _
  unfold roundHalfEven
  dsimp only
  split
  · omega
  · split
    · rw [Nat.add_mul]; omega
    · split
      · omega
      · rw [Nat.add_mul]; omega

theorem two_zpow_toNat (q : Int) (hq : 0 ≤ q) : ((2 : ℚ) ^ q.toNat) = (2 : ℚ) ^ q := by
  conv_rhs => rw [← Int.toNat_of_nonneg hq]
  exact (zpow_natCast 2 q.toNat).symm

theorem two_zpow_neg_toNat (q : Int) (hq : q < 0) :
    ((2 : ℚ) ^ (-q).toNat) * (2 : ℚ) ^ q = 1 := by
  have h : (0 : Int) ≤ -q := by omega
  rw [two_zpow_toNat (-q) h, ← zpow_add₀ (by norm_num : (2 : ℚ) ≠ 0)]
  simp

theorem roundAtQuantum_le (num den : Nat) (q : Int) (hden : 0 < den) :
    finVal (roundAtQuantum num den q) q ≤ 2 * (num : ℚ) / den := by
  have hdenq : (0 : ℚ) < den := by exact_mod_cast hden
  have h2q : (0 : ℚ) < (2 : ℚ) ^ q := zpow_pos (by norm_num) q
  unfold roundAtQuantum finVal
  rw [le_div_iff₀ hdenq]
  split
  · rename_i hq
    have h := roundHalfEven_mul_le num (den * 2 ^ q.toNat) (by positivity)
    have h' : ((roundHalfEven num (den * 2 ^ q.toNat) : ℚ)) * (den * 2 ^ q.toNat) ≤ 2 * num := by
      exact_mod_cast h
    rw [two_zpow_toNat q hq] at h'
    linarith
  · rename_i hq
    have hq' : q < 0 := by omega
    have h := roundHalfEven_mul_le (num * 2 ^ (-q).toNat) den hden
    have h' : ((roundHalfEven (num * 2 ^ (-q).toNat) den : ℚ)) * den
        ≤ 2 * (num * 2 ^ (-q).toNat) := by
      exact_mod_cast h
    have h1 := two_zpow_neg_toNat q hq'
    have h3 := mul_le_mul_of_nonneg_right h' h2q.le
    have h4 : 2 * ((num : ℚ) * 2 ^ (-q).toNat) * 2 ^ q = 2 * num := by
      rw [mul_assoc 2, mul_assoc (num : ℚ), h1]; ring
    rw [h4] at h3
    linarith

/-- What `roundTo` gives: a finite value at most twice the exact one, or infinity
when twice the exact value reaches the overflow bound; never `NaN`. -/
theorem roundTo_cases (f : FloatFormat) (num den : Nat) (hden : 0 < den) :
    (∃ m q, roundTo f num den = GoFloat.fin m q ∧ finVal m q ≤ 2 * (num : ℚ) / den) ∨
    (roundTo f num den = GoFloat.inf ∧ (2 : ℚ) ^ f.maxE ≤ 2 * (num : ℚ) / den) := by
  unfold roundTo
  split
  · rename_i h0
    refine Or.inl ⟨0, 0, rfl, ?_⟩
    subst h0
    simp [finVal]
  · dsimp only
    split
    · rename_i hov
      refine Or.inr ⟨rfl, ?_⟩
      refine le_trans ?_ (roundAtQuantum_le num den
        (max (floorLog2 num den - ((f.prec : Int) - 1)) f.minQ) hden)
      unfold finVal
      rw [← two_zpow_toNat _ hov.1]
      exact_mod_cast hov.2
    · exact Or.inl ⟨_, _, rfl, roundAtQuantum_le num den _ hden⟩

/-! ### Reading an amount of money -/

theorem utf8EncodeChar_ascii (c : Char) (h : c.toNat < 128) : utf8EncodeChar c = [c.toNat] := by
  simp [utf8EncodeChar, h]

theorem perlDigit_iff (c : Char) : perlDigit c = true ↔ 48 ≤ c.toNat ∧ c.toNat ≤ 57 := by
  simp [perlDigit]

theorem utf8Chars_digit (c : Char) (cs : List Char) (h : perlDigit c = true) :
    utf8Chars (c :: cs) = c.toNat :: utf8Chars cs := by
  have := (perlDigit_iff c).1 h
  simp [utf8Chars, utf8EncodeChar_ascii c (by omega)]

theorem isDigitByte_of_perlDigit (c : Char) (h : perlDigit c = true) :
    isDigitByte c.toNat = true := by
  have := (perlDigit_iff c).1 h
  simp [isDigitByte]; omega

theorem readDigits_money (cs : List Char) (h : matchDigitsDotTwo cs = true) (acc n : Nat) :
    3 ≤ cs.length ∧ ∃ ip ni a b, readDigits (utf8Chars cs) acc n = (ip, ni, [0x2E, a, b]) ∧
      isDigitByte a = true ∧ isDigitByte b = true ∧ ip < (acc + 1) * 10 ^ (cs.length - 3) := by
  induction cs generalizing acc n with
  | nil => simp [matchDigitsDotTwo] at h
  | cons c cs ih =>
    unfold matchDigitsDotTwo at h
    split at h
    · rename_i hc
      obtain ⟨hlen, ip, ni, a, b, hr, ha, hb, hlt⟩ := ih h (acc * 10 + (c.toNat - 48)) (n + 1)
      refine ⟨by simp; omega, ip, ni, a, b, ?_, ha, hb, ?_⟩
      · rw [utf8Chars_digit c cs hc, readDigits, if_pos (isDigitByte_of_perlDigit c hc)]
        exact hr
      · have hd := (perlDigit_iff c).1 hc
        have e : (c :: cs).length - 3 = (cs.length - 3) + 1 := by simp; omega
        rw [e, pow_succ]
        calc ip < (acc * 10 + (c.toNat - 48) + 1) * 10 ^ (cs.length - 3) := hlt
          _ ≤ ((acc + 1) * 10) * 10 ^ (cs.length - 3) :=
              Nat.mul_le_mul_right _ (by omega)
          _ = (acc + 1) * (10 ^ (cs.length - 3) * 10) := by ring
    · rename_i hc
      simp only [Bool.and_eq_true, decide_eq_true_eq] at h
      obtain ⟨hdot, hrest⟩ := h
      split at hrest
      · rename_i a b
        simp only [Bool.and_eq_true] at hrest
        have hda := (perlDigit_iff a).1 hrest.1
        have hdb := (perlDigit_iff b).1 hrest.2
        have hnd : isDigitByte 46 = false := by decide
        refine ⟨by simp, acc, n, a.toNat, b.toNat, ?_, isDigitByte_of_perlDigit a hrest.1,
          isDigitByte_of_perlDigit b hrest.2, by simp⟩
        simp [utf8Chars, utf8EncodeChar_ascii c (by omega), utf8EncodeChar_ascii a (by omega),
          utf8EncodeChar_ascii b (by omega), hdot, readDigits, hnd]
      · cases hrest

/-- A text that `^\d+\.\d{2}$` matches is read as a number of hundredths:
`N / 10 ^ 2` with `N` below ten to the number of its digits. -/
theorem readDecimal_money (cs : List Char) (h : MatchString Regexp.digitsDotTwoDigits cs = true) :
    ∃ N, readDecimal (utf8Chars cs) = some (N, 2) ∧ N < 10 ^ (cs.length - 1) := by
  rcases cs with _ | ⟨c, rest⟩
  · simp [MatchString] at h
  · simp only [MatchString, Bool.and_eq_true] at h
    obtain ⟨hc, hrest⟩ := h
    obtain ⟨hlen, ip, ni, a, b, hr, ha, hb, hlt⟩ := readDigits_money rest hrest (c.toNat - 48) 1
    have hd := (perlDigit_iff c).1 hc
    have hda := (isDigitByte_iff a).1 ha
    have hdb := (isDigitByte_iff b).1 hb
    refine ⟨(ip * 10 + (a - 48)) * 10 + (b - 48), ?_, ?_⟩
    · have h1 : readDigits (utf8Chars (c :: rest)) 0 0 = (ip, ni, [0x2E, a, b]) := by
        rw [utf8Chars_digit c rest hc, readDigits, if_pos (isDigitByte_of_perlDigit c hc)]
        simpa using hr
      unfold readDecimal
      rw [h1]
      simp [readDigits, ha, hb]
    · have e : (c :: rest).length - 1 = (rest.length - 3) + 3 := by simp; omega
      rw [e, pow_add]
      have h10 : ip + 1 ≤ 10 * 10 ^ (rest.length - 3) := by
        calc ip + 1 ≤ (c.toNat - 48 + 1) * 10 ^ (rest.length - 3) := hlt
          _ ≤ 10 * 10 ^ (rest.length - 3) := Nat.mul_le_mul_right _ (by omega)
      have : (ip + 1) * 100 ≤ 10 ^ (rest.length - 3) * 10 ^ 3 := by
        calc (ip + 1) * 100 ≤ (10 * 10 ^ (rest.length - 3)) * 100 := Nat.mul_le_mul_right _ h10
          _ = 10 ^ (rest.length - 3) * 10 ^ 3 := by ring
      omega

theorem mulFloat64_cases (mx my : Nat) (qx qy : Int) :
    (∃ m q, mulFloat64 (GoFloat.fin mx qx) (GoFloat.fin my qy) = GoFloat.fin m q ∧
      finVal m q ≤ 2 * (finVal mx qx * finVal my qy)) ∨
    (mulFloat64 (GoFloat.fin mx qx) (GoFloat.fin my qy) = GoFloat.inf ∧
      (2 : ℚ) ^ float64.maxE ≤ 2 * (finVal mx qx * finVal my qy)) := by
  have key : ∀ num den : Nat, 0 < den →
      (num : ℚ) / den = finVal mx qx * finVal my qy →
      (∃ m q, roundTo float64 num den = GoFloat.fin m q ∧
        finVal m q ≤ 2 * (finVal mx qx * finVal my qy)) ∨
      (roundTo float64 num den = GoFloat.inf ∧
        (2 : ℚ) ^ float64.maxE ≤ 2 * (finVal mx qx * finVal my qy)) := by
    intro num den hden hval
    have e : 2 * (num : ℚ) / den = 2 * (finVal mx qx * finVal my qy) := by
      rw [← hval]; ring
    rcases roundTo_cases float64 num den hden with ⟨m, q, h1, h2⟩ | ⟨h1, h2⟩
    · exact Or.inl ⟨m, q, h1, by rw [← e]; exact h2⟩
    · exact Or.inr ⟨h1, by rw [← e]; exact h2⟩
  have hprod : finVal mx qx * finVal my qy = (mx : ℚ) * my * (2 : ℚ) ^ (qx + qy) := by
    unfold finVal
    rw [zpow_add₀ (by norm_num : (2 : ℚ) ≠ 0)]
    ring
  unfold mulFloat64
  dsimp only
  split
  · rename_i hq
    apply key _ 1 (by norm_num)
    rw [hprod, ← two_zpow_toNat _ hq]
    push_cast
    ring
  · rename_i hq
    have hq' : qx + qy < 0 := by omega
    apply key _ _ (by positivity)
    rw [hprod]
    have h1 := two_zpow_neg_toNat _ hq'
    have hpos : (0 : ℚ) < (2 : ℚ) ^ (-(qx + qy)).toNat := by positivity
    push_cast
    rw [div_eq_iff hpos.ne']
    rw [mul_assoc ((mx : ℚ) * my), mul_comm ((2 : ℚ) ^ (qx + qy)), h1]
    ring

/-- The conversion of a rounded-up finite value that a natural number below
`2 ^ 63` bounds: it is in the range of `int` and within the bound. -/
theorem floatToInt_Ceil_le (m : Nat) (q : Int) (B : Nat) (hB : B < 2 ^ 63)
    (h : finVal m q ≤ B) :
    0 ≤ floatToInt (Ceil (GoFloat.fin m q)) ∧ floatToInt (Ceil (GoFloat.fin m q)) ≤ B := by
  by_cases hq : 0 ≤ q
  · have hle : m * 2 ^ q.toNat ≤ B := by
      have : ((m * 2 ^ q.toNat : Nat) : ℚ) ≤ B := by
        push_cast
        rw [two_zpow_toNat q hq]
        exact h
      exact_mod_cast this
    have hv : floatToInt (Ceil (GoFloat.fin m q)) = ((m * 2 ^ q.toNat : Nat) : Int) := by
      simp only [Ceil, floatToInt, hq, if_true]
      rw [if_pos (by omega)]
    rw [hv]
    exact ⟨Int.natCast_nonneg _, by exact_mod_cast hle⟩
  · have hq' : q < 0 := by omega
    have hpos : 0 < 2 ^ (-q).toNat := by positivity
    have hm : m ≤ B * 2 ^ (-q).toNat := by
      have h1 := two_zpow_neg_toNat q hq'
      have h2q : (0 : ℚ) < (2 : ℚ) ^ (-q).toNat := by positivity
      have : (m : ℚ) ≤ B * 2 ^ (-q).toNat := by
        have h3 := mul_le_mul_of_nonneg_right h h2q.le
        unfold finVal at h3
        rw [mul_assoc, mul_comm ((2 : ℚ) ^ q), h1, mul_one] at h3
        exact h3
      exact_mod_cast this
    have hle : (m + 2 ^ (-q).toNat - 1) / 2 ^ (-q).toNat ≤ B := by
      apply Nat.le_of_lt_succ
      rw [Nat.div_lt_iff_lt_mul hpos, Nat.succ_mul]
      omega
    have hv : floatToInt (Ceil (GoFloat.fin m q)) =
        (((m + 2 ^ (-q).toNat - 1) / 2 ^ (-q).toNat : Nat) : Int) := by
      simp only [Ceil, floatToInt, hq, if_false, le_refl, if_true, Int.toNat_zero, pow_zero,
        mul_one]
      rw [if_pos (by omega)]
    rw [hv]
    exact ⟨Int.natCast_nonneg _, by exact_mod_cast hle⟩

/-- Parsing an amount that `^\d+\.\d{2}$` matches with bit size 32: a finite value
at most twice the amount and no error, or infinity and a range error when twice
the amount reaches `2 ^ 128`. -/
theorem ParseFloat_money (s : String) (h : validateString s pricePattern = true) :
    ∃ N : Nat, N < 10 ^ (s.length - 1) ∧
      ((∃ m q, ParseFloat (utf8 s) 32 = (GoFloat.fin m q, none) ∧
          finVal m q ≤ 2 * (N : ℚ) / 100) ∨
       (ParseFloat (utf8 s) 32 = (GoFloat.inf, some NumError.errRange) ∧
          (2 : ℚ) ^ (128 : Nat) ≤ 2 * (N : ℚ) / 100)) := by
  obtain ⟨N, hN, hlt⟩ := readDecimal_money s.data h
  refine ⟨N, hlt, ?_⟩
  have hcast : (((10 ^ 2 : Nat) : ℕ) : ℚ) = 100 := by norm_num
  rcases roundTo_cases float32 N (10 ^ 2) (by norm_num) with ⟨m, q, h1, h2⟩ | ⟨h1, h2⟩
  · refine Or.inl ⟨m, q, ?_, by rw [hcast] at h2; exact h2⟩
    simp only [ParseFloat, utf8, hN, if_true, h1]
  · refine Or.inr ⟨?_, by rw [hcast] at h2; exact h2⟩
    simp only [ParseFloat, utf8, hN, if_true, h1]

theorem float_0_2_le : finVal 3602879701896397 (-54) ≤ 1 / 4 := by
  unfold finVal
  rw [zpow_neg, ← div_eq_mul_inv, div_le_iff₀ (by positivity)]
  norm_num

/-- The points of one item whose price the price pattern accepts and has at most
`d` digits before the point, `10 ^ d` being below `2 ^ 63`: between the points
before and these plus `10 ^ d`, when that sum does not overflow. -/
theorem itemStep_bounds (points : Int) (item : Item) (d : Nat)
    (hv : validateString item.Price pricePattern = true)
    (hlen : item.Price.length ≤ d + 3) (hd : 10 ^ d < 2 ^ 63)
    (h0 : 0 ≤ points) (hB : points + 10 ^ d < 2 ^ 63) :
    points ≤ itemStep points item ∧ itemStep points item ≤ points + 10 ^ d := by
  unfold itemStep
  dsimp only
  split
  · obtain ⟨N, hN, hcases⟩ := ParseFloat_money item.Price hv
    have hN' : N < 100 * 10 ^ d := by
      calc N < 10 ^ (item.Price.length - 1) := hN
        _ ≤ 10 ^ (d + 2) := Nat.pow_le_pow_right (by norm_num) (by omega)
        _ = 100 * 10 ^ d := by ring
    have hNq : (N : ℚ) < 100 * 10 ^ d := by exact_mod_cast hN'
    have hdq : ((10 : ℚ) ^ d) < 2 ^ 63 := by exact_mod_cast hd
    have key : 0 ≤ floatToInt (Ceil (mulFloat64 float_0_2 (ParseFloat (utf8 item.Price) 32).1))
        ∧ floatToInt (Ceil (mulFloat64 float_0_2 (ParseFloat (utf8 item.Price) 32).1))
          ≤ ((10 ^ d : Nat) : Int) := by
      rcases hcases with ⟨m, q, hp, hval⟩ | ⟨_, hinf⟩
      · rw [hp]
        have hval' : finVal m q ≤ 2 * 10 ^ d := by
          have : 2 * (N : ℚ) / 100 ≤ 2 * 10 ^ d := by
            rw [div_le_iff₀ (by norm_num)]; linarith
          linarith
        have hm0 : 0 ≤ finVal m q := by unfold finVal; positivity
        rcases mulFloat64_cases 3602879701896397 m (-54) q with ⟨m2, q2, hm, hv2⟩ | ⟨_, hinf⟩
        · have : mulFloat64 float_0_2 (GoFloat.fin m q) = GoFloat.fin m2 q2 := hm
          dsimp only
          rw [this]
          apply floatToInt_Ceil_le m2 q2 (10 ^ d) hd
          have h5 := mul_le_mul float_0_2_le hval' hm0 (by norm_num)
          push_cast
          linarith
        · exfalso
          have h5 := mul_le_mul float_0_2_le hval' hm0 (by norm_num)
          have h6 : (2 : ℚ) ^ 63 ≤ (2 : ℚ) ^ float64.maxE :=
            pow_le_pow_right₀ (by norm_num) (by decide)
          linarith
      · exfalso
        have h6 : (2 : ℚ) ^ 64 ≤ (2 : ℚ) ^ (128 : Nat) :=
          pow_le_pow_right₀ (by norm_num) (by norm_num)
        have : 2 * (N : ℚ) / 100 < 2 * 10 ^ d := by
          rw [div_lt_iff₀ (by norm_num)]; linarith
        have h7 : (2 : ℚ) ^ 64 = 2 * 2 ^ 63 := by norm_num
        linarith
    have hcd : ((10 ^ d : Nat) : Int) = 10 ^ d := by push_cast; rfl
    rw [hcd] at key
    have hw : addInt points
        (floatToInt (Ceil (mulFloat64 float_0_2 (ParseFloat (utf8 item.Price) 32).1))) =
        points + floatToInt (Ceil (mulFloat64 float_0_2 (ParseFloat (utf8 item.Price) 32).1)) := by
      unfold addInt wrapInt
      omega
    rw [hw]
    omega
  · have : (0 : Int) ≤ 10 ^ d := by positivity
    omega


/-! ## Lemmas on the checks of postReceipt -/

theorem checkItems_none (items : List Item) (h : checkItems items = none) :
    ∀ item ∈ items, validateString item.ShortDescription shortDescPattern = true ∧
      validateString item.Price pricePattern = true := by
  induction items with
  | nil => intro item hi; cases hi
  | cons it rest ih =>
    unfold checkItems at h
    split at h
    · cases h
    · rename_i h1
      split at h
      · cases h
      · rename_i h2
        intro item hi
        rcases List.mem_cons.1 hi with rfl | hi
        · exact ⟨by simpa using h1, by simpa using h2⟩
        · exact ih h item hi

theorem find_itemChecks (items : List Item) (tail : List (Bool × Response)) :
    ((itemChecks items ++ tail).find? (fun check => check.1)).map (fun check => check.2) =
      match checkItems items with
      | some rejection => some rejection
      | none => (tail.find? (fun check => check.1)).map (fun check => check.2) := by
  induction items with
  | nil => simp [itemChecks, checkItems]
  | cons it rest ih =>
    cases h1 : validateString it.ShortDescription shortDescPattern <;>
      cases h2 : validateString it.Price pricePattern <;>
      simp [itemChecks, checkItems, h1, h2, List.find?_cons]
    simpa using ih

theorem find_three (b1 b2 b3 : Bool) (e1 e2 e3 : Response) (rest : List (Bool × Response)) :
    (((b1, e1) :: (b2, e2) :: (b3, e3) :: rest).find? (fun check => check.1)).map
        (fun check => check.2) =
      if b1 = true then some e1 else if b2 = true then some e2 else if b3 = true then some e3
      else (rest.find? (fun check => check.1)).map (fun check => check.2) := by
  cases b1 <;> cases b2 <;> cases b3 <;> simp [List.find?_cons]

theorem find_two (b1 b2 : Bool) (e1 e2 : Response) :
    (([(b1, e1), (b2, e2)] : List (Bool × Response)).find? (fun check => check.1)).map
        (fun check => check.2) =
      if b1 = true then some e1 else if b2 = true then some e2 else none := by
  cases b1 <;> cases b2 <;> simp [List.find?_cons]

/-- The checks of `postReceipt` report the first violation in the order of the
spec. -/
theorem postReceiptChecks_eq_firstViolation (r : Receipt) :
    postReceiptChecks r = firstViolation r := by
  unfold firstViolation orderedChecks
  rw [show ∀ (a b c : Bool × Response) (xs ys : List (Bool × Response)),
      [a, b, c] ++ xs ++ ys = a :: b :: c :: (xs ++ ys) from fun _ _ _ _ _ => rfl]
  rw [find_three, find_itemChecks, find_two]
  unfold postReceiptChecks
  simp only [decide_eq_true_eq, Bool.not_eq_true']

/-- What a receipt that passes every check of `postReceipt` satisfies. -/
theorem accepted_facts (r : Receipt) (h : postReceiptChecks r = none) :
    r.Items ≠ [] ∧
    validateString r.Retailer retailerPattern = true ∧
    validateString r.Total totalPattern = true ∧
    (∀ item ∈ r.Items, validateString item.ShortDescription shortDescPattern = true ∧
      validateString item.Price pricePattern = true) ∧
    (∃ hour minute, parseHourMinute (utf8 r.PurchaseTime) = some (hour, minute)) ∧
    (∃ year month day, parseDateOnly (utf8 r.PurchaseDate) = some (year, month, day)) := by
  unfold postReceiptChecks at h
  split at h
  · cases h
  · rename_i h1
    split at h
    · cases h
    · rename_i h2
      split at h
      · cases h
      · rename_i h3
        split at h
        · cases h
        · rename_i hc
          split at h
          · cases h
          · rename_i h4
            split at h
            · cases h
            · rename_i h5
              refine ⟨?_, by simpa using h2, by simpa using h3, checkItems_none _ hc, ?_, ?_⟩
              · intro he
                apply h1
                simp [he]
              · unfold validateTime at h4
                split at h4
                · rename_i x hx
                  exact ⟨x.1, x.2, hx⟩
                · simp at h4
              · unfold validateDate at h5
                split at h5
                · rename_i x hx
                  exact ⟨x.1, x.2.1, x.2.2, hx⟩
                · simp at h5

/-- On a receipt that passes the checks `calcPoints` does not panic. -/
theorem calcPoints_accepted (r : Receipt) (h : postReceiptChecks r = none) :
    ∃ points, calcPoints r = some points := by
  obtain ⟨_, _, _, _, ⟨hour, minute, ht⟩, ⟨year, month, day, hd⟩⟩ := accepted_facts r h
  unfold calcPoints
  dsimp only
  rw [dateBlock_of_parse _ _ year month day hd]
  dsimp only
  rw [timeBlock_of_parse _ _ hour minute ht]
  exact ⟨_, rfl⟩

theorem decimalDigits_noSpace (fuel n : Nat) (acc : List Char)
    (hacc : ∀ c ∈ acc, perlSpace c = false) :
    ∀ c ∈ decimalDigits fuel n acc, perlSpace c = false := by
  have hdig : ∀ d, d < 10 → perlSpace (Char.ofNat (0x30 + d)) = false := by
    intro d hd
    interval_cases d <;> decide
  induction fuel generalizing n acc with
  | zero => simpa [decimalDigits] using hacc
  | succ fuel ih =>
    unfold decimalDigits
    split
    · rename_i hn
      intro c hc
      rcases List.mem_cons.1 hc with rfl | hc
      · exact hdig n hn
      · exact hacc c hc
    · apply ih
      intro c hc
      rcases List.mem_cons.1 hc with rfl | hc
      · exact hdig _ (Nat.mod_lt _ (by norm_num))
      · exact hacc c hc

theorem decimalDigits_ne_nil (fuel n : Nat) (acc : List Char) (h : 0 < fuel ∨ acc ≠ []) :
    decimalDigits fuel n acc ≠ [] := by
  induction fuel generalizing n acc with
  | zero =>
    rcases h with h | h
    · omega
    · simpa [decimalDigits] using h
  | succ fuel ih =>
    unfold decimalDigits
    split
    · simp
    · exact ih _ _ (Or.inr (by simp))

/-- The sanity check of line 178 never fails: an identifier made by `Itoa` is not
empty and has no white space. -/
theorem Itoa_matches_idPattern (i : Int) : validateString (Itoa i) idPattern = true := by
  have h := decimalDigits_noSpace (i.natAbs + 1) i.natAbs [] (by simp)
  have hne := decimalDigits_ne_nil (i.natAbs + 1) i.natAbs [] (Or.inl (by omega))
  have hm : ∀ cs : List Char, cs ≠ [] → (∀ c ∈ cs, perlSpace c = false) →
      MatchString idPattern cs = true := by
    intro cs h1 h2
    simp only [idPattern, MatchString, Bool.and_eq_true, Bool.not_eq_true',
      List.isEmpty_eq_false, List.all_eq_true]
    exact ⟨h1, h2⟩
  unfold validateString Itoa
  by_cases hi : i < 0
  · rw [if_pos hi]
    apply hm
    · simp
    · intro c hc
      rcases List.mem_cons.1 hc with rfl | hc
      · decide
      · exact h c hc
  · rw [if_neg hi]
    exact hm _ hne h

/-- The answer of `postReceipt` to a decoded receipt: the rejection of its checks,
or the new identifier. -/
theorem postReceipt_response (st : Store) (r : Receipt) :
    (postReceipt st (some r)).2 =
      match postReceiptChecks r with
      | some rejection => rejection
      | none => Response.id (Itoa st.curID) := by
  cases hc : postReceiptChecks r with
  | some rejection => simp only [postReceipt, hc]
  | none =>
    obtain ⟨points, hp⟩ := calcPoints_accepted r hc
    simp only [postReceipt, hc, hp, Itoa_matches_idPattern, Bool.not_true,
      Bool.false_eq_true, if_false]

/-! ## C4: the two rules on the total -/

theorem Mod_fin_one (m : Nat) (q : Int) :
    (Mod (GoFloat.fin m q) float_1).isZero =
      if 0 ≤ q then true else (m % 2 ^ (-q).toNat == 0) := by
  unfold Mod float_1 GoFloat.isZero
  simp only [one_ne_zero, if_false, one_mul]
  by_cases hq : 0 ≤ q
  · rw [if_pos hq, min_eq_right hq]
    simp [Nat.mod_one]
  · rw [if_neg hq, min_eq_left (by omega)]
    simp

theorem Mod_fin_quarter (m : Nat) (q : Int) :
    (Mod (GoFloat.fin m q) float_0_25).isZero =
      if -2 ≤ q then true else (m % 2 ^ (-2 - q).toNat == 0) := by
  unfold Mod float_0_25 GoFloat.isZero
  simp only [one_ne_zero, if_false, one_mul]
  by_cases hq : -2 ≤ q
  · rw [if_pos hq, min_eq_right hq]
    simp [Nat.mod_one]
  · rw [if_neg hq, min_eq_left (by omega)]
    simp

/-- A float whose remainder by 1 is zero has a zero remainder by 0.25. -/
theorem Mod_one_quarter (x : GoFloat) (h : (Mod x float_1).isZero = true) :
    (Mod x float_0_25).isZero = true := by
  cases x with
  | inf => simp [Mod, float_1, GoFloat.isZero] at h
  | nan => simp [Mod, float_1, GoFloat.isZero] at h
  | fin m q =>
    rw [Mod_fin_one] at h
    rw [Mod_fin_quarter]
    by_cases h2 : -2 ≤ q
    · rw [if_pos h2]
    · rw [if_neg h2]
      have hq : ¬ 0 ≤ q := by omega
      rw [if_neg hq] at h
      simp only [beq_iff_eq] at h ⊢
      have hd : 2 ^ (-2 - q).toNat ∣ 2 ^ (-q).toNat :=
        pow_dvd_pow 2 (by omega)
      exact Nat.mod_eq_zero_of_dvd (dvd_trans hd (Nat.dvd_of_mod_eq_zero h))

/-- The three outcomes of the block of the total. -/
theorem totalBlock_cases (points : Int) (Total : String) :
    totalBlock points Total = points ∨ totalBlock points Total = addInt points 25 ∨
      totalBlock points Total = addInt (addInt points 50) 25 := by
  unfold totalBlock
  dsimp only
  cases h1 : (Mod (ParseFloat (utf8 Total) 32).1 float_1).isZero
  · cases h2 : (Mod (ParseFloat (utf8 Total) 32).1 float_0_25).isZero
    · simp
    · simp
  · rw [Mod_one_quarter _ h1]
    simp

/-- C4. For every total text (those that the money pattern accepts among them),
the 50 points of the round-dollar rule are never given without the 25 points of the
quarter rule: the two rules together leave the points as they are, add 25, or add 50
and then 25, so that they contribute 0, 25 or 75 and never 50.  The total "10.00"
contributes 75, "10.50" contributes 25 and "10.49" contributes 0. -/
theorem total_rules_never_fifty_alone :
    (∀ Total : String,
      ((Mod (ParseFloat (utf8 Total) 32).1 float_1).isZero &&
        !(Mod (ParseFloat (utf8 Total) 32).1 float_0_25).isZero) = false) ∧
    (∀ (points : Int) (Total : String),
      totalBlock points Total = points ∨ totalBlock points Total = addInt points 25 ∨
        totalBlock points Total = addInt (addInt points 50) 25) ∧
    (∀ Total : String,
      totalBlock 0 Total = 0 ∨ totalBlock 0 Total = 25 ∨ totalBlock 0 Total = 75) ∧
    totalBlock 0 "10.00" = 75 ∧ totalBlock 0 "10.50" = 25 ∧ totalBlock 0 "10.49" = 0 := by
  refine ⟨?_, totalBlock_cases, ?_, by decide, by decide, by decide⟩
  · intro Total
    cases h1 : (Mod (ParseFloat (utf8 Total) 32).1 float_1).isZero
    · rfl
    · rw [Mod_one_quarter _ h1]
      rfl
  · intro Total
    rcases totalBlock_cases 0 Total with h | h | h
    · exact Or.inl h
    · exact Or.inr (Or.inl (by rw [h]; decide))
    · exact Or.inr (Or.inr (by rw [h]; decide))

/-! ## C6: the time rule -/

/-- C6. For every purchase time that the validator accepts (`validateTime` returns
no error) and whatever the points counted before, the time block of `calcPoints`
adds 10 exactly when the time is strictly after 14:00 and strictly before 16:00,
that is when the hour is 14 and the minute is positive or the hour is 15, and adds
nothing otherwise; hour and minute are the ones `time.Parse` reads. -/
theorem timeBlock_adds_ten_iff (points : Int) (PurchaseTime : String)
    (h : validateTime PurchaseTime = none) :
    ∃ hour minute, parseHourMinute (utf8 PurchaseTime) = some (hour, minute) ∧
      timeBlock points PurchaseTime =
        some (if (hour = 14 ∧ 0 < minute) ∨ hour = 15 then addInt points 10 else points) ∧
      (((hour = 14 ∧ 0 < minute) ∨ hour = 15) ↔
        (14 * 60 < hour * 60 + minute ∧ hour * 60 + minute < 16 * 60)) := by
  unfold validateTime at h
  split at h
  · rename_i x hx
    obtain ⟨hour, minute⟩ := x
    obtain ⟨_, hmin, _⟩ := parseHourMinute_shape _ hour minute hx
    refine ⟨hour, minute, hx, timeBlock_of_parse points PurchaseTime hour minute hx, ?_⟩
    omega
  · cases h

/-- C6, on the times of the spec: "14:00" adds nothing, "14:01" and "15:59" add 10,
"16:00" adds nothing. -/
theorem timeBlock_adds_ten_iff_witness :
    validateTime "14:01" = none ∧
    (∃ hour minute, parseHourMinute (utf8 "14:01") = some (hour, minute) ∧
      timeBlock 0 "14:01" =
        some (if (hour = 14 ∧ 0 < minute) ∨ hour = 15 then addInt 0 10 else 0) ∧
      (((hour = 14 ∧ 0 < minute) ∨ hour = 15) ↔
        (14 * 60 < hour * 60 + minute ∧ hour * 60 + minute < 16 * 60))) ∧
    timeBlock 0 "14:00" = some 0 ∧ timeBlock 0 "14:01" = some 10 ∧
    timeBlock 0 "15:59" = some 10 ∧ timeBlock 0 "16:00" = some 0 :=
  ⟨by decide, timeBlock_adds_ten_iff 0 "14:01" (by decide), by decide, by decide, by decide,
    by decide⟩

/-! ## C7: the retailer rule -/

theorem isAlphanum_iff (c : Char) :
    c.isAlphanum = true ↔ (48 ≤ c.toNat ∧ c.toNat ≤ 57) ∨ (65 ≤ c.toNat ∧ c.toNat ≤ 90) ∨
      (97 ≤ c.toNat ∧ c.toNat ≤ 122) := by
  have e : c.toNat = c.val.toBitVec.toNat := rfl
  simp only [Char.isAlphanum, Char.isAlpha, Char.isUpper, Char.isLower, Char.isDigit, ge_iff_le,
    UInt32.le_def, BitVec.le_def, Bool.and_eq_true, Bool.or_eq_true, decide_eq_true_eq, e]
  constructor
  · rintro (⟨h | h⟩ | h)
    · exact Or.inr (Or.inl h)
    · exact Or.inr (Or.inr h)
    · exact Or.inl h
  · rintro (h | h | h)
    · exact Or.inr h
    · exact Or.inl (Or.inl h)
    · exact Or.inl (Or.inr h)

theorem addInt_of_range (a b : Int) (ha : 0 ≤ a) (hb : 0 ≤ b) (h : a + b < 2 ^ 63) :
    addInt a b = a + b := by
  unfold addInt wrapInt
  omega

/-- The class of the retailer pattern has ASCII characters only. -/
theorem retailerClass_ascii (c : Char)
    (h : (perlWord c || perlSpace c || decide (c.toNat = 0x2D) || decide (c.toNat = 0x26)) = true) :
    c.toNat < 128 := by
  simp only [perlWord, perlDigit, perlSpace, Bool.or_eq_true, Bool.and_eq_true,
    decide_eq_true_eq] at h
  omega

theorem retailerStep_ascii (c : Char) (hc : c.toNat < 128) :
    (IsNumber c.toNat || IsLetter c.toNat) = c.isAlphanum := by
  rw [Bool.eq_iff_iff, isAlphanum_iff]
  simp only [IsNumber, IsLetter, Bool.or_eq_true, Bool.and_eq_true, decide_eq_true_eq]
  omega

theorem retailerLoop_ascii (cs : List Char) (hcs : ∀ c ∈ cs, c.toNat < 128) (points : Int)
    (h0 : 0 ≤ points) (hb : points + (utf8Chars cs).length < 2 ^ 63) :
    retailerLoop (utf8Chars cs) points =
      points + ((cs.filter Char.isAlphanum).length : Int) := by
  induction cs generalizing points with
  | nil => simp [utf8Chars, retailerLoop]
  | cons c cs ih =>
    have hc : c.toNat < 128 := hcs c (List.mem_cons_self _ _)
    have hcs' : ∀ x ∈ cs, x.toNat < 128 := fun x hx => hcs x (List.mem_cons_of_mem _ hx)
    have hu : utf8Chars (c :: cs) = c.toNat :: utf8Chars cs := by
      simp [utf8Chars, utf8EncodeChar_ascii c hc]
    rw [hu] at hb ⊢
    simp only [List.length_cons, Nat.cast_add, Nat.cast_one] at hb
    have hstep := retailerStep_ascii c hc
    unfold retailerLoop
    cases ha : c.isAlphanum
    · rw [ha] at hstep
      simp only [Bool.or_eq_false_iff] at hstep
      rw [hstep.1, hstep.2]
      simp only [Bool.false_eq_true, if_false]
      rw [ih hcs' points h0 (by omega)]
      simp [List.filter_cons, ha]
    · rw [ha] at hstep
      have hp : (if IsNumber c.toNat = true then addInt points 1
          else if IsLetter c.toNat = true then addInt points 1 else points) = points + 1 := by
        rw [addInt_of_range points 1 h0 (by norm_num) (by omega)]
        simp only [Bool.or_eq_true] at hstep
        rcases hstep with h | h
        · rw [if_pos h]
        · split <;> simp [h]
      rw [hp, ih hcs' (points + 1) (by omega) (by omega)]
      simp [List.filter_cons, ha]
      ring

/-- C7. For every retailer that the retailer pattern accepts (its length, as that
of any Go string, being below `2 ^ 63`), the loop that `calcPoints` starts with
counts exactly the characters of the retailer that are letters or digits; all its
characters being ASCII, these are the ASCII letters and digits.  A retailer without
any letter or digit gets 0. -/
theorem retailerLoop_counts_letters_and_digits (Retailer : String)
    (hv : validateString Retailer retailerPattern = true)
    (hlen : (utf8 Retailer).length < 2 ^ 63) :
    (∀ c ∈ Retailer.data, c.toNat < 128) ∧
    retailerLoop (utf8 Retailer) 0 = ((Retailer.data.filter Char.isAlphanum).length : Int) ∧
    ((∀ c ∈ Retailer.data, c.isAlphanum = false) → retailerLoop (utf8 Retailer) 0 = 0) := by
  have hascii : ∀ c ∈ Retailer.data, c.toNat < 128 := by
    simp only [validateString, retailerPattern, MatchString, Bool.and_eq_true,
      List.all_eq_true] at hv
    intro c hc
    exact retailerClass_ascii c (hv.2 c hc)
  have hcount := retailerLoop_ascii Retailer.data hascii 0 (le_refl 0)
    (by simpa [utf8] using hlen)
  rw [zero_add] at hcount
  refine ⟨hascii, hcount, ?_⟩
  intro hnone
  rw [utf8, hcount, List.filter_eq_nil_iff.2 (by simpa using hnone)]
  rfl

/-- C7, on the retailer " - & " of the spec: no letter, no digit, no point. -/
theorem retailerLoop_counts_letters_and_digits_witness :
    validateString " - & " retailerPattern = true ∧ (utf8 " - & ").length < 2 ^ 63 ∧
    retailerLoop (utf8 " - & ") 0 = 0 ∧
    retailerLoop (utf8 "M&M Corner Market") 0 = 14 :=
  ⟨by decide, by decide,
    (retailerLoop_counts_letters_and_digits " - & " (by decide) (by decide)).2.2 (by decide),
    by decide⟩

/-! ## C2: the order of the checks -/

/-- C2. For every store and request body, `postReceipt` answers with the rejection
of the first check that fails, in the order decode, missing field, retailer, total,
then description and price of each item in sequence, then time, then date, and it
answers with the new identifier exactly when every check passes.  In particular an
empty receipt is rejected as missing a field, a receipt with an invalid retailer and
an invalid total as an invalid retailer, a receipt whose first item has an invalid
price and whose second has an invalid description as an invalid price, and a receipt
with an invalid time and an invalid date as an invalid time. -/
theorem postReceipt_reports_first_violation :
    (∀ (st : Store) (body : Option Receipt),
      (postReceipt st body).2 =
        match body with
        | none => Response.error "The receipt is invalid." 400
        | some r =>
          match firstViolation r with
          | some rejection => rejection
          | none => Response.id (Itoa st.curID)) ∧
    (∀ st : Store, (postReceipt st (some ⟨"", "", "", [], ""⟩)).2 =
      Response.error "The receipt is invalid." 400) ∧
    (∀ st : Store, (postReceipt st (some ⟨"Invalid@", "2022-01-01", "14:00",
        [⟨"Mountain Dew 12PK", "6.49"⟩], "1000"⟩)).2 =
      Response.error "The retailer name is invalid" 400) ∧
    (∀ st : Store, (postReceipt st (some ⟨"Store", "2022-01-01", "14:00",
        [⟨"Mountain Dew 12PK", "649"⟩, ⟨"Mountain@ Dew 12PK", "6.49"⟩], "10.00"⟩)).2 =
      Response.error "The price for an item is invalid" 400) ∧
    (∀ st : Store, (postReceipt st (some ⟨"Store", "01-01-2022", "1400",
        [⟨"Mountain Dew 12PK", "6.49"⟩], "10.00"⟩)).2 =
      Response.error "The purchase time is invalid" 400) := by
  refine ⟨?_, ?_, ?_, ?_, ?_⟩
  · intro st body
    cases body with
    | none => rfl
    | some r => rw [postReceipt_response, postReceiptChecks_eq_firstViolation]
  · intro st
    simp only [postReceipt, show postReceiptChecks ⟨"", "", "", [], ""⟩ =
      some (Response.error "The receipt is invalid." 400) from by decide]
  · intro st
    simp only [postReceipt, show postReceiptChecks ⟨"Invalid@", "2022-01-01", "14:00",
        [⟨"Mountain Dew 12PK", "6.49"⟩], "1000"⟩ =
      some (Response.error "The retailer name is invalid" 400) from by decide]
  · intro st
    simp only [postReceipt, show postReceiptChecks ⟨"Store", "2022-01-01", "14:00",
        [⟨"Mountain Dew 12PK", "649"⟩, ⟨"Mountain@ Dew 12PK", "6.49"⟩], "10.00"⟩ =
      some (Response.error "The price for an item is invalid" 400) from by decide]
  · intro st
    simp only [postReceipt, show postReceiptChecks ⟨"Store", "01-01-2022", "1400",
        [⟨"Mountain Dew 12PK", "6.49"⟩], "10.00"⟩ =
      some (Response.error "The purchase time is invalid" 400) from by decide]

/-! ## The scenarios of the tests -/

/-- The first receipt of `TestCalcPoints` earns 109 points, as the rule table says. -/
theorem calcPoints_scenarioA :
    calcPoints scenarioA = some 109 ∧ ruleTablePoints scenarioA = 109 := by
  decide

/-- The second receipt of `TestCalcPoints` earns 28 points, as the rule table says. -/
theorem calcPoints_scenarioB :
    calcPoints scenarioB = some 28 ∧ ruleTablePoints scenarioB = 28 := by
  decide

/-- The receipt of `TestCalcPointsAllRules` earns 105 points, as the rule table says. -/
theorem calcPoints_storeTwelve :
    calcPoints storeTwelve = some 105 ∧ ruleTablePoints storeTwelve = 105 := by
  decide

/-! ## C8: the retailer pattern -/

theorem char_eq_of_toNat (c d : Char) (h : c.toNat = d.toNat) : c = d := by
  rw [← Char.ofNat_toNat c, ← Char.ofNat_toNat d, h]

/-- The class `[\w\s\-&]` of the retailer pattern, character by character. -/
theorem retailerClass_iff (c : Char) :
    (perlWord c || perlSpace c || decide (c.toNat = 0x2D) || decide (c.toNat = 0x26)) = true ↔
      (c.isAlphanum = true ∨ c = '_' ∨ c = '\t' ∨ c = '\n' ∨ c = '\x0c' ∨ c = '\r' ∨ c = ' '
        ∨ c = '-' ∨ c = '&') := by
  have e : ∀ d : Char, c = d ↔ c.toNat = d.toNat :=
    fun d => ⟨fun h => by rw [h], char_eq_of_toNat c d⟩
  rw [isAlphanum_iff, e '_', e '\t', e '\n', e '\x0c', e '\r', e ' ', e '-', e '&']
  have h1 : '_'.toNat = 95 := rfl
  have h2 : '\t'.toNat = 9 := rfl
  have h3 : '\n'.toNat = 10 := rfl
  have h4 : '\x0c'.toNat = 12 := rfl
  have h5 : '\r'.toNat = 13 := rfl
  have h6 : ' '.toNat = 32 := rfl
  have h7 : '-'.toNat = 45 := rfl
  have h8 : '&'.toNat = 38 := rfl
  rw [h1, h2, h3, h4, h5, h6, h7, h8]
  simp only [perlWord, perlDigit, perlSpace, Bool.or_eq_true, Bool.and_eq_true,
    decide_eq_true_eq]
  omega

theorem checkItems_some (items : List Item) (rejection : Response)
    (h : checkItems items = some rejection) :
    rejection = Response.error "The short description for an item is invalid" 400 ∨
      rejection = Response.error "The price for an item is invalid" 400 := by
  induction items with
  | nil => simp [checkItems] at h
  | cons it rest ih =>
    unfold checkItems at h
    split at h
    · exact Or.inl (by simpa using h.symm)
    · split at h
      · exact Or.inr (by simpa using h.symm)
      · exact ih h

theorem postReceiptChecks_retailer_iff (r : Receipt) :
    postReceiptChecks r = some (Response.error "The retailer name is invalid" 400) ↔
      (¬ (r.Retailer = "" ∨ r.PurchaseDate = "" ∨ r.PurchaseTime = "" ∨ r.Total = ""
          ∨ r.Items.length ≤ 0) ∧
        validateString r.Retailer retailerPattern = false) := by
  have n1 : Response.error "The receipt is invalid." 400 ≠
      Response.error "The retailer name is invalid" 400 := by decide
  have n2 : Response.error "The total is invalid" 400 ≠
      Response.error "The retailer name is invalid" 400 := by decide
  have n3 : Response.error "The short description for an item is invalid" 400 ≠
      Response.error "The retailer name is invalid" 400 := by decide
  have n4 : Response.error "The price for an item is invalid" 400 ≠
      Response.error "The retailer name is invalid" 400 := by decide
  have n5 : Response.error "The purchase time is invalid" 400 ≠
      Response.error "The retailer name is invalid" 400 := by decide
  have n6 : Response.error "The purchase date is invalid" 400 ≠
      Response.error "The retailer name is invalid" 400 := by decide
  unfold postReceiptChecks
  by_cases h1 : r.Retailer = "" ∨ r.PurchaseDate = "" ∨ r.PurchaseTime = "" ∨ r.Total = ""
      ∨ r.Items.length ≤ 0
  · rw [if_pos h1]
    exact ⟨fun h => absurd (Option.some.inj h) n1, fun h => absurd h1 h.1⟩
  · rw [if_neg h1]
    cases h2 : validateString r.Retailer retailerPattern
    · exact ⟨fun _ => ⟨h1, rfl⟩, fun _ => rfl⟩
    · refine ⟨fun h => ?_, fun h => absurd h.2 (by simp)⟩
      exfalso
      simp only [Bool.not_true, Bool.false_eq_true, if_false] at h
      cases h3 : validateString r.Total totalPattern
      · rw [h3] at h
        exact n2 (Option.some.inj h)
      · rw [h3] at h
        simp only [Bool.not_true, Bool.false_eq_true, if_false] at h
        cases hc : checkItems r.Items with
        | some rejection =>
          rw [hc] at h
          rcases checkItems_some _ _ hc with e | e
          · rw [e] at h; exact n3 (Option.some.inj h)
          · rw [e] at h; exact n4 (Option.some.inj h)
        | none =>
          rw [hc] at h
          by_cases h4 : validateTime r.PurchaseTime ≠ none
          · rw [if_pos h4] at h
            exact n5 (Option.some.inj h)
          · by_cases h5 : validateDate r.PurchaseDate ≠ none
            · rw [if_neg h4, if_pos h5] at h
              exact n6 (Option.some.inj h)
            · rw [if_neg h4, if_neg h5] at h
              cases h

/-- The retailer rejection is the answer exactly when no field is missing and the
retailer pattern does not match. -/
theorem retailer_rejection_iff (st : Store) (r : Receipt) :
    (postReceipt st (some r)).2 = Response.error "The retailer name is invalid" 400 ↔
      (¬ (r.Retailer = "" ∨ r.PurchaseDate = "" ∨ r.PurchaseTime = "" ∨ r.Total = ""
          ∨ r.Items.length ≤ 0) ∧
        validateString r.Retailer retailerPattern = false) := by
  rw [postReceipt_response, ← postReceiptChecks_retailer_iff]
  cases postReceiptChecks r with
  | some rejection => exact ⟨fun h => congrArg some h, fun h => Option.some.inj h⟩
  | none => exact ⟨fun h => (by cases h), fun h => (by cases h)⟩

/-- C8, as the program has it. The retailer check accepts a string exactly when it
is not empty and every character is an ASCII letter, an ASCII digit, the underscore,
a tab, newline, form feed, carriage return or space, `-` or `&` (the classes `\w`
and `\s` of Go's regexp package are ASCII-only); a receipt with no field missing is
rejected as an invalid retailer exactly when its retailer is any other string, and
"Invalid@" is one. -/
theorem retailer_check_accepts_ascii_class :
    (∀ s : String, validateString s retailerPattern = true ↔
      (s.data ≠ [] ∧ ∀ c ∈ s.data, c.isAlphanum = true ∨ c = '_' ∨ c = '\t' ∨ c = '\n'
        ∨ c = '\x0c' ∨ c = '\r' ∨ c = ' ' ∨ c = '-' ∨ c = '&')) ∧
    (∀ (st : Store) (r : Receipt),
      ((postReceipt st (some r)).2 = Response.error "The retailer name is invalid" 400 ↔
        (¬ (r.Retailer = "" ∨ r.PurchaseDate = "" ∨ r.PurchaseTime = "" ∨ r.Total = ""
            ∨ r.Items.length ≤ 0) ∧
          validateString r.Retailer retailerPattern = false))) ∧
    validateString "Invalid@" retailerPattern = false := by
  refine ⟨?_, retailer_rejection_iff, by decide⟩
  intro s
  simp only [validateString, retailerPattern, MatchString, Bool.and_eq_true,
    Bool.not_eq_true', List.isEmpty_eq_false, List.all_eq_true]
  constructor
  · rintro ⟨h1, h2⟩
    exact ⟨h1, fun c hc => (retailerClass_iff c).1 (h2 c hc)⟩
  · rintro ⟨h1, h2⟩
    exact ⟨h1, fun c hc => (retailerClass_iff c).2 (h2 c hc)⟩

/-- C8 as stated fails both ways: the underscore is no letter, digit, white space,
`-` or `&`, yet the retailer "a_b" is accepted; and the retailer "Ecole" with U+00C9 for its
first letter is made of
letters (`unicode.IsLetter` holds of U+00C9) yet is rejected. -/
theorem retailer_check_is_not_unicode :
    validateString "a_b" retailerPattern = true ∧
    ('_'.isAlphanum = false ∧ '_'.isWhitespace = false ∧ IsSpace '_' = false ∧
      '_' ≠ '-' ∧ '_' ≠ '&') ∧
    validateString "\u00c9cole" retailerPattern = false ∧
    IsLetter '\u00c9'.toNat = true := by
  decide

/-! ## C9: calcPoints on an accepted receipt -/

/-- Parsing an amount that the money pattern accepts never gives a syntax error,
and no error at all when the text has at most 41 bytes (38 digits before the
point). -/
theorem ParseFloat_money_error (s : String) (h : validateString s pricePattern = true) :
    ((ParseFloat (utf8 s) 32).2 = none ∨
      (ParseFloat (utf8 s) 32).2 = some NumError.errRange) ∧
    (s.length ≤ 41 → (ParseFloat (utf8 s) 32).2 = none) := by
  obtain ⟨N, hN, hcases⟩ := ParseFloat_money s h
  rcases hcases with ⟨m, q, hp, _⟩ | ⟨hp, hinf⟩
  · rw [hp]
    exact ⟨Or.inl rfl, fun _ => rfl⟩
  · rw [hp]
    refine ⟨Or.inr rfl, fun hlen => ?_⟩
    exfalso
    have h1 : N < 10 ^ 40 :=
      lt_of_lt_of_le hN (Nat.pow_le_pow_right (by norm_num) (by omega))
    have h2 : (N : ℚ) < 10 ^ 40 := by exact_mod_cast h1
    have h3 : 2 * (N : ℚ) / 100 < 2 ^ (128 : Nat) := by
      rw [div_lt_iff₀ (by norm_num)]
      have : (2 : ℚ) * 10 ^ 40 ≤ 2 ^ (128 : Nat) * 100 := by norm_num
      linarith
    linarith

/-- C9, as the program has it. On every receipt that passes all the checks,
`calcPoints` returns (it does not panic): the colon of the purchase time and the
last dash of the purchase date are found, the three slices are within bounds and
`Atoi` reads hour, minute and day without error.  `ParseFloat` reads the total and
each item price without a syntax error, and without any error when the text has at
most 41 bytes, that is at most 38 digits before the point; for a longer amount it
may report a range error, which `calcPoints` drops. -/
theorem calcPoints_returns_on_accepted (r : Receipt) (h : postReceiptChecks r = none) :
    (∃ points, calcPoints r = some points) ∧
    (∃ hourStr minuteStr, 0 ≤ Index (utf8 r.PurchaseTime) 0x3A ∧
      sliceTo (utf8 r.PurchaseTime) (Index (utf8 r.PurchaseTime) 0x3A) = some hourStr ∧
      sliceFrom (utf8 r.PurchaseTime) (Index (utf8 r.PurchaseTime) 0x3A + 1)
        = some minuteStr ∧
      (Atoi hourStr).2 = none ∧ (Atoi minuteStr).2 = none) ∧
    (∃ dayStr, 0 ≤ LastIndex (utf8 r.PurchaseDate) 0x2D ∧
      sliceFrom (utf8 r.PurchaseDate) (LastIndex (utf8 r.PurchaseDate) 0x2D + 1)
        = some dayStr ∧
      (Atoi dayStr).2 = none) ∧
    (((ParseFloat (utf8 r.Total) 32).2 = none ∨
        (ParseFloat (utf8 r.Total) 32).2 = some NumError.errRange) ∧
      (r.Total.length ≤ 41 → (ParseFloat (utf8 r.Total) 32).2 = none)) ∧
    (∀ item ∈ r.Items,
      ((ParseFloat (utf8 item.Price) 32).2 = none ∨
        (ParseFloat (utf8 item.Price) 32).2 = some NumError.errRange) ∧
      (item.Price.length ≤ 41 → (ParseFloat (utf8 item.Price) 32).2 = none)) := by
  obtain ⟨_, _, htotal, hitems, ⟨hour, minute, ht⟩, ⟨year, month, day, hd⟩⟩ :=
    accepted_facts r h
  refine ⟨calcPoints_accepted r h, ?_, ?_, ParseFloat_money_error r.Total htotal, ?_⟩
  · obtain ⟨hourStr, minuteStr, h0, h1, h2, h3, h4⟩ := time_slices _ hour minute ht
    exact ⟨hourStr, minuteStr, h0, h1, h2, by rw [h3], by rw [h4]⟩
  · obtain ⟨dayStr, h0, h1, h2⟩ := date_slices _ year month day hd
    exact ⟨dayStr, h0, h1, by rw [h2]⟩
  · intro item hi
    exact ParseFloat_money_error item.Price (hitems item hi).2

/-- C9, on the first receipt of `TestCalcPoints`. -/
theorem calcPoints_returns_on_accepted_witness :
    postReceiptChecks scenarioA = none ∧ (∃ points, calcPoints scenarioA = some points) ∧
    (ParseFloat (utf8 scenarioA.Total) 32).2 = none :=
  ⟨by decide, (calcPoints_returns_on_accepted scenarioA (by decide)).1,
    (calcPoints_returns_on_accepted scenarioA (by decide)).2.2.2.1.2 (by decide)⟩

/-- C9 as stated fails: the receipt `hugeTotal`, whose total is a one followed by
39 zeros and ".00", passes every check, and `ParseFloat` answers its total with a
range error (and the value `+Inf`); `calcPoints` drops the error and returns. -/
theorem parse_of_accepted_total_fails :
    postReceiptChecks hugeTotal = none ∧
    (ParseFloat (utf8 hugeTotal.Total) 32).2 = some NumError.errRange ∧
    calcPoints hugeTotal = some 6 := by
  decide

/-! ## C10: the sign of the points -/

theorem retailerLoop_bounds (bs : Bytes) (points : Int) (h0 : 0 ≤ points)
    (hb : points + bs.length < 2 ^ 63) :
    points ≤ retailerLoop bs points ∧ retailerLoop bs points ≤ points + bs.length := by
  induction bs generalizing points with
  | nil => simp [retailerLoop]
  | cons b bs ih =>
    simp only [List.length_cons, Nat.cast_add, Nat.cast_one] at hb ⊢
    unfold retailerLoop
    have h1 : addInt points 1 = points + 1 :=
      addInt_of_range points 1 h0 (by norm_num) (by omega)
    split
    · rw [h1]
      have := ih (points + 1) (by omega) (by omega)
      omega
    · split
      · rw [h1]
        have := ih (points + 1) (by omega) (by omega)
        omega
      · have := ih points h0 (by omega)
        omega

theorem totalBlock_bounds (points : Int) (Total : String) (h0 : 0 ≤ points)
    (hb : points + 75 < 2 ^ 63) :
    points ≤ totalBlock points Total ∧ totalBlock points Total ≤ points + 75 := by
  have e1 : addInt points 25 = points + 25 :=
    addInt_of_range points 25 h0 (by norm_num) (by omega)
  have e2 : addInt points 50 = points + 50 :=
    addInt_of_range points 50 h0 (by norm_num) (by omega)
  have e3 : addInt (points + 50) 25 = points + 50 + 25 :=
    addInt_of_range (points + 50) 25 (by omega) (by norm_num) (by omega)
  rcases totalBlock_cases points Total with h | h | h
  · rw [h]; omega
  · rw [h, e1]; omega
  · rw [h, e2, e3]; omega

theorem pairsBlock_eq (points : Int) (Items : List Item) (h0 : 0 ≤ points)
    (hb : points + 5 * Items.length < 2 ^ 63) :
    pairsBlock points Items = points + 5 * ((Items.length / 2 : Nat) : Int) := by
  have h1 : ((Items.length / 2 : Nat) : Int) ≤ Items.length := by
    exact_mod_cast Nat.div_le_self _ _
  have h2 : (0 : Int) ≤ ((Items.length / 2 : Nat) : Int) := Int.natCast_nonneg _
  have e1 : mulInt ((Items.length / 2 : Nat) : Int) 5 = 5 * ((Items.length / 2 : Nat) : Int) := by
    unfold mulInt wrapInt
    omega
  unfold pairsBlock
  dsimp only
  rw [e1, addInt_of_range _ _ h0 (by omega) (by omega)]

theorem itemsBlock_bounds (d : Nat) (hd : 10 ^ d < 2 ^ 63) (Items : List Item)
    (hv : ∀ item ∈ Items, validateString item.Price pricePattern = true ∧
      item.Price.length ≤ d + 3)
    (points : Int) (h0 : 0 ≤ points)
    (hb : points + (Items.length : Int) * 10 ^ d < 2 ^ 63) :
    points ≤ itemsBlock points Items ∧
      itemsBlock points Items ≤ points + (Items.length : Int) * 10 ^ d := by
  unfold itemsBlock
  induction Items generalizing points with
  | nil => simp
  | cons item rest ih =>
    have hpos : (0 : Int) ≤ (rest.length : Int) * 10 ^ d := by positivity
    have hpow : (0 : Int) < 10 ^ d := by positivity
    simp only [List.length_cons, Nat.cast_add, Nat.cast_one, add_mul, one_mul] at hb ⊢
    have hi := hv item (List.mem_cons_self _ _)
    have hstep := itemStep_bounds points item d hi.1 hi.2 hd h0 (by omega)
    have hrest := ih (fun x hx => hv x (List.mem_cons_of_mem _ hx)) (itemStep points item)
      (by omega) (by omega)
    rw [List.foldl_cons]
    omega

/-- C10, as the program has it. For every receipt that passes the checks and is
within a bound where the 64-bit points cannot overflow, `calcPoints` returns an
integer that is not negative: it suffices that every item price has at most `d`
digits before the point (at most `d + 3` bytes), that there are at most `k` items
and that the length of the retailer plus `5 * k + k * 10 ^ d + 91` is below
`2 ^ 63`. -/
theorem calcPoints_nonneg_of_bounded (r : Receipt) (d k : Nat)
    (h : postReceiptChecks r = none)
    (hprice : ∀ item ∈ r.Items, item.Price.length ≤ d + 3)
    (hk : r.Items.length ≤ k)
    (hsum : (utf8 r.Retailer).length + 5 * k + k * 10 ^ d + 91 < 2 ^ 63) :
    ∃ points, calcPoints r = some points ∧ 0 ≤ points := by
  obtain ⟨hne, _, _, hitems, ⟨hour, minute, ht⟩, ⟨year, month, day, hdate⟩⟩ :=
    accepted_facts r h
  have hlen : 1 ≤ r.Items.length := by
    cases hr : r.Items with
    | nil => exact absurd hr hne
    | cons a l => simp
  have hk1 : 1 ≤ k := le_trans hlen hk
  have hkd : r.Items.length * 10 ^ d ≤ k * 10 ^ d := Nat.mul_le_mul_right _ hk
  have hd : 10 ^ d < 2 ^ 63 := by
    have : 1 * 10 ^ d ≤ k * 10 ^ d := Nat.mul_le_mul_right _ hk1
    omega
  have hsumZ : ((utf8 r.Retailer).length : Int) + 5 * k + (k : Int) * 10 ^ d + 91 < 2 ^ 63 := by
    exact_mod_cast hsum
  have hkdZ : (r.Items.length : Int) * 10 ^ d ≤ (k : Int) * 10 ^ d := by exact_mod_cast hkd
  have hkZ : (r.Items.length : Int) ≤ k := by exact_mod_cast hk
  have hposZ : (0 : Int) ≤ (r.Items.length : Int) * 10 ^ d := by positivity
  have hdiv : ((r.Items.length / 2 : Nat) : Int) ≤ r.Items.length := by
    exact_mod_cast Nat.div_le_self _ _
  have hdiv0 : (0 : Int) ≤ ((r.Items.length / 2 : Nat) : Int) := Int.natCast_nonneg _
  have b1 := retailerLoop_bounds (utf8 r.Retailer) 0 (le_refl 0) (by omega)
  have b2 := totalBlock_bounds (retailerLoop (utf8 r.Retailer) 0) r.Total (by omega) (by omega)
  have b3 := pairsBlock_eq (totalBlock (retailerLoop (utf8 r.Retailer) 0) r.Total) r.Items
    (by omega) (by omega)
  have b4 := itemsBlock_bounds d hd r.Items (fun x hx => ⟨(hitems x hx).2, hprice x hx⟩)
    (pairsBlock (totalBlock (retailerLoop (utf8 r.Retailer) 0) r.Total) r.Items)
    (by omega) (by omega)
  unfold calcPoints
  dsimp only
  rw [dateBlock_of_parse _ _ year month day hdate]
  dsimp only
  rw [timeBlock_of_parse _ _ hour minute ht]
  refine ⟨_, rfl, ?_⟩
  generalize itemsBlock (pairsBlock (totalBlock (retailerLoop (utf8 r.Retailer) 0) r.Total)
    r.Items) r.Items = p4 at b4 ⊢
  have e6 : addInt p4 6 = p4 + 6 := addInt_of_range p4 6 (by omega) (by norm_num) (by omega)
  have e10 : addInt p4 10 = p4 + 10 :=
    addInt_of_range p4 10 (by omega) (by norm_num) (by omega)
  have e16 : addInt (p4 + 6) 10 = p4 + 6 + 10 :=
    addInt_of_range (p4 + 6) 10 (by omega) (by norm_num) (by omega)
  split <;> split <;> (try simp only [e6, e10, e16]) <;> omega

/-- C10, on the receipts of the tests: prices of at most two digits before the
point and at most five items. -/
theorem calcPoints_nonneg_of_bounded_witness :
    postReceiptChecks scenarioB = none ∧
    (∀ item ∈ scenarioB.Items, item.Price.length ≤ 2 + 3) ∧
    scenarioB.Items.length ≤ 5 ∧
    (utf8 scenarioB.Retailer).length + 5 * 5 + 5 * 10 ^ 2 + 91 < 2 ^ 63 ∧
    ∃ points, calcPoints scenarioB = some points ∧ 0 ≤ points :=
  ⟨by decide, by decide, by decide, by decide,
    calcPoints_nonneg_of_bounded scenarioB 2 5 (by decide) (by decide) (by decide) (by decide)⟩

/-- C10 as stated fails: the receipt `overflowing` passes every check, each of its
two items earns 7999999984405158912 points, and their sum overflows the 64-bit
`int`: `calcPoints` returns a negative number. -/
theorem calcPoints_negative_on_accepted :
    postReceiptChecks overflowing = none ∧
    itemStep 0 ⟨"ABC", "40000000000000000000.00"⟩ = 7999999984405158912 ∧
    calcPoints overflowing = some (-2446744104899233781) ∧
    (-2446744104899233781 : Int) < 0 := by
  decide!

/-! ## The exact behaviour of the float computations -/

/-! ### The binary exponent -/

theorem bitLenAux_spec (fuel n : Nat) (h : n ≤ fuel) (hn : 0 < n) :
    2 ^ (bitLenAux fuel n - 1) ≤ n ∧ n < 2 ^ bitLenAux fuel n ∧ 0 < bitLenAux fuel n := by
  induction fuel generalizing n with
  | zero => omega
  | succ fuel ih =>
    unfold bitLenAux
    rw [if_neg (by omega)]
    by_cases h2 : n / 2 = 0
    · have h1 : n = 1 := by omega
      subst h1
      cases fuel <;> simp [bitLenAux]
    · obtain ⟨ha, hb, hc⟩ := ih (n / 2) (by omega) (by omega)
      refine ⟨?_, ?_, by omega⟩
      · have e : bitLenAux fuel (n / 2) + 1 - 1 = (bitLenAux fuel (n / 2) - 1) + 1 := by omega
        rw [e, pow_succ]
        omega
      · rw [pow_succ]
        omega

theorem bitLen_spec (n : Nat) (hn : 0 < n) :
    2 ^ (bitLen n - 1) ≤ n ∧ n < 2 ^ bitLen n ∧ 0 < bitLen n :=
  bitLenAux_spec n n (le_refl n) hn

theorem ratioLtPow2_iff (num den : Nat) (e : Int) (hden : 0 < den) :
    ratioLtPow2 num den e = true ↔ (num : ℚ) / den < (2 : ℚ) ^ e := by
  have hdenq : (0 : ℚ) < den := by exact_mod_cast hden
  unfold ratioLtPow2
  rw [div_lt_iff₀ hdenq]
  split
  · rename_i he
    rw [decide_eq_true_eq, ← two_zpow_toNat e he]
    constructor
    · intro h
      have : ((num : ℕ) : ℚ) < ((den * 2 ^ e.toNat : ℕ) : ℚ) := by exact_mod_cast h
      push_cast at this
      linarith
    · intro h
      have : ((num : ℕ) : ℚ) < ((den * 2 ^ e.toNat : ℕ) : ℚ) := by
        push_cast
        linarith
      exact_mod_cast this
  · rename_i he
    have he' : e < 0 := by omega
    have h1 := two_zpow_neg_toNat e he'
    have hpos : (0 : ℚ) < (2 : ℚ) ^ (-e).toNat := by positivity
    have hpos2 : (0 : ℚ) < (2 : ℚ) ^ e := zpow_pos (by norm_num) e
    rw [decide_eq_true_eq]
    constructor
    · intro h
      have h2 : ((num * 2 ^ (-e).toNat : ℕ) : ℚ) < (den : ℚ) := by exact_mod_cast h
      push_cast at h2
      have h3 := mul_lt_mul_of_pos_right h2 hpos2
      rw [mul_assoc, h1, mul_one] at h3
      linarith
    · intro h
      have h3 := mul_lt_mul_of_pos_right h hpos
      have h4 : (2 : ℚ) ^ e * den * 2 ^ (-e).toNat = den := by
        rw [mul_comm ((2 : ℚ) ^ e), mul_assoc, mul_comm ((2 : ℚ) ^ e), h1, mul_one]
      rw [h4] at h3
      have : ((num * 2 ^ (-e).toNat : ℕ) : ℚ) < (den : ℚ) := by
        push_cast
        linarith
      exact_mod_cast this

/-- The binary exponent of a positive ratio brackets it. -/
theorem floorLog2_spec (num den : Nat) (hnum : 0 < num) (hden : 0 < den) :
    (2 : ℚ) ^ (floorLog2 num den) ≤ (num : ℚ) / den ∧
      (num : ℚ) / den < (2 : ℚ) ^ (floorLog2 num den + 1) := by
  have hdenq : (0 : ℚ) < den := by exact_mod_cast hden
  obtain ⟨ha1, ha2, ha3⟩ := bitLen_spec num hnum
  obtain ⟨hb1, hb2, hb3⟩ := bitLen_spec den hden
  have ha1q : (2 : ℚ) ^ ((bitLen num : Int) - 1) ≤ num := by
    have : ((2 ^ (bitLen num - 1) : ℕ) : ℚ) ≤ num := by exact_mod_cast ha1
    have e : ((bitLen num : Int) - 1) = ((bitLen num - 1 : ℕ) : Int) := by omega
    rw [e, zpow_natCast]
    exact_mod_cast this
  have ha2q : (num : ℚ) < (2 : ℚ) ^ (bitLen num : Int) := by
    rw [zpow_natCast]
    exact_mod_cast ha2
  have hb1q : (2 : ℚ) ^ ((bitLen den : Int) - 1) ≤ den := by
    have : ((2 ^ (bitLen den - 1) : ℕ) : ℚ) ≤ den := by exact_mod_cast hb1
    have e : ((bitLen den : Int) - 1) = ((bitLen den - 1 : ℕ) : Int) := by omega
    rw [e, zpow_natCast]
    exact_mod_cast this
  have hb2q : (den : ℚ) < (2 : ℚ) ^ (bitLen den : Int) := by
    rw [zpow_natCast]
    exact_mod_cast hb2
  have two_ne : (2 : ℚ) ≠ 0 := by norm_num
  -- num / den < 2 ^ (e0 + 1) and 2 ^ (e0 - 1) < num / den
  have hup : (num : ℚ) / den < (2 : ℚ) ^ ((bitLen num : Int) - (bitLen den : Int) + 1) := by
    rw [div_lt_iff₀ hdenq]
    have e : ((bitLen num : Int) - (bitLen den : Int) + 1)
        = (bitLen num : Int) - ((bitLen den : Int) - 1) := by ring
    rw [e, zpow_sub₀ two_ne, div_mul_eq_mul_div, lt_div_iff₀ (zpow_pos (by norm_num) _)]
    have hp : (0 : ℚ) < (2 : ℚ) ^ (bitLen num : Int) := zpow_pos (by norm_num) _
    calc (num : ℚ) * 2 ^ ((bitLen den : Int) - 1) ≤ num * den :=
          mul_le_mul_of_nonneg_left hb1q (by positivity)
      _ < 2 ^ (bitLen num : Int) * den := mul_lt_mul_of_pos_right ha2q hdenq
  have hlo : (2 : ℚ) ^ ((bitLen num : Int) - (bitLen den : Int) - 1) ≤ (num : ℚ) / den := by
    rw [le_div_iff₀ hdenq]
    have e : ((bitLen num : Int) - (bitLen den : Int) - 1)
        = ((bitLen num : Int) - 1) - (bitLen den : Int) := by ring
    rw [e, zpow_sub₀ two_ne, div_mul_eq_mul_div, div_le_iff₀ (zpow_pos (by norm_num) _)]
    have hp : (0 : ℚ) < (2 : ℚ) ^ ((bitLen num : Int) - 1) := zpow_pos (by norm_num) _
    calc (2 : ℚ) ^ ((bitLen num : Int) - 1) * den
        ≤ (2 : ℚ) ^ ((bitLen num : Int) - 1) * 2 ^ (bitLen den : Int) :=
          mul_le_mul_of_nonneg_left hb2q.le hp.le
      _ ≤ num * 2 ^ (bitLen den : Int) :=
          mul_le_mul_of_nonneg_right ha1q (zpow_pos (by norm_num) _).le
  unfold floorLog2
  dsimp only
  split
  · rename_i hlt
    rw [ratioLtPow2_iff _ _ _ hden] at hlt
    refine ⟨hlo, ?_⟩
    rw [sub_add_cancel]
    exact hlt
  · rename_i hlt
    rw [ratioLtPow2_iff _ _ _ hden] at hlt
    exact ⟨not_lt.1 hlt, hup⟩

/-! ### The error of a rounding -/

theorem roundHalfEven_error (sn sd : Nat) (hsd : 0 < sd) :
    2 * (roundHalfEven sn sd * sd) ≤ 2 * sn + sd ∧ 2 * sn ≤ 2 * (roundHalfEven sn sd * sd) + sd := by
  have hdm := Nat.div_add_mod sn sd
  have hcomm : sn / sd * sd = sd * (sn / sd) := Nat.mul_comm _ _
  have hlt := Nat.mod_lt sn hsd
  unfold roundHalfEven
  dsimp only
  split
  · omega
  · split
    · rw [Nat.add_mul]; omega
    · split
      · omega
      · rw [Nat.add_mul]; omega

theorem roundAtQuantum_error (num den : Nat) (q : Int) (hden : 0 < den) :
    |finVal (roundAtQuantum num den q) q - (num : ℚ) / den| ≤ (2 : ℚ) ^ q / 2 := by
  have hdenq : (0 : ℚ) < den := by exact_mod_cast hden
  have h2q : (0 : ℚ) < (2 : ℚ) ^ q := zpow_pos (by norm_num) q
  have key : ∀ m : Nat, (2 * ((m : ℚ) * (den * 2 ^ q)) ≤ 2 * num + den * 2 ^ q) →
      (2 * (num : ℚ) ≤ 2 * ((m : ℚ) * (den * 2 ^ q)) + den * 2 ^ q) →
      |finVal m q - (num : ℚ) / den| ≤ (2 : ℚ) ^ q / 2 := by
    intro m h1 h2
    have hv : (num : ℚ) = (num : ℚ) / den * den := by
      rw [div_mul_cancel₀ _ hdenq.ne']
    generalize (num : ℚ) / den = v at hv ⊢
    rw [hv] at h1 h2
    have h1' : (den : ℚ) * (2 * ((m : ℚ) * 2 ^ q)) ≤ den * (2 * v + 2 ^ q) := by linarith
    have h2' : (den : ℚ) * (2 * v) ≤ den * (2 * ((m : ℚ) * 2 ^ q) + 2 ^ q) := by linarith
    have h1'' := (mul_le_mul_left hdenq).1 h1'
    have h2'' := (mul_le_mul_left hdenq).1 h2'
    unfold finVal
    rw [abs_le]
    constructor <;> linarith
  unfold roundAtQuantum
  split
  · rename_i hq
    obtain ⟨h1, h2⟩ := roundHalfEven_error num (den * 2 ^ q.toNat) (by positivity)
    have h1' : (2 : ℚ) * ((roundHalfEven num (den * 2 ^ q.toNat) : ℚ) * (den * 2 ^ q.toNat))
        ≤ 2 * num + den * 2 ^ q.toNat := by exact_mod_cast h1
    have h2' : (2 : ℚ) * num ≤ 2 * ((roundHalfEven num (den * 2 ^ q.toNat) : ℚ)
        * (den * 2 ^ q.toNat)) + den * 2 ^ q.toNat := by exact_mod_cast h2
    rw [two_zpow_toNat q hq] at h1' h2'
    exact key _ h1' h2'
  · rename_i hq
    have hq' : q < 0 := by omega
    have hone := two_zpow_neg_toNat q hq'
    obtain ⟨h1, h2⟩ := roundHalfEven_error (num * 2 ^ (-q).toNat) den hden
    have h1' : (2 : ℚ) * ((roundHalfEven (num * 2 ^ (-q).toNat) den : ℚ) * den)
        ≤ 2 * (num * 2 ^ (-q).toNat) + den := by exact_mod_cast h1
    have h2' : (2 : ℚ) * (num * 2 ^ (-q).toNat) ≤
        2 * ((roundHalfEven (num * 2 ^ (-q).toNat) den : ℚ) * den) + den := by
      exact_mod_cast h2
    have e1 : (num : ℚ) * 2 ^ (-q).toNat * 2 ^ q = num := by rw [mul_assoc, hone, mul_one]
    apply key
    · have := mul_le_mul_of_nonneg_right h1' h2q.le
      nlinarith
    · have := mul_le_mul_of_nonneg_right h2' h2q.le
      nlinarith

/-- What `roundTo` gives for a positive ratio: infinity, or the multiple of the
quantum `2 ^ q` nearest to the ratio, `q` being the larger of the binary exponent
less the precision plus one and of the smallest quantum of the format. -/
theorem roundTo_spec (f : FloatFormat) (num den : Nat) (hnum : 0 < num) (hden : 0 < den) :
    roundTo f num den = GoFloat.inf ∨
    ∃ m, roundTo f num den =
        GoFloat.fin m (max (floorLog2 num den - ((f.prec : Int) - 1)) f.minQ) ∧
      |finVal m (max (floorLog2 num den - ((f.prec : Int) - 1)) f.minQ) - (num : ℚ) / den|
        ≤ (2 : ℚ) ^ (max (floorLog2 num den - ((f.prec : Int) - 1)) f.minQ) / 2 := by
  unfold roundTo
  rw [if_neg (by omega)]
  dsimp only
  split
  · exact Or.inl rfl
  · exact Or.inr ⟨_, rfl, roundAtQuantum_error num den _ hden⟩

/-! ### Values on a grid -/

theorem two_zpow_le_of_le (a b : Int) (h : a ≤ b) : (2 : ℚ) ^ a ≤ (2 : ℚ) ^ b :=
  zpow_le_zpow_right₀ (by norm_num) h

theorem lt_of_two_zpow_lt (a b : Int) (h : (2 : ℚ) ^ a < (2 : ℚ) ^ b) : a < b := by
  by_contra hc
  exact absurd (two_zpow_le_of_le b a (by omega)) (not_le.2 h)

/-- Two multiples of the quantum `2 ^ q` that differ by less than the quantum are
equal. -/
theorem finVal_eq_of_close (m j : Nat) (q : Int)
    (h : |finVal m q - finVal j q| < (2 : ℚ) ^ q) : finVal m q = finVal j q := by
  have h2q : (0 : ℚ) < (2 : ℚ) ^ q := zpow_pos (by norm_num) q
  unfold finVal at h ⊢
  rw [← sub_mul, abs_mul, abs_of_pos h2q] at h
  have h1 : |(m : ℚ) - j| < 1 := by
    by_contra hc
    have := mul_le_mul_of_nonneg_right (not_lt.1 hc) h2q.le
    linarith
  have h2 : |(m : Int) - j| < 1 := by
    have : ((|(m : Int) - j| : Int) : ℚ) < 1 := by
      push_cast
      exact h1
    exact_mod_cast this
  have h3 : (m : Int) = j := by
    rw [abs_lt] at h2
    omega
  have h4 : m = j := by exact_mod_cast h3
  rw [h4]

/-- A natural number of quarters is a multiple of every quantum `2 ^ q` with
`q ≤ -2`. -/
theorem quarters_on_grid (n : Nat) (q : Int) (hq : q ≤ -2) :
    (n : ℚ) / 4 = finVal (n * 2 ^ (-2 - q).toNat) q := by
  unfold finVal
  have h0 : (0 : Int) ≤ -2 - q := by omega
  push_cast
  rw [two_zpow_toNat _ h0, mul_assoc, ← zpow_add₀ (by norm_num : (2 : ℚ) ≠ 0)]
  have e : -2 - q + q = -2 := by ring
  rw [e]
  norm_num
  ring

theorem isZero_Mod_one_iff (m : Nat) (q : Int) :
    (Mod (GoFloat.fin m q) float_1).isZero = true ↔ ∃ z : Nat, finVal m q = z := by
  rw [Mod_fin_one]
  unfold finVal
  split
  · rename_i hq
    simp only [true_iff]
    exact ⟨m * 2 ^ q.toNat, by push_cast; rw [two_zpow_toNat q hq]⟩
  · rename_i hq
    have hq' : q < 0 := by omega
    have hone := two_zpow_neg_toNat q hq'
    have hpos : (0 : ℚ) < (2 : ℚ) ^ (-q).toNat := by positivity
    rw [beq_iff_eq]
    constructor
    · intro h
      obtain ⟨z, hz⟩ := Nat.dvd_of_mod_eq_zero h
      refine ⟨z, ?_⟩
      rw [hz]
      push_cast
      rw [mul_comm ((2 : ℚ) ^ (-q).toNat), mul_assoc, hone, mul_one]
    · rintro ⟨z, hz⟩
      apply Nat.mod_eq_zero_of_dvd
      refine ⟨z, ?_⟩
      have h1 : (m : ℚ) = (z : ℚ) * 2 ^ (-q).toNat := by
        calc (m : ℚ) = (m : ℚ) * (2 ^ (-q).toNat * 2 ^ q) := by rw [hone, mul_one]
          _ = ((m : ℚ) * 2 ^ q) * 2 ^ (-q).toNat := by ring
          _ = (z : ℚ) * 2 ^ (-q).toNat := by rw [hz]
      have h2 : ((m : ℕ) : ℚ) = ((2 ^ (-q).toNat * z : ℕ) : ℚ) := by
        push_cast
        rw [h1]
        ring
      exact_mod_cast h2

theorem isZero_Mod_quarter_iff (m : Nat) (q : Int) :
    (Mod (GoFloat.fin m q) float_0_25).isZero = true ↔ ∃ n : Nat, finVal m q = (n : ℚ) / 4 := by
  rw [Mod_fin_quarter]
  unfold finVal
  split
  · rename_i hq
    simp only [true_iff]
    have h0 : (0 : Int) ≤ q + 2 := by omega
    refine ⟨m * 2 ^ (q + 2).toNat, ?_⟩
    push_cast
    rw [two_zpow_toNat _ h0, zpow_add₀ (by norm_num : (2 : ℚ) ≠ 0)]
    norm_num
    ring
  · rename_i hq
    have hq' : -2 - q > 0 := by omega
    have h0 : (0 : Int) ≤ -2 - q := by omega
    have hpos : (0 : ℚ) < (2 : ℚ) ^ (-2 - q).toNat := by positivity
    have hq4 : (2 : ℚ) ^ q = 1 / (4 * 2 ^ (-2 - q).toNat) := by
      rw [two_zpow_toNat _ h0, zpow_sub₀ (by norm_num : (2 : ℚ) ≠ 0)]
      have h2q : (0 : ℚ) < (2 : ℚ) ^ q := zpow_pos (by norm_num) q
      field_simp
      ring
    rw [beq_iff_eq, hq4]
    constructor
    · intro h
      obtain ⟨z, hz⟩ := Nat.dvd_of_mod_eq_zero h
      refine ⟨z, ?_⟩
      rw [hz]
      push_cast
      field_simp
      ring
    · rintro ⟨n, hn⟩
      apply Nat.mod_eq_zero_of_dvd
      refine ⟨n, ?_⟩
      have h1 : (m : ℚ) = 2 ^ (-2 - q).toNat * (n : ℚ) := by
        field_simp at hn
        linarith
      have h2 : ((m : ℕ) : ℚ) = ((2 ^ (-2 - q).toNat * n : ℕ) : ℚ) := by
        push_cast
        exact h1
      exact_mod_cast h2

/-- The conversion of a rounded-up finite value strictly above `n` and at most
`n + 1`, when `n + 1` is in the range of `int`. -/
theorem floatToInt_Ceil_eq (m : Nat) (q : Int) (n : Nat) (hn : n + 1 < 2 ^ 63)
    (hlo : (n : ℚ) < finVal m q) (hhi : finVal m q ≤ (n : ℚ) + 1) :
    floatToInt (Ceil (GoFloat.fin m q)) = ((n + 1 : Nat) : Int) := by
  by_cases hq : 0 ≤ q
  · have hv : floatToInt (Ceil (GoFloat.fin m q)) =
        if m * 2 ^ q.toNat < 2 ^ 63 then ((m * 2 ^ q.toNat : Nat) : Int) else intIndefinite := by
      simp only [Ceil, floatToInt, hq, if_true]
    have e : finVal m q = ((m * 2 ^ q.toNat : Nat) : ℚ) := by
      unfold finVal
      push_cast
      rw [two_zpow_toNat q hq]
    rw [e] at hlo hhi
    have h1 : n < m * 2 ^ q.toNat := by exact_mod_cast hlo
    have h2 : m * 2 ^ q.toNat ≤ n + 1 := by exact_mod_cast hhi
    have h3 : m * 2 ^ q.toNat = n + 1 := by omega
    rw [hv, h3, if_pos hn]
  · have hq' : q < 0 := by omega
    have hpos : 0 < 2 ^ (-q).toNat := by positivity
    have hposq : (0 : ℚ) < (2 : ℚ) ^ (-q).toNat := by positivity
    have hone := two_zpow_neg_toNat q hq'
    have e : (m : ℚ) = finVal m q * 2 ^ (-q).toNat := by
      unfold finVal
      rw [mul_assoc, mul_comm ((2 : ℚ) ^ q), hone, mul_one]
    have h1 : n * 2 ^ (-q).toNat < m := by
      have : ((n * 2 ^ (-q).toNat : ℕ) : ℚ) < (m : ℚ) := by
        push_cast
        rw [e]
        exact mul_lt_mul_of_pos_right hlo hposq
      exact_mod_cast this
    have h2 : m ≤ (n + 1) * 2 ^ (-q).toNat := by
      have : (m : ℚ) ≤ (((n + 1) * 2 ^ (-q).toNat : ℕ) : ℚ) := by
        push_cast
        rw [e]
        exact mul_le_mul_of_nonneg_right hhi hposq.le
      exact_mod_cast this
    have h3 : (m + 2 ^ (-q).toNat - 1) / 2 ^ (-q).toNat = n + 1 := by
      apply Nat.div_eq_of_lt_le
      · rw [Nat.add_mul] at h2
        rw [Nat.add_mul]
        omega
      · rw [Nat.succ_mul, Nat.add_mul] at *
        omega
    have hv : floatToInt (Ceil (GoFloat.fin m q)) =
        if (m + 2 ^ (-q).toNat - 1) / 2 ^ (-q).toNat < 2 ^ 63
        then (((m + 2 ^ (-q).toNat - 1) / 2 ^ (-q).toNat : Nat) : Int) else intIndefinite := by
      simp only [Ceil, floatToInt, hq, if_false, le_refl, if_true, Int.toNat_zero, pow_zero,
        mul_one]
    rw [hv, h3, if_pos hn]

/-! ### The exact amount of a money text -/

theorem isDigit_eq_perlDigit (c : Char) : c.isDigit = perlDigit c := by
  have e : c.toNat = c.val.toBitVec.toNat := rfl
  rw [Bool.eq_iff_iff, perlDigit_iff]
  simp only [Char.isDigit, ge_iff_le, UInt32.le_def, BitVec.le_def, Bool.and_eq_true,
    decide_eq_true_eq, e]
  rfl

theorem readDigits_cents (cs : List Char) (h : matchDigitsDotTwo cs = true) (acc n : Nat) :
    ∃ ip ni a b, readDigits (utf8Chars cs) acc n = (ip, ni, [0x2E, a, b]) ∧
      isDigitByte a = true ∧ isDigitByte b = true ∧
      (cs.filter Char.isDigit).foldl (fun acc c => acc * 10 + (c.toNat - 48)) acc
        = (ip * 10 + (a - 48)) * 10 + (b - 48) := by
  induction cs generalizing acc n with
  | nil => simp [matchDigitsDotTwo] at h
  | cons c cs ih =>
    unfold matchDigitsDotTwo at h
    split at h
    · rename_i hc
      obtain ⟨ip, ni, a, b, hr, ha, hb, hf⟩ := ih h (acc * 10 + (c.toNat - 48)) (n + 1)
      refine ⟨ip, ni, a, b, ?_, ha, hb, ?_⟩
      · rw [utf8Chars_digit c cs hc, readDigits, if_pos (isDigitByte_of_perlDigit c hc)]
        exact hr
      · rw [List.filter_cons, isDigit_eq_perlDigit, hc]
        simpa using hf
    · rename_i hc
      simp only [Bool.and_eq_true, decide_eq_true_eq] at h
      obtain ⟨hdot, hrest⟩ := h
      split at hrest
      · rename_i a b
        simp only [Bool.and_eq_true] at hrest
        have hda := (perlDigit_iff a).1 hrest.1
        have hdb := (perlDigit_iff b).1 hrest.2
        have hnd : isDigitByte 46 = false := by decide
        have hcf : c.isDigit = false := by
          rw [isDigit_eq_perlDigit]
          simpa using hc
        refine ⟨acc, n, a.toNat, b.toNat, ?_, isDigitByte_of_perlDigit a hrest.1,
          isDigitByte_of_perlDigit b hrest.2, ?_⟩
        · simp [utf8Chars, utf8EncodeChar_ascii c (by omega), utf8EncodeChar_ascii a (by omega),
            utf8EncodeChar_ascii b (by omega), hdot, readDigits, hnd]
        · simp [List.filter_cons, hcf, isDigit_eq_perlDigit, hrest.1, hrest.2]
      · cases hrest

/-- A text that `^\d+\.\d{2}$` matches is read by `ParseFloat` as the number of
hundredths that its digits spell. -/
theorem readDecimal_centsOf (s : String) (h : validateString s pricePattern = true) :
    readDecimal (utf8 s) = some (centsOf s, 2) := by
  unfold validateString pricePattern at h
  unfold utf8 centsOf
  generalize s.data = cs at h ⊢
  rcases cs with _ | ⟨c, rest⟩
  · simp [MatchString] at h
  · simp only [MatchString, Bool.and_eq_true] at h
    obtain ⟨hc, hrest⟩ := h
    obtain ⟨ip, ni, a, b, hr, ha, hb, hf⟩ := readDigits_cents rest hrest (c.toNat - 48) 1
    have h1 : readDigits (utf8Chars (c :: rest)) 0 0 = (ip, ni, [0x2E, a, b]) := by
      rw [utf8Chars_digit c rest hc, readDigits, if_pos (isDigitByte_of_perlDigit c hc)]
      simpa using hr
    have h2 : ((c :: rest).filter Char.isDigit).foldl (fun acc c => acc * 10 + (c.toNat - 48)) 0
        = (ip * 10 + (a - 48)) * 10 + (b - 48) := by
      rw [List.filter_cons, isDigit_eq_perlDigit, hc]
      simpa using hf
    rw [h2]
    unfold readDecimal
    rw [h1]
    simp [readDigits, ha, hb]

/-! ### Amounts below 262144.00 -/

/-- An amount below 262144.00 is parsed with an error of at most half a quantum,
the quantum being at most `2 ^ (-6)`. -/
theorem ParseFloat_small (s : String) (h : validateString s pricePattern = true)
    (hpos : 0 < centsOf s) (hlt : centsOf s < 26214400) :
    ∃ m q, ParseFloat (utf8 s) 32 = (GoFloat.fin m q, none) ∧ q ≤ -6 ∧
      |finVal m q - (centsOf s : ℚ) / 100| ≤ (2 : ℚ) ^ q / 2 := by
  have hN : ((centsOf s : ℕ) : ℚ) < 26214400 := by exact_mod_cast hlt
  have hcast : (((10 ^ 2 : Nat) : ℕ) : ℚ) = 100 := by norm_num
  have hval : ((centsOf s : ℕ) : ℚ) / ((10 ^ 2 : ℕ) : ℚ) < (2 : ℚ) ^ (18 : Int) := by
    rw [hcast, div_lt_iff₀ (by norm_num)]
    norm_num
    linarith
  have hparse : ParseFloat (utf8 s) 32 =
      match roundTo float32 (centsOf s) (10 ^ 2) with
      | GoFloat.inf => (GoFloat.inf, some NumError.errRange)
      | x => (x, none) := by
    simp only [ParseFloat, readDecimal_centsOf s h, if_true]
  rcases roundTo_spec float32 (centsOf s) (10 ^ 2) hpos (by norm_num) with hinf | ⟨m, hm, herr⟩
  · exfalso
    rcases roundTo_cases float32 (centsOf s) (10 ^ 2) (by norm_num) with ⟨m, q, h1, _⟩ | ⟨_, h2⟩
    · rw [hinf] at h1
      cases h1
    · have h3 : (2 : ℚ) ^ (18 : Int) ≤ (2 : ℚ) ^ (float32.maxE) / 2 := by
        have : float32.maxE = 128 := rfl
        rw [this]
        norm_num
      have h4 : 2 * ((centsOf s : ℕ) : ℚ) / ((10 ^ 2 : ℕ) : ℚ)
          = 2 * (((centsOf s : ℕ) : ℚ) / ((10 ^ 2 : ℕ) : ℚ)) := by ring
      rw [h4] at h2
      linarith
  · obtain ⟨hlo, _⟩ := floorLog2_spec (centsOf s) (10 ^ 2) hpos (by norm_num)
    have he : floorLog2 (centsOf s) (10 ^ 2) < 18 :=
      lt_of_two_zpow_lt _ _ (lt_of_le_of_lt hlo hval)
    have hq : max (floorLog2 (centsOf s) (10 ^ 2) - ((float32.prec : Int) - 1)) float32.minQ
        ≤ -6 := by
      have h1 : (float32.prec : Int) = 24 := rfl
      have h2 : float32.minQ = -149 := rfl
      rw [h1, h2]
      exact max_le (by omega) (by norm_num)
    refine ⟨m, _, ?_, hq, ?_⟩
    · rw [hparse, hm]
    · rw [hcast] at herr
      exact herr

theorem ParseFloat_zero (s : String) (h : validateString s pricePattern = true)
    (h0 : centsOf s = 0) : ParseFloat (utf8 s) 32 = (GoFloat.fin 0 0, none) := by
  simp only [ParseFloat, readDecimal_centsOf s h, h0, if_true, roundTo]

/-- An amount below 262144.00 that is a whole number of quarters is parsed
exactly. -/
theorem ParseFloat_quarters_exact (s : String) (n m : Nat) (q : Int)
    (hq : q ≤ -6) (hn : (centsOf s : ℚ) / 100 = (n : ℚ) / 4)
    (herr : |finVal m q - (centsOf s : ℚ) / 100| ≤ (2 : ℚ) ^ q / 2) :
    finVal m q = (n : ℚ) / 4 := by
  have h2q : (0 : ℚ) < (2 : ℚ) ^ q := zpow_pos (by norm_num) q
  rw [hn, quarters_on_grid n q (by omega)] at herr
  rw [quarters_on_grid n q (by omega)]
  exact finVal_eq_of_close _ _ _ (lt_of_le_of_lt herr (by linarith))

theorem two_zpow_neg_six_ge (q : Int) (hq : q ≤ -6) : (2 : ℚ) ^ q / 2 ≤ 1 / 128 := by
  have h := two_zpow_le_of_le q (-6) hq
  have e : (2 : ℚ) ^ (-6 : Int) = 1 / 64 := by norm_num
  rw [e] at h
  linarith

/-- The round-dollar test of `calcPoints` is right on every total below
262144.00. -/
theorem round_dollar_small (s : String) (h : validateString s pricePattern = true)
    (hlt : centsOf s < 26214400) :
    (Mod (ParseFloat (utf8 s) 32).1 float_1).isZero = decide (centsOf s % 100 = 0) := by
  rcases Nat.eq_zero_or_pos (centsOf s) with h0 | hpos
  · rw [ParseFloat_zero s h h0, h0]
    decide
  · obtain ⟨m, q, hp, hq, herr⟩ := ParseFloat_small s h hpos hlt
    rw [hp, Bool.eq_iff_iff, isZero_Mod_one_iff, decide_eq_true_eq]
    constructor
    · rintro ⟨z, hz⟩
      rw [hz] at herr
      have hb := two_zpow_neg_six_ge q hq
      rw [abs_le] at herr
      have h1 : (100 : ℚ) * z - centsOf s < 1 := by linarith
      have h2 : (-1 : ℚ) < 100 * z - centsOf s := by linarith
      have h1' : (100 * (z : Int) - centsOf s) < 1 := by exact_mod_cast h1
      have h2' : (-1 : Int) < (100 * (z : Int) - centsOf s) := by exact_mod_cast h2
      omega
    · intro hmod
      obtain ⟨k, hk⟩ := Nat.dvd_of_mod_eq_zero hmod
      refine ⟨k, ?_⟩
      have hn : (centsOf s : ℚ) / 100 = ((4 * k : ℕ) : ℚ) / 4 := by
        rw [hk]
        push_cast
        ring
      rw [ParseFloat_quarters_exact s (4 * k) m q hq hn herr]
      push_cast
      ring

/-- The quarter test of `calcPoints` is right on every total below 262144.00. -/
theorem quarter_small (s : String) (h : validateString s pricePattern = true)
    (hlt : centsOf s < 26214400) :
    (Mod (ParseFloat (utf8 s) 32).1 float_0_25).isZero = decide (centsOf s % 25 = 0) := by
  rcases Nat.eq_zero_or_pos (centsOf s) with h0 | hpos
  · rw [ParseFloat_zero s h h0, h0]
    decide
  · obtain ⟨m, q, hp, hq, herr⟩ := ParseFloat_small s h hpos hlt
    rw [hp, Bool.eq_iff_iff, isZero_Mod_quarter_iff, decide_eq_true_eq]
    constructor
    · rintro ⟨z, hz⟩
      rw [hz] at herr
      have hb := two_zpow_neg_six_ge q hq
      rw [abs_le] at herr
      have h1 : (25 : ℚ) * z - centsOf s < 1 := by linarith
      have h2 : (-1 : ℚ) < 25 * z - centsOf s := by linarith
      have h1' : (25 * (z : Int) - centsOf s) < 1 := by exact_mod_cast h1
      have h2' : (-1 : Int) < (25 * (z : Int) - centsOf s) := by exact_mod_cast h2
      omega
    · intro hmod
      obtain ⟨k, hk⟩ := Nat.dvd_of_mod_eq_zero hmod
      refine ⟨k, ?_⟩
      have hn : (centsOf s : ℚ) / 100 = ((k : ℕ) : ℚ) / 4 := by
        rw [hk]
        push_cast
        ring
      exact ParseFloat_quarters_exact s k m q hq hn herr

/-- The product of the constant 0.2 and a positive float below `2 ^ 19` on a
quantum of at most `2 ^ (-6)`: a finite float within half a quantum of the exact
product, on a quantum of at most `2 ^ (-35)` that is above the product divided by
`2 ^ 53`. -/
theorem mul_fifth_spec (m : Nat) (q : Int) (hq : q ≤ -6) (hm : 0 < m)
    (hx : finVal m q < (2 : ℚ) ^ (19 : Int)) :
    ∃ m2 q2, mulFloat64 float_0_2 (GoFloat.fin m q) = GoFloat.fin m2 q2 ∧ q2 ≤ -35 ∧
      |finVal m2 q2 - 3602879701896397 / 2 ^ 54 * finVal m q| ≤ (2 : ℚ) ^ q2 / 2 ∧
      3602879701896397 / 2 ^ 54 * finVal m q < (2 : ℚ) ^ q2 * 2 ^ 53 := by
  have hQ : ¬ (0 ≤ -54 + q) := by omega
  have hQ' : -54 + q < 0 := by omega
  have hmul : mulFloat64 float_0_2 (GoFloat.fin m q) =
      roundTo float64 (3602879701896397 * m) (2 ^ (-(-54 + q)).toNat) := by
    simp only [mulFloat64, float_0_2, hQ, if_false]
  have hnum : 0 < 3602879701896397 * m := by positivity
  have hden : 0 < 2 ^ (-(-54 + q)).toNat := by positivity
  have hone := two_zpow_neg_toNat (-54 + q) hQ'
  have hposK : (0 : ℚ) < (2 : ℚ) ^ (-(-54 + q)).toNat := by positivity
  have hx0 : 0 ≤ finVal m q := by unfold finVal; positivity
  have hP : ((3602879701896397 * m : ℕ) : ℚ) / ((2 ^ (-(-54 + q)).toNat : ℕ) : ℚ)
      = 3602879701896397 / 2 ^ 54 * finVal m q := by
    push_cast
    rw [div_eq_iff hposK.ne']
    unfold finVal
    have e : (2 : ℚ) ^ q = 2 ^ (-54 + q) * 2 ^ 54 := by
      rw [zpow_add₀ (by norm_num : (2 : ℚ) ≠ 0)]
      have : (2 : ℚ) ^ (-54 : Int) * 2 ^ 54 = 1 := by norm_num
      rw [mul_comm ((2 : ℚ) ^ (-54 : Int)), mul_assoc, this, mul_one]
    rw [e]
    have : (3602879701896397 : ℚ) / 2 ^ 54 * ((m : ℚ) * (2 ^ (-54 + q) * 2 ^ 54))
        * 2 ^ (-(-54 + q)).toNat
        = 3602879701896397 * m * (2 ^ (-(-54 + q)).toNat * 2 ^ (-54 + q)) := by
      field_simp
      ring
    rw [this, hone, mul_one]
  have hPlt : 3602879701896397 / 2 ^ 54 * finVal m q < (2 : ℚ) ^ (18 : Int) := by
    have h1 : (3602879701896397 : ℚ) / 2 ^ 54 ≤ 1 / 4 := by
      rw [div_le_iff₀ (by positivity)]
      norm_num
    have h2 : (3602879701896397 : ℚ) / 2 ^ 54 * finVal m q ≤ 1 / 4 * finVal m q :=
      mul_le_mul_of_nonneg_right h1 hx0
    have h3 : (2 : ℚ) ^ (19 : Int) = 4 * 2 ^ (17 : Int) := by norm_num
    have h4 : (2 : ℚ) ^ (17 : Int) < 2 ^ (18 : Int) := by norm_num
    linarith
  rcases roundTo_spec float64 _ _ hnum hden with hinf | ⟨m2, hm2, herr⟩
  · exfalso
    rcases roundTo_cases float64 (3602879701896397 * m) (2 ^ (-(-54 + q)).toNat) hden
      with ⟨m3, q3, h1, _⟩ | ⟨_, h2⟩
    · rw [hinf] at h1
      cases h1
    · have h3 : (2 : ℚ) ^ (19 : Int) ≤ (2 : ℚ) ^ float64.maxE := by
        have e : (2 : ℚ) ^ (19 : Int) = (2 : ℚ) ^ (19 : ℕ) := by norm_num
        rw [e]
        exact pow_le_pow_right₀ (by norm_num) (by decide)
      have h4 : 2 * ((3602879701896397 * m : ℕ) : ℚ) / ((2 ^ (-(-54 + q)).toNat : ℕ) : ℚ)
          = 2 * (3602879701896397 / 2 ^ 54 * finVal m q) := by
        rw [← hP]
        ring
      rw [h4] at h2
      have h5 : (2 : ℚ) ^ (19 : Int) = 2 * 2 ^ (18 : Int) := by norm_num
      linarith
  · obtain ⟨hlo, hhi⟩ := floorLog2_spec _ _ hnum hden
    rw [hP] at hlo hhi herr
    have he : floorLog2 (3602879701896397 * m) (2 ^ (-(-54 + q)).toNat) < 18 :=
      lt_of_two_zpow_lt _ _ (lt_of_le_of_lt hlo hPlt)
    have h1 : (float64.prec : Int) = 53 := rfl
    have h2 : float64.minQ = -1074 := rfl
    rw [h1, h2] at hm2 herr
    refine ⟨m2, _, by rw [hmul, hm2], max_le (by omega) (by norm_num), herr, ?_⟩
    have h3 : (2 : ℚ) ^ (floorLog2 (3602879701896397 * m) (2 ^ (-(-54 + q)).toNat) + 1)
        = (2 : ℚ) ^ (floorLog2 (3602879701896397 * m) (2 ^ (-(-54 + q)).toNat) - (53 - 1))
          * 2 ^ 53 := by
      have e : floorLog2 (3602879701896397 * m) (2 ^ (-(-54 + q)).toNat) + 1
          = (floorLog2 (3602879701896397 * m) (2 ^ (-(-54 + q)).toNat) - (53 - 1))
            + (53 : ℕ) := by
        push_cast
        ring
      rw [e, zpow_add₀ (by norm_num : (2 : ℚ) ≠ 0), zpow_natCast]
    rw [h3] at hhi
    have h4 := two_zpow_le_of_le _ _ (le_max_left
      (floorLog2 (3602879701896397 * m) (2 ^ (-(-54 + q)).toNat) - (53 - 1)) (-1074))
    have h5 := mul_le_mul_of_nonneg_right h4 (by positivity : (0 : ℚ) ≤ 2 ^ 53)
    exact lt_of_lt_of_le hhi h5

theorem nat_on_grid (n : Nat) (q : Int) (hq : q ≤ 0) :
    (n : ℚ) = finVal (n * 2 ^ (-q).toNat) q := by
  unfold finVal
  have h0 : (0 : Int) ≤ -q := by omega
  push_cast
  rw [two_zpow_toNat _ h0, mul_assoc, ← zpow_add₀ (by norm_num : (2 : ℚ) ≠ 0)]
  simp

/-- The points of an item are right on every price below 262144.00: the parsed
price times 0.2, rounded up and converted, is the number of hundredths divided by
500 and rounded up. -/
theorem fifth_rounded_up_small (s : String) (h : validateString s pricePattern = true)
    (hlt : centsOf s < 26214400) :
    floatToInt (Ceil (mulFloat64 float_0_2 (ParseFloat (utf8 s) 32).1))
      = (((centsOf s + 499) / 500 : Nat) : Int) := by
  rcases Nat.eq_zero_or_pos (centsOf s) with h0 | hpos
  · rw [ParseFloat_zero s h h0, h0]
    decide
  · obtain ⟨m, q, hp, hq, herr⟩ := ParseFloat_small s h hpos hlt
    rw [hp]
    dsimp only
    have hb := two_zpow_neg_six_ge q hq
    have hNq : ((centsOf s : ℕ) : ℚ) < 26214400 := by exact_mod_cast hlt
    have hN1 : (1 : ℚ) ≤ ((centsOf s : ℕ) : ℚ) := by exact_mod_cast hpos
    have herr' := abs_le.1 herr
    have hxlt : finVal m q < (2 : ℚ) ^ (19 : Int) := by
      have : (2 : ℚ) ^ (19 : Int) = 524288 := by norm_num
      rw [this]
      linarith
    have hxpos : 0 < finVal m q := by linarith
    have hm : 0 < m := by
      rcases Nat.eq_zero_or_pos m with hm0 | hm0
      · rw [hm0] at hxpos
        simp [finVal] at hxpos
      · exact hm0
    obtain ⟨m2, q2, hmul, hq2, herr2, hgrid⟩ := mul_fifth_spec m q hq hm hxlt
    rw [hmul]
    have hc : (3602879701896397 : ℚ) / 2 ^ 54 = 1 / 5 + 1 / (5 * 2 ^ 54) := by norm_num
    have hb2 : (2 : ℚ) ^ q2 / 2 ≤ 1 / 68719476736 := by
      have h1 := two_zpow_le_of_le q2 (-35) hq2
      have e : (2 : ℚ) ^ (-35 : Int) = 1 / 34359738368 := by norm_num
      rw [e] at h1
      linarith
    have herr2' := abs_le.1 herr2
    have h2pos : (0 : ℚ) < 1 / (5 * 2 ^ 54) := by positivity
    have hdm := Nat.div_add_mod (centsOf s) 500
    have hrlt := Nat.mod_lt (centsOf s) (by norm_num : 0 < 500)
    by_cases hr : centsOf s % 500 = 0
    · -- a whole number of dollars, a multiple of five
      have hk : centsOf s = 500 * (centsOf s / 500) := by omega
      have hk1 : 1 ≤ centsOf s / 500 := by omega
      have hkq : ((centsOf s : ℕ) : ℚ) = 500 * ((centsOf s / 500 : ℕ) : ℚ) := by
        exact_mod_cast hk
      have hn : (centsOf s : ℚ) / 100 = ((20 * (centsOf s / 500) : ℕ) : ℚ) / 4 := by
        rw [hkq]
        push_cast
        ring
      have hx := ParseFloat_quarters_exact s _ m q hq hn herr
      have hx5 : finVal m q = 5 * ((centsOf s / 500 : ℕ) : ℚ) := by
        rw [hx]
        push_cast
        ring
      rw [hx5, hc] at herr2 hgrid
      have hk0 : (1 : ℚ) ≤ ((centsOf s / 500 : ℕ) : ℚ) := by exact_mod_cast hk1
      have hP : (1 / 5 + 1 / (5 * 2 ^ 54)) * (5 * ((centsOf s / 500 : ℕ) : ℚ))
          = ((centsOf s / 500 : ℕ) : ℚ) + ((centsOf s / 500 : ℕ) : ℚ) / 2 ^ 54 := by
        field_simp
        ring
      rw [hP] at herr2 hgrid
      have hsmall : ((centsOf s / 500 : ℕ) : ℚ) / 2 ^ 54 < (2 : ℚ) ^ q2 / 2 := by
        rw [div_lt_iff₀ (by positivity)]
        have h54 : ((2 : ℚ) ^ q2 / 2) * 2 ^ 54 = 2 ^ q2 * 2 ^ 53 := by ring
        rw [h54]
        have : (0 : ℚ) ≤ ((centsOf s / 500 : ℕ) : ℚ) / 2 ^ 54 := by positivity
        linarith
      have hg : finVal m2 q2 = ((centsOf s / 500 : ℕ) : ℚ) := by
        rw [nat_on_grid (centsOf s / 500) q2 (by omega)]
        apply finVal_eq_of_close
        rw [← nat_on_grid (centsOf s / 500) q2 (by omega)]
        have herr3 := abs_le.1 herr2
        rw [abs_lt]
        constructor <;> linarith
      have hres := floatToInt_Ceil_eq m2 q2 (centsOf s / 500 - 1) (by omega)
        (by rw [hg]; exact_mod_cast (by omega : centsOf s / 500 - 1 < centsOf s / 500))
        (by
          rw [hg]
          have : ((centsOf s / 500 - 1 : ℕ) : ℚ) + 1 = ((centsOf s / 500 : ℕ) : ℚ) := by
            have : centsOf s / 500 - 1 + 1 = centsOf s / 500 := by omega
            exact_mod_cast this
          rw [this])
      rw [hres]
      have : centsOf s / 500 - 1 + 1 = (centsOf s + 499) / 500 := by omega
      rw [this]
    · -- at least a hundredth away from a multiple of five dollars
      have hr1 : 1 ≤ centsOf s % 500 := by omega
      have hNn : ((centsOf s : ℕ) : ℚ)
          = 500 * ((centsOf s / 500 : ℕ) : ℚ) + ((centsOf s % 500 : ℕ) : ℚ) := by
        exact_mod_cast hdm.symm
      have hr1q : (1 : ℚ) ≤ ((centsOf s % 500 : ℕ) : ℚ) := by exact_mod_cast hr1
      have hr2q : ((centsOf s % 500 : ℕ) : ℚ) ≤ 499 := by
        exact_mod_cast (by omega : centsOf s % 500 ≤ 499)
      rw [hc] at herr2'
      have hx19 : finVal m q < 524288 := by
        have : (2 : ℚ) ^ (19 : Int) = 524288 := by norm_num
        rw [this] at hxlt
        exact hxlt
      have htiny : 1 / (5 * 2 ^ 54) * finVal m q < 1 / 100000000000 := by
        have : (1 : ℚ) / (5 * 2 ^ 54) * finVal m q ≤ 1 / (5 * 2 ^ 54) * 524288 :=
          mul_le_mul_of_nonneg_left hx19.le h2pos.le
        have h3 : (1 : ℚ) / (5 * 2 ^ 54) * 524288 < 1 / 100000000000 := by norm_num
        linarith
      have htiny0 : 0 ≤ 1 / (5 * 2 ^ 54) * finVal m q := by positivity
      have hres := floatToInt_Ceil_eq m2 q2 (centsOf s / 500) (by omega)
        (by linarith) (by linarith)
      rw [hres]
      have : centsOf s / 500 + 1 = (centsOf s + 499) / 500 := by omega
      rw [this]

/-! ### calcPoints and the rule table, for amounts below 262144.00 -/

theorem utf8Chars_length_ascii (cs : List Char) (h : ∀ c ∈ cs, c.toNat < 128) :
    (utf8Chars cs).length = cs.length := by
  induction cs with
  | nil => rfl
  | cons c cs ih =>
    have hc := h c (List.mem_cons_self _ _)
    simp only [utf8Chars, utf8EncodeChar_ascii c hc, List.singleton_append, List.length_cons]
    rw [ih (fun x hx => h x (List.mem_cons_of_mem _ hx))]

theorem mem_of_mem_TrimSpace (cs : List Char) (c : Char) (h : c ∈ TrimSpace cs) : c ∈ cs := by
  unfold TrimSpace at h
  rw [List.mem_reverse] at h
  have h1 := (List.dropWhile_sublist IsSpace).subset h
  rw [List.mem_reverse] at h1
  exact (List.dropWhile_sublist IsSpace).subset h1

theorem shortDesc_ascii (s : String) (h : validateString s shortDescPattern = true) :
    ∀ c ∈ s.data, c.toNat < 128 := by
  simp only [validateString, shortDescPattern, MatchString, Bool.and_eq_true,
    List.all_eq_true] at h
  intro c hc
  have h1 := h.2 c hc
  simp only [perlWord, perlDigit, perlSpace, Bool.or_eq_true, Bool.and_eq_true,
    decide_eq_true_eq] at h1
  omega

theorem retailer_ascii (s : String) (h : validateString s retailerPattern = true) :
    ∀ c ∈ s.data, c.toNat < 128 := by
  simp only [validateString, retailerPattern, MatchString, Bool.and_eq_true,
    List.all_eq_true] at h
  intro c hc
  exact retailerClass_ascii c (h.2 c hc)

theorem itemStep_small (points : Int) (item : Item)
    (hd : validateString item.ShortDescription shortDescPattern = true)
    (hv : validateString item.Price pricePattern = true)
    (hlt : centsOf item.Price < 26214400)
    (h0 : 0 ≤ points) (hb : points + 52429 < 2 ^ 63) :
    itemStep points item = points + (itemPoints item : Int) ∧ itemPoints item ≤ 52429 := by
  have hlen : (utf8Chars (TrimSpace item.ShortDescription.data)).length
      = (TrimSpace item.ShortDescription.data).length :=
    utf8Chars_length_ascii _
      (fun c hc => shortDesc_ascii _ hd c (mem_of_mem_TrimSpace _ c hc))
  have hle : (centsOf item.Price + 499) / 500 ≤ 52429 := by omega
  unfold itemStep itemPoints
  dsimp only
  rw [hlen]
  split
  · rw [fifth_rounded_up_small item.Price hv hlt]
    refine ⟨addInt_of_range _ _ h0 (Int.natCast_nonneg _) ?_, hle⟩
    have : (((centsOf item.Price + 499) / 500 : ℕ) : Int) ≤ 52429 := by exact_mod_cast hle
    omega
  · simp

theorem itemsBlock_small (Items : List Item)
    (hv : ∀ item ∈ Items, validateString item.ShortDescription shortDescPattern = true ∧
      validateString item.Price pricePattern = true ∧ centsOf item.Price < 26214400)
    (points : Int) (h0 : 0 ≤ points)
    (hb : points + 52429 * (Items.length : Int) < 2 ^ 63) :
    itemsBlock points Items = points + (((Items.map itemPoints).sum : Nat) : Int) ∧
      (Items.map itemPoints).sum ≤ 52429 * Items.length := by
  unfold itemsBlock
  induction Items generalizing points with
  | nil => simp
  | cons item rest ih =>
    simp only [List.length_cons, Nat.cast_add, Nat.cast_one] at hb
    have hi := hv item (List.mem_cons_self _ _)
    obtain ⟨hs1, hs2⟩ := itemStep_small points item hi.1 hi.2.1 hi.2.2 h0 (by omega)
    have hs2' : (itemPoints item : Int) ≤ 52429 := by exact_mod_cast hs2
    have hs3 : (0 : Int) ≤ (itemPoints item : Int) := Int.natCast_nonneg _
    obtain ⟨hr1, hr2⟩ := ih (fun x hx => hv x (List.mem_cons_of_mem _ hx))
      (itemStep points item) (by omega) (by omega)
    rw [List.foldl_cons, hr1, hs1]
    simp only [List.map_cons, List.sum_cons, List.length_cons, Nat.cast_add]
    constructor
    · ring
    · omega

theorem totalBlock_small (points : Int) (Total : String)
    (hv : validateString Total totalPattern = true) (hlt : centsOf Total < 26214400)
    (h0 : 0 ≤ points) (hb : points + 75 < 2 ^ 63) :
    totalBlock points Total = points + ((if centsOf Total % 100 = 0 then 50 else 0 : Nat) : Int)
      + ((if centsOf Total % 25 = 0 then 25 else 0 : Nat) : Int) := by
  have e1 : addInt points 25 = points + 25 :=
    addInt_of_range points 25 h0 (by norm_num) (by omega)
  have e2 : addInt points 50 = points + 50 :=
    addInt_of_range points 50 h0 (by norm_num) (by omega)
  have e3 : addInt (points + 50) 25 = points + 50 + 25 :=
    addInt_of_range (points + 50) 25 (by omega) (by norm_num) (by omega)
  unfold totalBlock
  dsimp only
  rw [round_dollar_small Total hv hlt, quarter_small Total hv hlt]
  by_cases h100 : centsOf Total % 100 = 0 <;> by_cases h25 : centsOf Total % 25 = 0 <;>
    simp [h100, h25, e1, e2, e3]

/-- For every receipt that passes the checks, whose total and item prices are below
262144.00 and whose size keeps the points within the 64-bit `int`, `calcPoints`
returns exactly the sum of the seven rules of the rule table. -/
theorem calcPoints_eq_ruleTablePoints_of_small (r : Receipt)
    (h : postReceiptChecks r = none)
    (htotal : centsOf r.Total < 26214400)
    (hprice : ∀ item ∈ r.Items, centsOf item.Price < 26214400)
    (hsize : (utf8 r.Retailer).length + 52434 * r.Items.length + 91 < 2 ^ 63) :
    calcPoints r = some (ruleTablePoints r) := by
  obtain ⟨_, hret, htot, hitems, ⟨hour, minute, ht⟩, ⟨year, month, day, hdate⟩⟩ :=
    accepted_facts r h
  have hsizeZ : ((utf8 r.Retailer).length : Int) + 52434 * (r.Items.length : Int) + 91
      < 2 ^ 63 := by exact_mod_cast hsize
  have hdiv : ((r.Items.length / 2 : Nat) : Int) ≤ r.Items.length := by
    exact_mod_cast Nat.div_le_self _ _
  have hdiv0 : (0 : Int) ≤ ((r.Items.length / 2 : Nat) : Int) := Int.natCast_nonneg _
  have hlen0 : (0 : Int) ≤ (r.Items.length : Int) := Int.natCast_nonneg _
  have hfl : (r.Retailer.data.filter Char.isAlphanum).length ≤ (utf8 r.Retailer).length := by
    rw [utf8, utf8Chars_length_ascii _ (retailer_ascii _ hret)]
    exact List.length_filter_le _ _
  have hflZ : ((r.Retailer.data.filter Char.isAlphanum).length : Int)
      ≤ ((utf8 r.Retailer).length : Int) := by exact_mod_cast hfl
  have hfl0 : (0 : Int) ≤ ((r.Retailer.data.filter Char.isAlphanum).length : Int) :=
    Int.natCast_nonneg _
  have b1 : retailerLoop (utf8 r.Retailer) 0
      = ((r.Retailer.data.filter Char.isAlphanum).length : Int) := by
    have := retailerLoop_ascii r.Retailer.data (retailer_ascii _ hret) 0 (le_refl 0)
      (by rw [← utf8]; omega)
    rw [zero_add] at this
    exact this
  have hr2 : ((if centsOf r.Total % 100 = 0 then 50 else 0 : Nat) : Int) ≤ 50 := by
    split <;> simp
  have hr3 : ((if centsOf r.Total % 25 = 0 then 25 else 0 : Nat) : Int) ≤ 25 := by
    split <;> simp
  have hr20 : (0 : Int) ≤ ((if centsOf r.Total % 100 = 0 then 50 else 0 : Nat) : Int) :=
    Int.natCast_nonneg _
  have hr30 : (0 : Int) ≤ ((if centsOf r.Total % 25 = 0 then 25 else 0 : Nat) : Int) :=
    Int.natCast_nonneg _
  have b2 := totalBlock_small (retailerLoop (utf8 r.Retailer) 0) r.Total htot htotal
    (by omega) (by omega)
  have b3 := pairsBlock_eq (totalBlock (retailerLoop (utf8 r.Retailer) 0) r.Total) r.Items
    (by omega) (by omega)
  obtain ⟨b4, b4le⟩ := itemsBlock_small r.Items
    (fun x hx => ⟨(hitems x hx).1, (hitems x hx).2, hprice x hx⟩)
    (pairsBlock (totalBlock (retailerLoop (utf8 r.Retailer) 0) r.Total) r.Items)
    (by omega) (by omega)
  have b4leZ : (((r.Items.map itemPoints).sum : Nat) : Int) ≤ 52429 * (r.Items.length : Int) := by
    exact_mod_cast b4le
  have b40 : (0 : Int) ≤ (((r.Items.map itemPoints).sum : Nat) : Int) := Int.natCast_nonneg _
  unfold calcPoints ruleTablePoints
  dsimp only
  rw [dateBlock_of_parse _ _ year month day hdate]
  dsimp only
  rw [timeBlock_of_parse _ _ hour minute ht, hdate, ht]
  dsimp only
  rw [b4, b3, b2, b1]
  congr 1
  have e6 : ∀ p : Int, 0 ≤ p → p + 6 < 2 ^ 63 → addInt p 6 = p + 6 :=
    fun p hp hb => addInt_of_range p 6 hp (by norm_num) (by omega)
  have e10 : ∀ p : Int, 0 ≤ p → p + 10 < 2 ^ 63 → addInt p 10 = p + 10 :=
    fun p hp hb => addInt_of_range p 10 hp (by norm_num) (by omega)
  by_cases hd : day % 2 = 1 <;> by_cases htm : (hour = 14 ∧ 0 < minute) ∨ hour = 15
  · rw [if_pos hd, if_pos htm, if_pos hd, if_pos htm, e6 _ (by omega) (by omega),
      e10 _ (by omega) (by omega)]
    simp only [Nat.cast_add, Nat.cast_mul, Nat.cast_ofNat]
  · rw [if_pos hd, if_neg htm, if_pos hd, if_neg htm, e6 _ (by omega) (by omega)]
    simp only [Nat.cast_add, Nat.cast_mul, Nat.cast_ofNat, Nat.cast_zero]
    omega
  · rw [if_neg hd, if_pos htm, if_neg hd, if_pos htm, e10 _ (by omega) (by omega)]
    simp only [Nat.cast_add, Nat.cast_mul, Nat.cast_ofNat, Nat.cast_zero]
    omega
  · rw [if_neg hd, if_neg htm, if_neg hd, if_neg htm]
    simp only [Nat.cast_add, Nat.cast_mul, Nat.cast_ofNat, Nat.cast_zero]
    omega

/-! ## C1, C3, C5: amounts that float32 does not hold -/

/-- C1 (a defect of the program). The receipt `largeTotal` passes every check; by
the rule table its points are 6 (six letters in "Target", a total of 262144.01 that
is neither round nor a multiple of 0.25, one item, a description of eight
characters, an even day, 13:01), but `calcPoints` returns 81: the total is parsed
with bit size 32, where 262144.01 becomes 262144, and earns 50 and 25 points. -/
theorem calcPoints_departs_from_rule_table :
    postReceiptChecks largeTotal = none ∧ calcPoints largeTotal = some 81 ∧
      ruleTablePoints largeTotal = 6 := by
  decide

/-- C3 (a defect of the program). The total "300000.01" is accepted by the total
pattern and is no round dollar amount (its hundredths are not a multiple of 100),
yet its remainder by 1, as `calcPoints` computes it, is zero and the block of the
total adds 50 (and 25); the round total of `hugeTotal` earns nothing. -/
theorem round_dollar_rule_on_large_total :
    validateString "300000.01" totalPattern = true ∧
    centsOf "300000.01" % 100 = 1 ∧
    (Mod (ParseFloat (utf8 "300000.01") 32).1 float_1).isZero = true ∧
    totalBlock 0 "300000.01" = 75 ∧
    validateString hugeTotal.Total totalPattern = true ∧
    centsOf hugeTotal.Total % 100 = 0 ∧
    totalBlock 0 hugeTotal.Total = 0 := by
  decide

/-- C5 (a defect of the program). The receipt `largePrice` passes every check; its
item "ABC" has a description of length 3 and the price 262145.01, of which a fifth,
rounded up, is 52430, but the loop over the items adds 52429: the price is parsed
with bit size 32, where it becomes 262145.  (On the prices of the spec the loop is
right: 12.25 and 12.00 add 3, 3.00 and 5.00 add 1, and an item whose trimmed
description has a length not divisible by 3 adds nothing.) -/
theorem item_rule_on_large_price :
    postReceiptChecks largePrice = none ∧
    (TrimSpace "ABC".data).length % 3 = 0 ∧
    (centsOf "262145.01" + 499) / 500 = 52430 ∧
    itemStep 0 ⟨"ABC", "262145.01"⟩ = 52429 ∧
    calcPoints largePrice = some 52435 ∧ ruleTablePoints largePrice = 52436 ∧
    itemStep 0 ⟨"ABC", "12.25"⟩ = 3 ∧ itemStep 0 ⟨"ABC", "12.00"⟩ = 3 ∧
    itemStep 0 ⟨"ABC", "3.00"⟩ = 1 ∧ itemStep 0 ⟨"ABC", "5.00"⟩ = 1 ∧
    itemStep 0 ⟨"Gatorade", "12.25"⟩ = 0 := by
  decide

/-! ## C11: a rejected receipt leaves the store as it was -/

/-- The two outcomes of `postReceipt`: a rejection and the store as it was, or the
receipt and its points stored under the decimal text of `curID`, `curID` counted
up, and that identifier for an answer. -/
theorem postReceipt_cases (st : Store) (body : Option Receipt) :
    ((postReceipt st body).1 = st ∧
      ∃ message code, (postReceipt st body).2 = Response.error message code) ∨
    (∃ r points, body = some r ∧ postReceiptChecks r = none ∧ calcPoints r = some points ∧
      postReceipt st body =
        ({ receipts := mapSet st.receipts (Itoa st.curID) r,
           pointsAwarded := mapSet st.pointsAwarded (Itoa st.curID) points,
           curID := addInt st.curID 1 }, Response.id (Itoa st.curID))) := by
  cases body with
  | none => exact Or.inl ⟨rfl, _, _, rfl⟩
  | some r =>
    cases hc : postReceiptChecks r with
    | some rejection =>
      left
      have h1 : postReceipt st (some r) = (st, rejection) := by
        simp only [postReceipt, hc]
      rw [h1]
      refine ⟨rfl, ?_⟩
      -- every rejection of the checks is an error
      unfold postReceiptChecks at hc
      split at hc
      · exact ⟨_, _, (Option.some.inj hc).symm⟩
      · split at hc
        · exact ⟨_, _, (Option.some.inj hc).symm⟩
        · split at hc
          · exact ⟨_, _, (Option.some.inj hc).symm⟩
          · split at hc
            · rename_i rej hi
              rcases checkItems_some _ _ hi with e | e
              · exact ⟨_, _, by rw [← Option.some.inj hc, e]⟩
              · exact ⟨_, _, by rw [← Option.some.inj hc, e]⟩
            · split at hc
              · exact ⟨_, _, (Option.some.inj hc).symm⟩
              · split at hc
                · exact ⟨_, _, (Option.some.inj hc).symm⟩
                · cases hc
    | none =>
      right
      obtain ⟨points, hp⟩ := calcPoints_accepted r hc
      refine ⟨r, points, rfl, hc, hp, ?_⟩
      simp only [postReceipt, hc, hp, Itoa_matches_idPattern, Bool.not_true,
        Bool.false_eq_true, if_false]

/-- C11. For every store and every request body, whenever `postReceipt` answers
with an error, the receipt is neither stored nor scored nor given an identifier:
the store (`receipts`, `pointsAwarded` and `curID`) is exactly what it was.  This
covers the sanity check of the identifier made after the store is written, which
never fails: the decimal text of `curID` always matches the identifier pattern. -/
theorem postReceipt_error_leaves_store (st : Store) (body : Option Receipt)
    (message : String) (code : Nat)
    (h : (postReceipt st body).2 = Response.error message code) :
    (postReceipt st body).1 = st ∧ validateString (Itoa st.curID) idPattern = true := by
  refine ⟨?_, Itoa_matches_idPattern _⟩
  rcases postReceipt_cases st body with ⟨h1, _⟩ | ⟨r, points, _, _, _, h2⟩
  · exact h1
  · rw [h2] at h
    cases h

/-- C11, on the empty receipt of `TestPostReceiptBlank`, posted to the store that
holds the first receipt of `TestCalcPoints`: the answer is an error and the store is
what it was. -/
theorem postReceipt_error_leaves_store_witness :
    (postReceipt oneReceiptStore (some blankReceipt)).2
      = Response.error "The receipt is invalid." 400 ∧
    ((postReceipt oneReceiptStore (some blankReceipt)).1 = oneReceiptStore ∧
      validateString (Itoa oneReceiptStore.curID) idPattern = true) :=
  ⟨by decide,
    postReceipt_error_leaves_store oneReceiptStore (some blankReceipt)
      "The receipt is invalid." 400 (by decide)⟩

/-! ## C13: the identifiers -/

theorem digitChar_toNat (d : Nat) (hd : d < 10) : (Char.ofNat (0x30 + d)).toNat - 48 = d := by
  interval_cases d <;> rfl

theorem digitsVal_decimalDigits (fuel n : Nat) (acc : List Char) (h : n < fuel) :
    digitsVal (decimalDigits fuel n acc) 0 = digitsVal acc n := by
  induction fuel generalizing n acc with
  | zero => omega
  | succ fuel ih =>
    unfold decimalDigits
    split
    · rename_i hn
      simp only [digitsVal, List.foldl_cons, digitChar_toNat n hn, Nat.zero_mul, Nat.zero_add]
    · rename_i hn
      rw [ih (n / 10) _ (by omega)]
      simp only [digitsVal, List.foldl_cons, digitChar_toNat (n % 10) (Nat.mod_lt _ (by norm_num))]
      congr 1
      omega

/-- The decimal text of a natural number spells that number. -/
theorem digitsVal_Itoa (i : Int) (hi : 0 ≤ i) : digitsVal (Itoa i).data 0 = i.natAbs := by
  unfold Itoa
  rw [if_neg (by omega)]
  exact digitsVal_decimalDigits _ _ [] (by omega)

/-- Two integers that are not negative and have the same decimal text are equal. -/
theorem Itoa_injective (i j : Int) (hi : 0 ≤ i) (hj : 0 ≤ j) (h : Itoa i = Itoa j) : i = j := by
  have h1 := digitsVal_Itoa i hi
  have h2 := digitsVal_Itoa j hj
  rw [h] at h1
  omega

theorem mapSet_isSome {α : Type} (m : String → Option α) (key : String) (value : α)
    (k : String) : (mapSet m key value k).isSome = true ↔ k = key ∨ (m k).isSome = true := by
  unfold mapSet
  by_cases h : k = key
  · simp [h]
  · simp [h]

theorem keys_step (st : Store) (body : Option Receipt) (h : KeysBelowCurID st)
    (hb : st.curID + 1 < 2 ^ 63) : KeysBelowCurID (postReceipt st body).1 := by
  rcases postReceipt_cases st body with ⟨h1, _⟩ | ⟨r, points, _, _, _, h2⟩
  · rw [h1]
    exact h
  · rw [h2]
    obtain ⟨h0, hr, hp⟩ := h
    have hadd : addInt st.curID 1 = st.curID + 1 :=
      addInt_of_range st.curID 1 h0 (by norm_num) hb
    have key : ∀ k, (k = Itoa st.curID ∨ ∃ i : Int, 0 ≤ i ∧ i < st.curID ∧ k = Itoa i) ↔
        ∃ i : Int, 0 ≤ i ∧ i < st.curID + 1 ∧ k = Itoa i := by
      intro k
      constructor
      · rintro (hk | ⟨i, hi0, hi1, hk⟩)
        · exact ⟨st.curID, h0, by omega, hk⟩
        · exact ⟨i, hi0, by omega, hk⟩
      · rintro ⟨i, hi0, hi1, hk⟩
        by_cases he : i = st.curID
        · exact Or.inl (by rw [hk, he])
        · exact Or.inr ⟨i, hi0, by omega, hk⟩
    refine ⟨?_, ?_, ?_⟩
    · show 0 ≤ addInt st.curID 1
      rw [hadd]
      omega
    · intro k
      show (mapSet st.receipts (Itoa st.curID) r k).isSome = true ↔
        ∃ i : Int, 0 ≤ i ∧ i < addInt st.curID 1 ∧ k = Itoa i
      rw [mapSet_isSome, hr k, hadd, key k]
    · intro k
      show (mapSet st.pointsAwarded (Itoa st.curID) points k).isSome = true ↔
        ∃ i : Int, 0 ≤ i ∧ i < addInt st.curID 1 ∧ k = Itoa i
      rw [mapSet_isSome, hp k, hadd, key k]

theorem reachable_keys (st : Store) (h : Reachable st) : KeysBelowCurID st := by
  induction h with
  | init =>
    refine ⟨le_refl _, ?_, ?_⟩ <;>
    · intro k
      simp only [emptyStore, Option.isSome_none, Bool.false_eq_true, false_iff, not_exists]
      intro i hi
      omega
  | post st body _ hb ih => exact keys_step st body ih hb

/-- C13. In every state reached from the empty store by calls of `postReceipt`
(each made with fewer than `2 ^ 63 - 1` receipts stored, as the size of a Go map
demands), `curID` is not negative and the keys of `receipts` and of `pointsAwarded`
are exactly the decimal texts of the integers from 0 to `curID - 1`.  Hence a
successful `postReceipt` returns the decimal text of `curID`, which was no key of
either map before, increases `curID` by exactly 1, and leaves what is stored under
every earlier identifier as it was. -/
theorem identifiers_never_reused (st : Store) (h : Reachable st) :
    0 ≤ st.curID ∧
    (∀ k, (st.receipts k).isSome = true ↔ ∃ i : Int, 0 ≤ i ∧ i < st.curID ∧ k = Itoa i) ∧
    (∀ k, (st.pointsAwarded k).isSome = true ↔
      ∃ i : Int, 0 ≤ i ∧ i < st.curID ∧ k = Itoa i) ∧
    (∀ (body : Option Receipt) (id : String), st.curID + 1 < 2 ^ 63 →
      (postReceipt st body).2 = Response.id id →
      id = Itoa st.curID ∧ st.receipts id = none ∧ st.pointsAwarded id = none ∧
      (postReceipt st body).1.curID = st.curID + 1 ∧
      (∀ i : Int, 0 ≤ i → i < st.curID →
        (postReceipt st body).1.receipts (Itoa i) = st.receipts (Itoa i) ∧
        (postReceipt st body).1.pointsAwarded (Itoa i) = st.pointsAwarded (Itoa i))) := by
  obtain ⟨h0, hr, hp⟩ := reachable_keys st h
  refine ⟨h0, hr, hp, ?_⟩
  intro body id hb hid
  rcases postReceipt_cases st body with ⟨_, message, code, h1⟩ | ⟨r, points, _, _, _, h2⟩
  · rw [h1] at hid
    cases hid
  · rw [h2] at hid ⊢
    have hid' : Itoa st.curID = id := by
      simpa using hid
    subst hid'
    have hfresh : ∀ i : Int, 0 ≤ i → i < st.curID → Itoa i ≠ Itoa st.curID := by
      intro i hi0 hi1 he
      have := Itoa_injective i st.curID hi0 h0 he
      omega
    have hnone : ∀ {α : Type} (m : String → Option α),
        ((m (Itoa st.curID)).isSome = true ↔
          ∃ i : Int, 0 ≤ i ∧ i < st.curID ∧ Itoa st.curID = Itoa i) →
        m (Itoa st.curID) = none := by
      intro α m hm
      cases hv : m (Itoa st.curID) with
      | none => rfl
      | some v =>
        exfalso
        rw [hv] at hm
        obtain ⟨i, hi0, hi1, he⟩ := hm.1 rfl
        exact hfresh i hi0 hi1 he.symm
    refine ⟨rfl, hnone _ (hr _), hnone _ (hp _), ?_, ?_⟩
    · exact addInt_of_range st.curID 1 h0 (by norm_num) hb
    · intro i hi0 hi1
      have hne := hfresh i hi0 hi1
      constructor
      · show mapSet st.receipts (Itoa st.curID) r (Itoa i) = st.receipts (Itoa i)
        unfold mapSet
        rw [if_neg hne]
      · show mapSet st.pointsAwarded (Itoa st.curID) points (Itoa i)
          = st.pointsAwarded (Itoa i)
        unfold mapSet
        rw [if_neg hne]

/-- C13, on the store that holds the first receipt of `TestCalcPoints`: it is
reached, its `curID` is 1, its only key is "0", and the second receipt of
`TestCalcPoints` gets the identifier "1". -/
theorem identifiers_never_reused_witness :
    Reachable oneReceiptStore ∧
    (0 ≤ oneReceiptStore.curID ∧
      (∀ k, (oneReceiptStore.receipts k).isSome = true ↔
        ∃ i : Int, 0 ≤ i ∧ i < oneReceiptStore.curID ∧ k = Itoa i) ∧
      (∀ k, (oneReceiptStore.pointsAwarded k).isSome = true ↔
        ∃ i : Int, 0 ≤ i ∧ i < oneReceiptStore.curID ∧ k = Itoa i) ∧
      (∀ (body : Option Receipt) (id : String), oneReceiptStore.curID + 1 < 2 ^ 63 →
        (postReceipt oneReceiptStore body).2 = Response.id id →
        id = Itoa oneReceiptStore.curID ∧ oneReceiptStore.receipts id = none ∧
        oneReceiptStore.pointsAwarded id = none ∧
        (postReceipt oneReceiptStore body).1.curID = oneReceiptStore.curID + 1 ∧
        (∀ i : Int, 0 ≤ i → i < oneReceiptStore.curID →
          (postReceipt oneReceiptStore body).1.receipts (Itoa i)
            = oneReceiptStore.receipts (Itoa i) ∧
          (postReceipt oneReceiptStore body).1.pointsAwarded (Itoa i)
            = oneReceiptStore.pointsAwarded (Itoa i)))) ∧
    oneReceiptStore.curID = 1 ∧
    (postReceipt emptyStore (some scenarioA)).2 = Response.id "0" ∧
    (postReceipt oneReceiptStore (some scenarioB)).2 = Response.id "1" :=
  ⟨Reachable.post emptyStore (some scenarioA) Reachable.init (by decide),
    identifiers_never_reused oneReceiptStore
      (Reachable.post emptyStore (some scenarioA) Reachable.init (by decide)),
    by decide, by decide, by decide⟩

/-! ## C12: the points are served under the identifier -/

theorem utf8Chars_append (a b : List Char) :
    utf8Chars (a ++ b) = utf8Chars a ++ utf8Chars b := by
  induction a with
  | nil => rfl
  | cons c cs ih => simp [utf8Chars, ih]

theorem utf8_append (s t : String) : utf8 (s ++ t) = utf8 s ++ utf8 t := by
  simp [utf8, utf8Chars_append]

theorem utf8Chars_ascii (cs : List Char) (h : ∀ c ∈ cs, c.toNat < 128) :
    utf8Chars cs = cs.map Char.toNat := by
  induction cs with
  | nil => rfl
  | cons c cs ih =>
    simp only [utf8Chars, utf8EncodeChar_ascii c (h c (List.mem_cons_self _ _)),
      List.singleton_append, List.map_cons]
    rw [ih (fun x hx => h x (List.mem_cons_of_mem _ hx))]

theorem decodeRunes_ascii (cs : List Char) (h : ∀ c ∈ cs, c.toNat < 128) (fuel : Nat)
    (hf : cs.length ≤ fuel) : decodeRunes fuel (cs.map Char.toNat) = cs := by
  induction cs generalizing fuel with
  | nil => cases fuel <;> simp [decodeRunes]
  | cons c cs ih =>
    cases fuel with
    | zero => simp at hf
    | succ fuel =>
      have hc := h c (List.mem_cons_self _ _)
      simp only [List.map_cons, decodeRunes, decodeRune, hc, if_true, Char.ofNat_toNat]
      rw [ih (fun x hx => h x (List.mem_cons_of_mem _ hx)) fuel (by simpa using hf)]

/-- The runes of the bytes of an ASCII text are its characters. -/
theorem runesOf_ascii (cs : List Char) (h : ∀ c ∈ cs, c.toNat < 128) :
    runesOf (utf8Chars cs) = cs := by
  rw [utf8Chars_ascii cs h]
  exact decodeRunes_ascii cs h _ (by simp)

theorem indexFrom_append (b : Nat) (xs rest : Bytes) (i : Nat) (h : ∀ x ∈ xs, x ≠ b) :
    indexFrom b (xs ++ b :: rest) i = ((i + xs.length : Nat) : Int) := by
  induction xs generalizing i with
  | nil => simp [indexFrom]
  | cons x xs ih =>
    have hx : x ≠ b := h x (List.mem_cons_self _ _)
    rw [List.cons_append, indexFrom, if_neg hx,
      ih (i + 1) (fun y hy => h y (List.mem_cons_of_mem _ hy)), List.length_cons]
    congr 1
    omega

theorem indexFrom_absent (b : Nat) (xs : Bytes) (i : Nat) (h : ∀ x ∈ xs, x ≠ b) :
    indexFrom b xs i = -1 := by
  induction xs generalizing i with
  | nil => rfl
  | cons x xs ih =>
    have hx : x ≠ b := h x (List.mem_cons_self _ _)
    simp only [indexFrom, hx, if_false]
    exact ih (i + 1) (fun y hy => h y (List.mem_cons_of_mem _ hy))

theorem hasPrefix_append (p x : Bytes) : hasPrefix (p ++ x) p = true := by
  induction p with
  | nil => cases x <;> rfl
  | cons a p ih => simp [hasPrefix, ih]

theorem sliceFrom_after_receipts (x : Bytes) :
    sliceFrom (utf8 "/receipts/" ++ x) 10 = some x := by
  have h10 : utf8 "/receipts/" = [47, 114, 101, 99, 101, 105, 112, 116, 115, 47] := by decide
  rw [h10]
  simp only [sliceFrom, List.cons_append, List.nil_append, List.length_cons]
  rw [if_pos (by omega)]
  rfl

theorem sliceTo_append (a b : Bytes) : sliceTo (a ++ b) (a.length : Int) = some a := by
  simp [sliceTo]

/-- What `getReceiptPoints` does with a path that has a slash after the identifier:
the identifier is the text between the prefix and that slash. -/
theorem getReceiptPoints_with_slash (st : Store) (idb rest : Bytes)
    (h : ∀ x ∈ idb, x ≠ 0x2F) :
    getReceiptPoints st (utf8 "/receipts/" ++ (idb ++ 0x2F :: rest)) =
      if !validateBytes idb idPattern then Response.error "invalid ID" 404
      else
        match lookupBytes st.pointsAwarded idb with
        | none => Response.error "Receipt not found for given ID " 404
        | some pointTotal => Response.points pointTotal := by
  unfold getReceiptPoints
  rw [sliceFrom_after_receipts]
  dsimp only
  have hi : Index (idb ++ 0x2F :: rest) 0x2F = (idb.length : Int) := by
    unfold Index
    rw [indexFrom_append 0x2F idb rest 0 h]
    simp
  rw [hi, sliceTo_append]

/-- What `getReceiptPoints` does with a path that has no slash after the prefix: the
slice `id[:slashIndex]` panics. -/
theorem getReceiptPoints_without_slash (st : Store) (idb : Bytes)
    (h : ∀ x ∈ idb, x ≠ 0x2F) :
    getReceiptPoints st (utf8 "/receipts/" ++ idb) = Response.panicked := by
  unfold getReceiptPoints
  rw [sliceFrom_after_receipts]
  dsimp only
  have hi : Index idb 0x2F = -1 := indexFrom_absent 0x2F idb 0 h
  rw [hi]
  simp [sliceTo]

theorem decimalDigits_all (P : Char → Prop) (hdig : ∀ d, d < 10 → P (Char.ofNat (0x30 + d)))
    (fuel n : Nat) (acc : List Char) (hacc : ∀ c ∈ acc, P c) :
    ∀ c ∈ decimalDigits fuel n acc, P c := by
  induction fuel generalizing n acc with
  | zero => simpa [decimalDigits] using hacc
  | succ fuel ih =>
    unfold decimalDigits
    split
    · rename_i hn
      intro c hc
      rcases List.mem_cons.1 hc with rfl | hc
      · exact hdig n hn
      · exact hacc c hc
    · apply ih
      intro c hc
      rcases List.mem_cons.1 hc with rfl | hc
      · exact hdig _ (Nat.mod_lt _ (by norm_num))
      · exact hacc c hc

/-- The decimal text of an integer is made of ASCII characters other than the
slash. -/
theorem Itoa_chars (i : Int) : ∀ c ∈ (Itoa i).data, c.toNat < 128 ∧ c.toNat ≠ 0x2F := by
  have hdig : ∀ d, d < 10 →
      (Char.ofNat (0x30 + d)).toNat < 128 ∧ (Char.ofNat (0x30 + d)).toNat ≠ 0x2F := by
    intro d hd
    interval_cases d <;> decide
  have h := decimalDigits_all (fun c => c.toNat < 128 ∧ c.toNat ≠ 0x2F) hdig
    (i.natAbs + 1) i.natAbs [] (by simp)
  unfold Itoa
  split
  · intro c hc
    rcases List.mem_cons.1 hc with rfl | hc
    · decide
    · exact h c hc
  · exact h

/-- The request that `TestGetReceiptPointsHappyPath` makes for an identifier that
`Itoa` made: the points stored under it, or "not found". -/
theorem getReceiptPoints_of_Itoa (st : Store) (i : Int) :
    getReceiptPoints st (utf8 ("/receipts/" ++ Itoa i ++ "/points")) =
      match st.pointsAwarded (Itoa i) with
      | none => Response.error "Receipt not found for given ID " 404
      | some pointTotal => Response.points pointTotal := by
  have hascii : ∀ c ∈ (Itoa i).data, c.toNat < 128 := fun c hc => (Itoa_chars i c hc).1
  have hbytes : utf8 (Itoa i) = (Itoa i).data.map Char.toNat := utf8Chars_ascii _ hascii
  have hno : ∀ x ∈ utf8 (Itoa i), x ≠ 0x2F := by
    intro x hx
    rw [hbytes] at hx
    obtain ⟨c, hc, rfl⟩ := List.mem_map.1 hx
    exact (Itoa_chars i c hc).2
  have hpath : utf8 ("/receipts/" ++ Itoa i ++ "/points")
      = utf8 "/receipts/" ++ (utf8 (Itoa i) ++ 0x2F :: utf8 "points") := by
    rw [utf8_append, utf8_append, List.append_assoc]
    rfl
  have hrunes : runesOf (utf8 (Itoa i)) = (Itoa i).data := runesOf_ascii _ hascii
  rw [hpath, getReceiptPoints_with_slash st _ _ hno]
  have hv : validateBytes (utf8 (Itoa i)) idPattern = true := by
    unfold validateBytes
    rw [hrunes]
    exact Itoa_matches_idPattern i
  have hl : lookupBytes st.pointsAwarded (utf8 (Itoa i)) = st.pointsAwarded (Itoa i) := by
    unfold lookupBytes
    rw [hrunes, if_pos (show utf8Chars (Itoa i).data = utf8 (Itoa i) from rfl)]
  rw [hv, hl]
  rfl

/-- C12. From every state of the store (the reachable ones among them), after a
`postReceipt` of a receipt that answers with an identifier, the GET request for
"/receipts/" followed by that identifier and "/points" is answered by `handler`
with the points that `calcPoints` gives for the receipt, the store being left as it
is: the identifier cut out of the path is the one issued and it is a key of
`pointsAwarded`. -/
theorem points_served_under_identifier (st : Store) (r : Receipt) (id : String)
    (h : (postReceipt st (some r)).2 = Response.id id) :
    ∃ points, calcPoints r = some points ∧
      handler (postReceipt st (some r)).1 "GET" (utf8 ("/receipts/" ++ id ++ "/points")) none
        = ((postReceipt st (some r)).1, Response.points points) := by
  rcases postReceipt_cases st (some r) with ⟨_, message, code, h1⟩ | ⟨r2, points, hr, _, hp, h2⟩
  · rw [h1] at h
    cases h
  · have e : r2 = r := (Option.some.inj hr).symm
    subst e
    rw [h2] at h ⊢
    have hid : Itoa st.curID = id := by simpa using h
    subst hid
    refine ⟨points, hp, ?_⟩
    have hm : ¬ (utf8 ("/receipts/" ++ Itoa st.curID ++ "/points") = utf8 "/receipts/process"
        ∧ "GET" = "POST") := fun hc => absurd hc.2 (by decide)
    have hpre : hasPrefix (utf8 ("/receipts/" ++ Itoa st.curID ++ "/points"))
        (utf8 "/receipts/") = true := by
      rw [utf8_append, utf8_append, List.append_assoc]
      exact hasPrefix_append _ _
    unfold handler
    rw [if_neg hm, if_pos ⟨hpre, rfl⟩, getReceiptPoints_of_Itoa]
    simp [mapSet]

/-- C12, on `TestGetReceiptPointsHappyPath` with the first receipt of
`TestCalcPoints`: posted to the empty store it gets the identifier "0", and
"/receipts/0/points" is answered with its 109 points. -/
theorem points_served_under_identifier_witness :
    (postReceipt emptyStore (some scenarioA)).2 = Response.id "0" ∧
    (∃ points, calcPoints scenarioA = some points ∧
      handler (postReceipt emptyStore (some scenarioA)).1 "GET"
          (utf8 ("/receipts/" ++ "0" ++ "/points")) none
        = ((postReceipt emptyStore (some scenarioA)).1, Response.points points)) ∧
    (handler (postReceipt emptyStore (some scenarioA)).1 "GET"
      (utf8 "/receipts/0/points") none).2 = Response.points 109 :=
  ⟨by decide, points_served_under_identifier emptyStore scenarioA "0" (by decide), by decide⟩

/-! ## C14: a path without a slash after the identifier -/

/-- C14 (a defect of the program). The GET request for "/receipts/abc" has a path
that begins with "/receipts/", and `handler` passes it to `getReceiptPoints`, which
panics: no slash follows the prefix, `strings.Index` returns -1 and the slice
`id[:slashIndex]` is out of range; the same happens to a GET of "/receipts/process"
and of "/receipts/".  With a slash after the identifier the answer is 404 for an
unknown or malformed identifier: "/receipts/invalid-id/points" (the request of
`TestGetReceiptPointsInvalidID`), "/receipts//points" and "/receipts/a b/points". -/
theorem getReceiptPoints_panics_without_slash :
    hasPrefix (utf8 "/receipts/abc") (utf8 "/receipts/") = true ∧
    Index [0x61, 0x62, 0x63] 0x2F = -1 ∧
    (handler emptyStore "GET" (utf8 "/receipts/abc") none).2 = Response.panicked ∧
    (handler emptyStore "GET" (utf8 "/receipts/process") none).2 = Response.panicked ∧
    (handler emptyStore "GET" (utf8 "/receipts/") none).2 = Response.panicked ∧
    (handler emptyStore "GET" (utf8 "/receipts/invalid-id/points") none).2
      = Response.error "Receipt not found for given ID " 404 ∧
    (handler emptyStore "GET" (utf8 "/receipts//points") none).2
      = Response.error "invalid ID" 404 ∧
    (handler emptyStore "GET" (utf8 "/receipts/a b/points") none).2
      = Response.error "invalid ID" 404 := by
  decide

/-! ## C15: descriptions of white space only -/

theorem dropWhile_eq_nil_iff_all (p : Char → Bool) (cs : List Char) :
    cs.dropWhile p = [] ↔ ∀ c ∈ cs, p c = true := by
  induction cs with
  | nil => simp
  | cons c cs ih =>
    cases hc : p c
    · simp [List.dropWhile_cons, hc]
    · simp [List.dropWhile_cons, hc, ih]

/-- A text trims to nothing exactly when all its characters are white space. -/
theorem TrimSpace_eq_nil_iff (cs : List Char) :
    TrimSpace cs = [] ↔ ∀ c ∈ cs, IsSpace c = true := by
  unfold TrimSpace
  rw [List.reverse_eq_nil_iff, dropWhile_eq_nil_iff_all]
  constructor
  · intro h
    have h1 : cs.dropWhile IsSpace = [] := by
      cases hd : cs.dropWhile IsSpace with
      | nil => rfl
      | cons x xs =>
        exfalso
        have hx : IsSpace x = true := h x (by rw [hd]; simp)
        have hne : (cs.dropWhile IsSpace).head? = some x := by rw [hd]; rfl
        have := List.head?_dropWhile_not IsSpace cs
        rw [hne] at this
        simp [hx] at this
    exact (dropWhile_eq_nil_iff_all IsSpace cs).1 h1
  · intro h c hc
    rw [(dropWhile_eq_nil_iff_all IsSpace cs).2 h] at hc
    simp at hc

theorem shortDescClass_space (c : Char)
    (h : (perlWord c || perlSpace c || decide (c.toNat = 0x2D)) = true) :
    IsSpace c = perlSpace c := by
  rw [Bool.eq_iff_iff]
  simp only [perlWord, perlDigit, perlSpace, Bool.or_eq_true, Bool.and_eq_true,
    decide_eq_true_eq] at h ⊢
  simp only [IsSpace, Bool.or_eq_true, Bool.and_eq_true, decide_eq_true_eq]
  omega

/-- C15, as the program has it. For every receipt that passes the checks and every
item of it, the description is not empty before trimming; trimmed, it is empty
exactly when the description is made of tabs, newlines, form feeds, carriage returns
and spaces only, and then (0 being divisible by 3) the rule of the items does fire:
the points of the price are added. -/
theorem description_nonempty_before_trim (r : Receipt) (h : postReceiptChecks r = none) :
    ∀ item ∈ r.Items,
      item.ShortDescription.data ≠ [] ∧
      ((utf8Chars (TrimSpace item.ShortDescription.data)).length = 0 ↔
        ∀ c ∈ item.ShortDescription.data, perlSpace c = true) ∧
      ((∀ c ∈ item.ShortDescription.data, perlSpace c = true) →
        ∀ points : Int, itemStep points item = addInt points
          (floatToInt (Ceil (mulFloat64 float_0_2 (ParseFloat (utf8 item.Price) 32).1)))) := by
  obtain ⟨_, _, _, hitems, _, _⟩ := accepted_facts r h
  intro item hi
  have hd := (hitems item hi).1
  have hd' := hd
  simp only [validateString, shortDescPattern, MatchString, Bool.and_eq_true,
    Bool.not_eq_true', List.isEmpty_eq_false, List.all_eq_true] at hd'
  have hlen : (utf8Chars (TrimSpace item.ShortDescription.data)).length
      = (TrimSpace item.ShortDescription.data).length :=
    utf8Chars_length_ascii _
      (fun c hc => shortDesc_ascii _ hd c (mem_of_mem_TrimSpace _ c hc))
  have hiff : (utf8Chars (TrimSpace item.ShortDescription.data)).length = 0 ↔
      ∀ c ∈ item.ShortDescription.data, perlSpace c = true := by
    rw [hlen, List.length_eq_zero, TrimSpace_eq_nil_iff]
    constructor
    · intro hs c hc
      rw [← shortDescClass_space c (hd'.2 c hc)]
      exact hs c hc
    · intro hs c hc
      rw [shortDescClass_space c (hd'.2 c hc)]
      exact hs c hc
  refine ⟨hd'.1, hiff, ?_⟩
  intro hs points
  unfold itemStep
  dsimp only
  rw [hiff.2 hs]
  simp

/-- C15, on the receipt `blankDescription`: it passes the checks and the rule of the
items adds the point of the price 5.00 for its description of three spaces. -/
theorem description_nonempty_before_trim_witness :
    postReceiptChecks blankDescription = none ∧
    (∀ item ∈ blankDescription.Items,
      item.ShortDescription.data ≠ [] ∧
      ((utf8Chars (TrimSpace item.ShortDescription.data)).length = 0 ↔
        ∀ c ∈ item.ShortDescription.data, perlSpace c = true) ∧
      ((∀ c ∈ item.ShortDescription.data, perlSpace c = true) →
        ∀ points : Int, itemStep points item = addInt points
          (floatToInt (Ceil (mulFloat64 float_0_2 (ParseFloat (utf8 item.Price) 32).1))))) :=
  ⟨by decide, description_nonempty_before_trim blankDescription (by decide)⟩

/-- C15 as stated fails: the receipt `blankDescription` passes every check, the
description of its item has length 0 after trimming, and the rule of the items
fires on it, adding 1 point for the price 5.00 (7 points in all, 6 being for the
retailer). -/
theorem blank_description_is_accepted :
    postReceiptChecks blankDescription = none ∧
    (TrimSpace "   ".data).length = 0 ∧
    itemStep 0 ⟨"   ", "5.00"⟩ = 1 ∧
    calcPoints blankDescription = some 7 := by
  decide

/-! ## C16: the time check -/

theorem validateTime_none_iff (s : String) :
    validateTime s = none ↔ ∃ h m, parseHourMinute (utf8 s) = some (h, m) := by
  unfold validateTime
  cases hp : parseHourMinute (utf8 s) with
  | none => simp
  | some p => exact ⟨fun _ => ⟨p.1, p.2, rfl⟩, fun _ => rfl⟩

theorem parseHourMinute_one_digit_hour (a c d : Nat) (ha : isDigitByte a = true)
    (hc : isDigitByte c = true) (hd : isDigitByte d = true)
    (hm : (c - 48) * 10 + (d - 48) < 60) :
    parseHourMinute [a, 0x3A, c, d] = some (a - 48, (c - 48) * 10 + (d - 48)) := by
  have h1 := (isDigitByte_iff a).1 ha
  have h2 : ¬ 24 ≤ a - 48 := by omega
  have h3 : ¬ 60 ≤ (c - 48) * 10 + (d - 48) := by omega
  have h4 : isDigitByte 0x3A = false := by decide
  simp [parseHourMinute, getnum, ha, hc, hd, h2, h3, h4]

theorem parseHourMinute_two_digit_hour (a a2 c d : Nat) (ha : isDigitByte a = true)
    (ha2 : isDigitByte a2 = true) (hc : isDigitByte c = true) (hd : isDigitByte d = true)
    (hh : (a - 48) * 10 + (a2 - 48) < 24) (hm : (c - 48) * 10 + (d - 48) < 60) :
    parseHourMinute [a, a2, 0x3A, c, d]
      = some ((a - 48) * 10 + (a2 - 48), (c - 48) * 10 + (d - 48)) := by
  have h2 : ¬ 24 ≤ (a - 48) * 10 + (a2 - 48) := by omega
  have h3 : ¬ 60 ≤ (c - 48) * 10 + (d - 48) := by omega
  simp [parseHourMinute, getnum, ha, ha2, hc, hd, h2, h3]

/-- The texts that `validateTime` accepts, by their bytes. -/
theorem validateTime_accepts_iff (s : String) :
    validateTime s = none ↔
      ((∃ a c d, utf8 s = [a, 0x3A, c, d] ∧ isDigitByte a = true ∧ isDigitByte c = true ∧
          isDigitByte d = true ∧ (c - 48) * 10 + (d - 48) < 60) ∨
       (∃ a a2 c d, utf8 s = [a, a2, 0x3A, c, d] ∧ isDigitByte a = true ∧
          isDigitByte a2 = true ∧ isDigitByte c = true ∧ isDigitByte d = true ∧
          (a - 48) * 10 + (a2 - 48) < 24 ∧ (c - 48) * 10 + (d - 48) < 60)) := by
  rw [validateTime_none_iff]
  constructor
  · rintro ⟨h, m, hp⟩
    obtain ⟨hh, hm, hs | hs⟩ := parseHourMinute_shape _ h m hp
    · obtain ⟨a, c, d, e, ha, hc, hd, rfl, rfl⟩ := hs
      exact Or.inl ⟨a, c, d, e, ha, hc, hd, hm⟩
    · obtain ⟨a, a2, c, d, e, ha, ha2, hc, hd, rfl, rfl⟩ := hs
      exact Or.inr ⟨a, a2, c, d, e, ha, ha2, hc, hd, hh, hm⟩
  · rintro (⟨a, c, d, e, ha, hc, hd, hm⟩ | ⟨a, a2, c, d, e, ha, ha2, hc, hd, hh, hm⟩)
    · exact ⟨_, _, by rw [e]; exact parseHourMinute_one_digit_hour a c d ha hc hd hm⟩
    · exact ⟨_, _, by rw [e]; exact parseHourMinute_two_digit_hour a a2 c d ha ha2 hc hd hh hm⟩

/-- The time rejection is the answer exactly when no field is missing, the retailer,
the total and the items pass their checks, and `validateTime` returns an error. -/
theorem time_rejection_iff (st : Store) (r : Receipt) :
    (postReceipt st (some r)).2 = Response.error "The purchase time is invalid" 400 ↔
      (¬ (r.Retailer = "" ∨ r.PurchaseDate = "" ∨ r.PurchaseTime = "" ∨ r.Total = ""
          ∨ r.Items.length ≤ 0) ∧
        validateString r.Retailer retailerPattern = true ∧
        validateString r.Total totalPattern = true ∧
        checkItems r.Items = none ∧
        validateTime r.PurchaseTime ≠ none) := by
  have hr : (postReceipt st (some r)).2 = Response.error "The purchase time is invalid" 400 ↔
      postReceiptChecks r = some (Response.error "The purchase time is invalid" 400) := by
    rw [postReceipt_response]
    cases postReceiptChecks r with
    | some rejection => exact ⟨fun h => congrArg some h, fun h => Option.some.inj h⟩
    | none => exact ⟨fun h => (by cases h), fun h => (by cases h)⟩
  rw [hr]
  have n1 : Response.error "The receipt is invalid." 400 ≠
      Response.error "The purchase time is invalid" 400 := by decide
  have n2 : Response.error "The retailer name is invalid" 400 ≠
      Response.error "The purchase time is invalid" 400 := by decide
  have n3 : Response.error "The total is invalid" 400 ≠
      Response.error "The purchase time is invalid" 400 := by decide
  have n4 : Response.error "The short description for an item is invalid" 400 ≠
      Response.error "The purchase time is invalid" 400 := by decide
  have n5 : Response.error "The price for an item is invalid" 400 ≠
      Response.error "The purchase time is invalid" 400 := by decide
  have n6 : Response.error "The purchase date is invalid" 400 ≠
      Response.error "The purchase time is invalid" 400 := by decide
  unfold postReceiptChecks
  by_cases h1 : r.Retailer = "" ∨ r.PurchaseDate = "" ∨ r.PurchaseTime = "" ∨ r.Total = ""
      ∨ r.Items.length ≤ 0
  · rw [if_pos h1]
    exact ⟨fun h => absurd (Option.some.inj h) n1, fun h => absurd h1 h.1⟩
  · rw [if_neg h1]
    cases h2 : validateString r.Retailer retailerPattern
    · exact ⟨fun h => absurd (Option.some.inj h) n2, fun h => absurd h.2.1 (by simp)⟩
    · simp only [Bool.not_true, Bool.false_eq_true, if_false]
      cases h3 : validateString r.Total totalPattern
      · exact ⟨fun h => absurd (Option.some.inj h) n3, fun h => absurd h.2.2.1 (by simp)⟩
      · simp only [Bool.not_true, Bool.false_eq_true, if_false]
        cases hc : checkItems r.Items with
        | some rejection =>
          refine ⟨fun h => ?_, fun h => absurd h.2.2.2.1 (by simp)⟩
          exfalso
          rcases checkItems_some _ _ hc with e | e
          · rw [e] at h; exact n4 (Option.some.inj h)
          · rw [e] at h; exact n5 (Option.some.inj h)
        | none =>
          by_cases h4 : validateTime r.PurchaseTime ≠ none
          · rw [if_pos h4]
            exact ⟨fun _ => ⟨h1, trivial, trivial, rfl, h4⟩, fun _ => rfl⟩
          · refine ⟨fun h => ?_, fun h => absurd h.2.2.2.2 h4⟩
            exfalso
            by_cases h5 : validateDate r.PurchaseDate ≠ none
            · rw [if_neg h4, if_pos h5] at h
              exact n6 (Option.some.inj h)
            · rw [if_neg h4, if_neg h5] at h
              cases h

/-- C16, as the program has it. The purchase time check (`validateTime` returning no
error) accepts a string exactly when its bytes are one digit or two digits that
read an hour below 24, a colon, and two digits that read a minute below 60: the hour
may be written with one digit.  A receipt that passes the checks before it is
rejected as an invalid time exactly when its purchase time is any other string.
"9:30" and "14:00" are accepted; "1400" (of `TestInvalidReceipts`), "24:00", "14:5"
and "14:60" are rejected. -/
theorem time_check_accepts_one_digit_hour :
    (∀ s : String, validateTime s = none ↔
      ((∃ a c d, utf8 s = [a, 0x3A, c, d] ∧ isDigitByte a = true ∧ isDigitByte c = true ∧
          isDigitByte d = true ∧ (c - 48) * 10 + (d - 48) < 60) ∨
       (∃ a a2 c d, utf8 s = [a, a2, 0x3A, c, d] ∧ isDigitByte a = true ∧
          isDigitByte a2 = true ∧ isDigitByte c = true ∧ isDigitByte d = true ∧
          (a - 48) * 10 + (a2 - 48) < 24 ∧ (c - 48) * 10 + (d - 48) < 60))) ∧
    (∀ (st : Store) (r : Receipt),
      ((postReceipt st (some r)).2 = Response.error "The purchase time is invalid" 400 ↔
        (¬ (r.Retailer = "" ∨ r.PurchaseDate = "" ∨ r.PurchaseTime = "" ∨ r.Total = ""
            ∨ r.Items.length ≤ 0) ∧
          validateString r.Retailer retailerPattern = true ∧
          validateString r.Total totalPattern = true ∧
          checkItems r.Items = none ∧
          validateTime r.PurchaseTime ≠ none))) ∧
    validateTime "9:30" = none ∧ validateTime "14:00" = none ∧
    validateTime "1400" ≠ none ∧ validateTime "24:00" ≠ none ∧
    validateTime "14:5" ≠ none ∧ validateTime "14:60" ≠ none ∧
    (postReceipt emptyStore (some timeWithoutColon)).2
      = Response.error "The purchase time is invalid" 400 :=
  ⟨validateTime_accepts_iff, time_rejection_iff, by decide, by decide, by decide, by decide,
    by decide, by decide, by decide⟩

/-- C16 as stated fails: "9:30" has a one-digit hour, yet `validateTime` returns no
error for it, and the receipt `oneDigitHour` with this purchase time passes every
check and is stored (its answer is the first identifier, "0"). -/
theorem one_digit_hour_is_accepted :
    validateTime "9:30" = none ∧
    utf8 "9:30" = [0x39, 0x3A, 0x33, 0x30] ∧
    parseHourMinute (utf8 "9:30") = some (9, 30) ∧
    postReceiptChecks oneDigitHour = none ∧
    (postReceipt emptyStore (some oneDigitHour)).2 = Response.id "0" := by
  decide

/-! ## C17: the pattern of the total and of the prices -/

theorem matchDigitsDotTwo_iff (cs : List Char) :
    matchDigitsDotTwo cs = true ↔
      ∃ ds a b, cs = ds ++ ['.', a, b] ∧ (∀ c ∈ ds, c.isDigit = true) ∧
        a.isDigit = true ∧ b.isDigit = true := by
  have hdot : perlDigit '.' = false := by decide
  induction cs with
  | nil =>
    constructor
    · intro h
      simp [matchDigitsDotTwo] at h
    · rintro ⟨ds, a, b, h, _⟩
      cases ds <;> cases h
  | cons c cs ih =>
    unfold matchDigitsDotTwo
    cases hc : perlDigit c
    · rw [if_neg (by simp)]
      constructor
      · intro h
        rw [Bool.and_eq_true, decide_eq_true_eq] at h
        have hcd : c = '.' := char_eq_of_toNat c '.' h.1
        rcases cs with _ | ⟨a, _ | ⟨b, _ | ⟨x, r⟩⟩⟩
        · simp at h
        · simp at h
        · have h2 := h.2
          simp only [Bool.and_eq_true] at h2
          refine ⟨[], a, b, by rw [hcd]; rfl, by simp, ?_, ?_⟩
          · rw [isDigit_eq_perlDigit]; exact h2.1
          · rw [isDigit_eq_perlDigit]; exact h2.2
        · simp at h
      · rintro ⟨ds, a, b, h, hds, ha, hb⟩
        rcases ds with _ | ⟨d, ds⟩
        · simp only [List.nil_append, List.cons.injEq] at h
          obtain ⟨rfl, rfl⟩ := h
          rw [isDigit_eq_perlDigit] at ha hb
          simp [ha, hb]
        · simp only [List.cons_append, List.cons.injEq] at h
          have := hds d (by simp)
          rw [isDigit_eq_perlDigit, ← h.1, hc] at this
          cases this
    · rw [if_pos rfl]
      refine ih.trans ?_
      constructor
      · rintro ⟨ds, a, b, h, hds, ha, hb⟩
        refine ⟨c :: ds, a, b, by rw [h]; rfl, ?_, ha, hb⟩
        intro x hx
        rcases List.mem_cons.1 hx with e | e
        · rw [e, isDigit_eq_perlDigit]; exact hc
        · exact hds x e
      · rintro ⟨ds, a, b, h, hds, ha, hb⟩
        rcases ds with _ | ⟨d, ds⟩
        · simp only [List.nil_append, List.cons.injEq] at h
          rw [h.1, hdot] at hc
          cases hc
        · simp only [List.cons_append, List.cons.injEq] at h
          exact ⟨ds, a, b, h.2, fun x hx => hds x (by simp [hx]), ha, hb⟩

/-- The texts that the pattern `^\d+\.\d{2}$` matches. -/
theorem digitsDotTwoDigits_iff (cs : List Char) :
    MatchString Regexp.digitsDotTwoDigits cs = true ↔
      ∃ ds a b, cs = ds ++ ['.', a, b] ∧ ds ≠ [] ∧ (∀ c ∈ ds, c.isDigit = true) ∧
        a.isDigit = true ∧ b.isDigit = true := by
  have hdot : perlDigit '.' = false := by decide
  rcases cs with _ | ⟨c, rest⟩
  · constructor
    · intro h
      simp [MatchString] at h
    · rintro ⟨ds, a, b, h, _⟩
      cases ds <;> cases h
  · simp only [MatchString, Bool.and_eq_true]
    rw [matchDigitsDotTwo_iff]
    constructor
    · rintro ⟨hc, ds, a, b, h, hds, ha, hb⟩
      refine ⟨c :: ds, a, b, by rw [h]; rfl, by simp, ?_, ha, hb⟩
      intro x hx
      rcases List.mem_cons.1 hx with e | e
      · rw [e, isDigit_eq_perlDigit]; exact hc
      · exact hds x e
    · rintro ⟨ds, a, b, h, hne, hds, ha, hb⟩
      rcases ds with _ | ⟨d, ds⟩
      · exact absurd rfl hne
      · simp only [List.cons_append, List.cons.injEq] at h
        refine ⟨?_, ds, a, b, h.2, fun x hx => hds x (by simp [hx]), ha, hb⟩
        rw [h.1, ← isDigit_eq_perlDigit]
        exact hds d (by simp)

/-- The total rejection is the answer exactly when no field is missing, the retailer
passes its check and the total does not match its pattern. -/
theorem total_rejection_iff (st : Store) (r : Receipt) :
    (postReceipt st (some r)).2 = Response.error "The total is invalid" 400 ↔
      (¬ (r.Retailer = "" ∨ r.PurchaseDate = "" ∨ r.PurchaseTime = "" ∨ r.Total = ""
          ∨ r.Items.length ≤ 0) ∧
        validateString r.Retailer retailerPattern = true ∧
        validateString r.Total totalPattern = false) := by
  have hr : (postReceipt st (some r)).2 = Response.error "The total is invalid" 400 ↔
      postReceiptChecks r = some (Response.error "The total is invalid" 400) := by
    rw [postReceipt_response]
    cases postReceiptChecks r with
    | some rejection => exact ⟨fun h => congrArg some h, fun h => Option.some.inj h⟩
    | none => exact ⟨fun h => (by cases h), fun h => (by cases h)⟩
  rw [hr]
  have n1 : Response.error "The receipt is invalid." 400 ≠
      Response.error "The total is invalid" 400 := by decide
  have n2 : Response.error "The retailer name is invalid" 400 ≠
      Response.error "The total is invalid" 400 := by decide
  have n3 : Response.error "The purchase time is invalid" 400 ≠
      Response.error "The total is invalid" 400 := by decide
  have n4 : Response.error "The short description for an item is invalid" 400 ≠
      Response.error "The total is invalid" 400 := by decide
  have n5 : Response.error "The price for an item is invalid" 400 ≠
      Response.error "The total is invalid" 400 := by decide
  have n6 : Response.error "The purchase date is invalid" 400 ≠
      Response.error "The total is invalid" 400 := by decide
  unfold postReceiptChecks
  by_cases h1 : r.Retailer = "" ∨ r.PurchaseDate = "" ∨ r.PurchaseTime = "" ∨ r.Total = ""
      ∨ r.Items.length ≤ 0
  · rw [if_pos h1]
    exact ⟨fun h => absurd (Option.some.inj h) n1, fun h => absurd h1 h.1⟩
  · rw [if_neg h1]
    cases h2 : validateString r.Retailer retailerPattern
    · exact ⟨fun h => absurd (Option.some.inj h) n2, fun h => absurd h.2.1 (by simp)⟩
    · simp only [Bool.not_true, Bool.false_eq_true, if_false]
      cases h3 : validateString r.Total totalPattern
      · exact ⟨fun _ => ⟨h1, trivial, rfl⟩, fun _ => rfl⟩
      · refine ⟨fun h => ?_, fun h => absurd h.2.2 (by simp)⟩
        exfalso
        simp only [Bool.not_true, Bool.false_eq_true, if_false] at h
        cases hc : checkItems r.Items with
        | some rejection =>
          rw [hc] at h
          rcases checkItems_some _ _ hc with e | e
          · rw [e] at h; exact n4 (Option.some.inj h)
          · rw [e] at h; exact n5 (Option.some.inj h)
        | none =>
          rw [hc] at h
          by_cases h4 : validateTime r.PurchaseTime ≠ none
          · rw [if_pos h4] at h
            exact n3 (Option.some.inj h)
          · by_cases h5 : validateDate r.PurchaseDate ≠ none
            · rw [if_neg h4, if_pos h5] at h
              exact n6 (Option.some.inj h)
            · rw [if_neg h4, if_neg h5] at h
              cases h

/-- The loop over the items finds no rejection exactly when every description and
every price matches its pattern. -/
theorem checkItems_none_iff (items : List Item) :
    checkItems items = none ↔
      ∀ item ∈ items, validateString item.ShortDescription shortDescPattern = true ∧
        validateString item.Price pricePattern = true := by
  induction items with
  | nil => simp [checkItems]
  | cons it rest ih =>
    unfold checkItems
    cases h1 : validateString it.ShortDescription shortDescPattern
    · simp [h1]
    · cases h2 : validateString it.Price pricePattern
      · simp [h1, h2]
      · simp [h1, h2, ih]

/-- C17. The check of the total and the check of an item's price (the patterns
`totalPattern` and `pricePattern`, both `^\d+\.\d{2}$`) each accept a string exactly
when it is one or more decimal digits, then '.', then two decimal digits, and nothing
else.  A receipt with no field missing and an accepted retailer is rejected as an
invalid total exactly when its total is any other string, and the loop over the items
finds nothing to reject exactly when every description and every price is accepted.
"10.00" and "6.49" are accepted; "1000", "649", "10.0", "10.000", ".50" and "-1.00"
are rejected, and the receipts of `TestInvalidReceipts` with the price "649" and
with the total "1000" get the rejections of the price and of the total. -/
theorem money_checks_accept_digits_dot_two_digits :
    (∀ s : String, validateString s totalPattern = true ↔
      ∃ ds a b, s.data = ds ++ ['.', a, b] ∧ ds ≠ [] ∧ (∀ c ∈ ds, c.isDigit = true) ∧
        a.isDigit = true ∧ b.isDigit = true) ∧
    (∀ s : String, validateString s pricePattern = true ↔
      ∃ ds a b, s.data = ds ++ ['.', a, b] ∧ ds ≠ [] ∧ (∀ c ∈ ds, c.isDigit = true) ∧
        a.isDigit = true ∧ b.isDigit = true) ∧
    (∀ (st : Store) (r : Receipt),
      ((postReceipt st (some r)).2 = Response.error "The total is invalid" 400 ↔
        (¬ (r.Retailer = "" ∨ r.PurchaseDate = "" ∨ r.PurchaseTime = "" ∨ r.Total = ""
            ∨ r.Items.length ≤ 0) ∧
          validateString r.Retailer retailerPattern = true ∧
          validateString r.Total totalPattern = false))) ∧
    (∀ items : List Item, checkItems items = none ↔
      ∀ item ∈ items, validateString item.ShortDescription shortDescPattern = true ∧
        validateString item.Price pricePattern = true) ∧
    (validateString "10.00" totalPattern = true ∧ validateString "6.49" totalPattern = true ∧
      validateString "1000" totalPattern = false ∧ validateString "649" totalPattern = false ∧
      validateString "10.0" totalPattern = false ∧
      validateString "10.000" totalPattern = false ∧
      validateString ".50" totalPattern = false ∧
      validateString "-1.00" totalPattern = false) ∧
    (validateString "10.00" pricePattern = true ∧ validateString "6.49" pricePattern = true ∧
      validateString "1000" pricePattern = false ∧ validateString "649" pricePattern = false ∧
      validateString "10.0" pricePattern = false ∧
      validateString "10.000" pricePattern = false ∧
      validateString ".50" pricePattern = false ∧
      validateString "-1.00" pricePattern = false) ∧
    (postReceipt emptyStore (some priceWithoutPoint)).2
      = Response.error "The price for an item is invalid" 400 ∧
    (postReceipt emptyStore (some totalWithoutPoint)).2
      = Response.error "The total is invalid" 400 :=
  ⟨fun s => digitsDotTwoDigits_iff s.data, fun s => digitsDotTwoDigits_iff s.data,
    total_rejection_iff, checkItems_none_iff, by decide, by decide, by decide, by decide⟩

/-! ## C18: the date rule -/

/-- On a text that `time.Parse("2006-01-02", _)` reads, the text after the last dash
is the two digits of the day. -/
theorem date_day_text (b : Bytes) (y mo d : Nat) (hp : parseDateOnly b = some (y, mo, d)) :
    ∃ d1 d2, sliceFrom b (LastIndex b 0x2D + 1) = some [d1, d2] ∧ b = b.take 8 ++ [d1, d2] ∧
      isDigitByte d1 = true ∧ isDigitByte d2 = true ∧ d = (d1 - 48) * 10 + (d2 - 48) ∧
      Atoi [d1, d2] = ((d : Int), none) := by
  obtain ⟨y1, y2, y3, y4, m1, m2, d1, d2, rfl, hd1, hd2, _, _, rfl, _⟩ :=
    parseDateOnly_shape b y mo d hp
  have h1 : d1 ≠ 45 := by have := (isDigitByte_iff d1).1 hd1; omega
  have h2 : d2 ≠ 45 := by have := (isDigitByte_iff d2).1 hd2; omega
  have hl : LastIndex [y1, y2, y3, y4, 0x2D, m1, m2, 0x2D, d1, d2] 0x2D = 7 := by
    simp [LastIndex, lastIndexFrom, h1, h2]
  refine ⟨d1, d2, ?_, rfl, hd1, hd2, rfl, Atoi_two_digits d1 d2 hd1 hd2⟩
  rw [hl]
  simp [sliceFrom]

/-- C18. For every purchase date that the validator accepts (`validateDate` returns
no error, so the date is YYYY-MM-DD and a day of the calendar) and whatever the
points counted before, the text that `calcPoints` takes after the last dash is the
two digits of the day, `Atoi` reads the day of the month from it, and the date block
adds 6 when that day is odd and nothing when it is even. -/
theorem dateBlock_adds_six_iff_day_odd (points : Int) (PurchaseDate : String)
    (h : validateDate PurchaseDate = none) :
    ∃ year month day d1 d2,
      parseDateOnly (utf8 PurchaseDate) = some (year, month, day) ∧
      sliceFrom (utf8 PurchaseDate) (LastIndex (utf8 PurchaseDate) 0x2D + 1)
        = some [d1, d2] ∧
      utf8 PurchaseDate = (utf8 PurchaseDate).take 8 ++ [d1, d2] ∧
      isDigitByte d1 = true ∧ isDigitByte d2 = true ∧
      day = (d1 - 48) * 10 + (d2 - 48) ∧ 1 ≤ day ∧ day ≤ 31 ∧
      Atoi [d1, d2] = ((day : Int), none) ∧
      dateBlock points PurchaseDate =
        some (if day % 2 = 1 then addInt points 6 else points) := by
  unfold validateDate at h
  split at h
  · rename_i x hx
    obtain ⟨year, month, day⟩ := x
    obtain ⟨d1, d2, hs, hb, hd1, hd2, hd, ha⟩ := date_day_text _ year month day hx
    obtain ⟨_, _, _, _, _, _, _, _, _, _, _, _, _, _, _, _, _, hlo, hhi⟩ :=
      parseDateOnly_shape _ year month day hx
    exact ⟨year, month, day, d1, d2, hx, hs, hb, hd1, hd2, hd, hlo,
      le_trans hhi (daysIn_le _ _), ha, dateBlock_of_parse points PurchaseDate year month day hx⟩
  · cases h

/-- C18, on the dates of the spec: "2022-01-01" adds 6, "2022-03-20" adds nothing,
"2024-02-29" adds 6. -/
theorem dateBlock_adds_six_iff_day_odd_witness :
    validateDate "2022-01-01" = none ∧
    (∃ year month day d1 d2,
      parseDateOnly (utf8 "2022-01-01") = some (year, month, day) ∧
      sliceFrom (utf8 "2022-01-01") (LastIndex (utf8 "2022-01-01") 0x2D + 1)
        = some [d1, d2] ∧
      utf8 "2022-01-01" = (utf8 "2022-01-01").take 8 ++ [d1, d2] ∧
      isDigitByte d1 = true ∧ isDigitByte d2 = true ∧
      day = (d1 - 48) * 10 + (d2 - 48) ∧ 1 ≤ day ∧ day ≤ 31 ∧
      Atoi [d1, d2] = ((day : Int), none) ∧
      dateBlock 0 "2022-01-01" = some (if day % 2 = 1 then addInt 0 6 else 0)) ∧
    validateDate "2022-03-20" = none ∧ validateDate "2024-02-29" = none ∧
    dateBlock 0 "2022-01-01" = some 6 ∧ dateBlock 0 "2022-03-20" = some 0 ∧
    dateBlock 0 "2024-02-29" = some 6 :=
  ⟨by decide, dateBlock_adds_six_iff_day_odd 0 "2022-01-01" (by decide), by decide, by decide,
    by decide, by decide, by decide⟩

/-! ## C19: the order of the items -/

theorem addInt_right_comm (z a b : Int) : addInt (addInt z a) b = addInt (addInt z b) a := by
  unfold addInt wrapInt
  omega

theorem itemStep_right_comm (z : Int) (x y : Item) :
    itemStep (itemStep z x) y = itemStep (itemStep z y) x := by
  unfold itemStep
  dsimp only
  split <;> split <;> first | rfl | exact addInt_right_comm _ _ _

/-- C19. For every receipt and every rearrangement of its items, `calcPoints` of the
receipt with the rearranged items is `calcPoints` of the receipt: the same points,
or a panic for both. -/
theorem calcPoints_permutation_invariant (r : Receipt) (items : List Item)
    (h : List.Perm r.Items items) :
    calcPoints { r with Items := items } = calcPoints r := by
  have h1 : ∀ points, pairsBlock points items = pairsBlock points r.Items := by
    intro points
    unfold pairsBlock
    rw [h.length_eq]
  have h2 : ∀ points, itemsBlock points items = itemsBlock points r.Items := by
    intro points
    unfold itemsBlock
    exact (List.Perm.foldl_eq' h (fun x _ y _ z => itemStep_right_comm z x y) points).symm
  unfold calcPoints
  simp only [h1, h2]

/-- C19, on the receipt `scenarioB` with its five items in the reverse order: 28
points both ways. -/
theorem calcPoints_permutation_invariant_witness :
    List.Perm scenarioB.Items scenarioB.Items.reverse ∧
    calcPoints { scenarioB with Items := scenarioB.Items.reverse } = calcPoints scenarioB ∧
    calcPoints { scenarioB with Items := scenarioB.Items.reverse } = some 28 :=
  ⟨(List.reverse_perm _).symm,
    calcPoints_permutation_invariant scenarioB _ (List.reverse_perm _).symm, by decide⟩

end ReceiptService
